import Mathlib

/-!
Verification of the yw2md converter core (the file yw2md.pyw) against its
natural-language specification.

The Python source is shallowly embedded: strings are lists of characters,
Python dictionaries (which preserve insertion order) are association lists
with update-or-append semantics, optional values are Option, and code that
can raise an uncaught exception returns Except.  The handful of regular
expressions used by the source are embedded as dedicated scanners that
mirror the leftmost, lazy or greedy behaviour of the concrete patterns.
-/

set_option autoImplicit false

namespace Yw2md

/-- Python strings are modelled as lists of characters. -/
abbrev Str := List Char

/-- Exceptions that the embedded code can raise. -/
inductive PyErr where
  /-- Dictionary lookup of a missing key. -/
  | keyError
  /-- Attribute access or method call on an object lacking it. -/
  | attributeError
  /-- Operation applied to a value of the wrong type, e.g. re.sub on None. -/
  | typeError
  /-- Sequence index out of range, e.g. element 1 of a 1-element split result. -/
  | indexError
  deriving DecidableEq

/-! ## Python string primitives -/

/-- Fuel-driven body of Python str.replace with a non-empty pattern
p0 :: pt: leftmost, non-overlapping, sequential replacement.  The fuel
only serves structural recursion; any fuel at least the string length
gives the same result. -/
def pyReplacePF (p0 : Char) (pt r : Str) : Nat → Str → Str
  | _, [] => []
  | 0, s => s
  | fuel + 1, c :: rest =>
    if (p0 :: pt).isPrefixOf (c :: rest) then
      r ++ pyReplacePF p0 pt r fuel (rest.drop pt.length)
    else
      c :: pyReplacePF p0 pt r fuel rest

/-- Python str.replace with a non-empty pattern p0 :: pt. -/
def pyReplaceP (p0 : Char) (pt r : Str) (s : Str) : Str :=
  pyReplacePF p0 pt r s.length s

theorem pyReplacePF_invar (p0 : Char) (pt r : Str) :
    ∀ (f1 : Nat) (s : Str) (f2 : Nat), s.length ≤ f1 → s.length ≤ f2 →
      pyReplacePF p0 pt r f1 s = pyReplacePF p0 pt r f2 s := by
  intro f1
  induction f1 with
  | zero =>
    intro s f2 h1 _
    have hs : s = [] := List.length_eq_zero.mp (Nat.le_zero.mp h1)
    subst hs
    cases f2 <;> rfl
  | succ k ih =>
    intro s f2 h1 h2
    cases s with
    | nil => cases f2 <;> rfl
    | cons c rest =>
      cases f2 with
      | zero => simp at h2
      | succ m =>
        simp only [pyReplacePF]
        simp only [List.length_cons] at h1 h2
        split
        · congr 1
          apply ih
          · have := List.length_drop pt.length rest
            omega
          · have := List.length_drop pt.length rest
            omega
        · congr 1
          apply ih <;> omega

theorem pyReplaceP_nil (p0 : Char) (pt r : Str) : pyReplaceP p0 pt r [] = [] := rfl

theorem pyReplaceP_cons (p0 : Char) (pt r : Str) (c : Char) (rest : Str) :
    pyReplaceP p0 pt r (c :: rest) =
      if (p0 :: pt).isPrefixOf (c :: rest) then
        r ++ pyReplaceP p0 pt r (rest.drop pt.length)
      else
        c :: pyReplaceP p0 pt r rest := by
  show pyReplacePF p0 pt r (rest.length + 1) (c :: rest) = _
  simp only [pyReplacePF]
  split
  · congr 1
    apply pyReplacePF_invar
    · have := List.length_drop pt.length rest
      omega
    · exact Nat.le_refl _
  · rfl

/-- Python str.replace.  The embedded code never replaces an empty pattern. -/
def pyReplace (p r s : Str) : Str :=
  match p with
  | [] => s
  | p0 :: pt => pyReplaceP p0 pt r s

/-- Prepend a character to the first part of a split result. -/
def consHead (c : Char) : List Str → List Str
  | [] => [[c]]
  | h :: t => (c :: h) :: t

/-- Python str.split on the newline character, keeping empty parts. -/
def splitNl : Str → List Str
  | [] => [[]]
  | c :: rest => if c = '\n' then [] :: splitNl rest else consHead c (splitNl rest)

/-- Python newline join of a list of strings. -/
def joinNl (ls : List Str) : Str := List.intercalate ['\n'] ls

/-- Fuel-driven body of Python str.split with a non-empty separator. -/
def pySplitPF (p0 : Char) (pt : Str) : Nat → Str → List Str
  | _, [] => [[]]
  | 0, s => [s]
  | fuel + 1, c :: rest =>
    if (p0 :: pt).isPrefixOf (c :: rest) then
      [] :: pySplitPF p0 pt fuel (rest.drop pt.length)
    else
      consHead c (pySplitPF p0 pt fuel rest)

/-- Python str.split with a non-empty separator p0 :: pt and no maxsplit:
split at every non-overlapping leftmost occurrence, keeping empty parts. -/
def pySplitP (p0 : Char) (pt : Str) (s : Str) : List Str :=
  pySplitPF p0 pt s.length s

theorem pySplitPF_invar (p0 : Char) (pt : Str) :
    ∀ (f1 : Nat) (s : Str) (f2 : Nat), s.length ≤ f1 → s.length ≤ f2 →
      pySplitPF p0 pt f1 s = pySplitPF p0 pt f2 s := by
  intro f1
  induction f1 with
  | zero =>
    intro s f2 h1 _
    have hs : s = [] := List.length_eq_zero.mp (Nat.le_zero.mp h1)
    subst hs
    cases f2 <;> rfl
  | succ k ih =>
    intro s f2 h1 h2
    cases s with
    | nil => cases f2 <;> rfl
    | cons c rest =>
      cases f2 with
      | zero => simp at h2
      | succ m =>
        simp only [pySplitPF]
        simp only [List.length_cons] at h1 h2
        split
        · congr 1
          apply ih
          · have := List.length_drop pt.length rest
            omega
          · have := List.length_drop pt.length rest
            omega
        · congr 1
          apply ih <;> omega

theorem pySplitP_nil (p0 : Char) (pt : Str) : pySplitP p0 pt [] = [[]] := rfl

theorem pySplitP_cons (p0 : Char) (pt : Str) (c : Char) (rest : Str) :
    pySplitP p0 pt (c :: rest) =
      if (p0 :: pt).isPrefixOf (c :: rest) then
        [] :: pySplitP p0 pt (rest.drop pt.length)
      else
        consHead c (pySplitP p0 pt rest) := by
  show pySplitPF p0 pt (rest.length + 1) (c :: rest) = _
  simp only [pySplitPF]
  split
  · congr 1
    apply pySplitPF_invar
    · have := List.length_drop pt.length rest
      omega
    · exact Nat.le_refl _
  · rfl

/-- Python str.split with separator p0 :: pt and maxsplit 1: split at the
first occurrence only; the result has one part (no occurrence) or two. -/
def pySplit1P (p0 : Char) (pt : Str) : Str → List Str
  | [] => [[]]
  | c :: rest =>
    if (p0 :: pt).isPrefixOf (c :: rest) then
      [[], rest.drop pt.length]
    else
      consHead c (pySplit1P p0 pt rest)

/-- Python str.lstrip with a character set: drop leading characters that
belong to the set. -/
def pyLstrip (cs : Str) (s : Str) : Str := s.dropWhile (fun c => decide (c ∈ cs))

/-- The whitespace characters recognised by the no-argument Python
str.split (the ASCII ones suffice for the embedded texts). -/
def pyIsSpace (c : Char) : Bool :=
  decide (c = ' ' ∨ c = '\t' ∨ c = '\n' ∨ c = '\r' ∨ c = Char.ofNat 11 ∨ c = Char.ofNat 12)

theorem dropWhile_len_le (p : Char → Bool) (l : Str) :
    (l.dropWhile p).length ≤ l.length :=
  (List.dropWhile_suffix p).sublist.length_le

/-- Fuel-driven body of the no-argument Python str.split. -/
def wsTokensF : Nat → Str → List Str
  | _, [] => []
  | 0, _ => []
  | fuel + 1, c :: rest =>
    if pyIsSpace c then wsTokensF fuel rest
    else (c :: rest.takeWhile (fun d => ¬ pyIsSpace d)) ::
      wsTokensF fuel (rest.dropWhile (fun d => ¬ pyIsSpace d))

/-- Python no-argument str.split: the maximal runs of non-whitespace
characters; empty tokens are never produced. -/
def wsTokens (s : Str) : List Str := wsTokensF s.length s

theorem wsTokensF_invar :
    ∀ (f1 : Nat) (s : Str) (f2 : Nat), s.length ≤ f1 → s.length ≤ f2 →
      wsTokensF f1 s = wsTokensF f2 s := by
  intro f1
  induction f1 with
  | zero =>
    intro s f2 h1 _
    have hs : s = [] := List.length_eq_zero.mp (Nat.le_zero.mp h1)
    subst hs
    cases f2 <;> rfl
  | succ k ih =>
    intro s f2 h1 h2
    cases s with
    | nil => cases f2 <;> rfl
    | cons c rest =>
      cases f2 with
      | zero => simp at h2
      | succ m =>
        simp only [wsTokensF]
        simp only [List.length_cons] at h1 h2
        split
        · apply ih <;> omega
        · congr 1
          have := dropWhile_len_le (fun d => ¬ pyIsSpace d) rest
          apply ih <;> omega

theorem wsTokens_nil : wsTokens [] = [] := rfl

theorem wsTokens_cons (c : Char) (rest : Str) :
    wsTokens (c :: rest) =
      if pyIsSpace c then wsTokens rest
      else (c :: rest.takeWhile (fun d => ¬ pyIsSpace d)) ::
        wsTokens (rest.dropWhile (fun d => ¬ pyIsSpace d)) := by
  show wsTokensF (rest.length + 1) (c :: rest) = _
  simp only [wsTokensF]
  split
  · rfl
  · congr 1
    apply wsTokensF_invar
    · exact Nat.le_of_lt_succ (Nat.lt_succ_of_le (dropWhile_len_le _ rest))
    · exact Nat.le_refl _

/-- Decimal digits of a positive number, most significant first; the fuel
argument makes the recursion structural and is instantiated with the
number itself, which is always enough. -/
def natIdAux : Nat → Nat → Str
  | 0, _ => []
  | fuel + 1, n =>
    if n = 0 then [] else natIdAux fuel (n / 10) ++ [Char.ofNat (48 + n % 10)]

/-- Python str(n) for a natural number: its decimal digit string. -/
def natId (n : Nat) : Str := if n = 0 then ['0'] else natIdAux n n

/-! ## The regular expressions of the source, embedded as scanners -/

/-- Lazy search for the closing square bracket, the characters already
consumed being content: the earliest closing bracket such that every
content character is not a newline.  Returns the rest after the match. -/
def sqCloseAux : Str → Option Str
  | [] => none
  | c :: rest =>
    if c = ']' then some rest
    else if c = '\n' then none
    else sqCloseAux rest

/-- Match of the regex piece consisting of one or more lazily matched
non-newline characters followed by a closing square bracket, applied right
after an opening bracket: at least one content character is required. -/
def sqClose : Str → Option Str
  | [] => none
  | c :: rest => if c = '\n' then none else sqCloseAux rest

theorem sqCloseAux_len : ∀ {s r : Str}, sqCloseAux s = some r → r.length < s.length := by
  intro s
  induction s with
  | nil => intro r h; simp [sqCloseAux] at h
  | cons c rest ih =>
    intro r h
    simp only [sqCloseAux] at h
    split at h
    · cases h; simp
    · split at h
      · cases h
      · have := ih h
        simp only [List.length_cons]; omega

theorem sqClose_len : ∀ {s r : Str}, sqClose s = some r → r.length < s.length := by
  intro s r h
  cases s with
  | nil => simp [sqClose] at h
  | cons c rest =>
    simp only [sqClose] at h
    split at h
    · cases h
    · have := sqCloseAux_len h
      simp only [List.length_cons]; omega

/-- Fuel-driven body of the word-count strip. -/
def wcStripF : Nat → Str → Str
  | _, [] => []
  | 0, s => s
  | fuel + 1, c :: rest =>
    if c = '[' then
      match sqClose rest with
      | some r => wcStripF fuel r
      | none => '[' :: wcStripF fuel rest
    else if c = '.' ∨ c = ',' then wcStripF fuel rest
    else if c = ' ' ∧ rest.head? = some '-' then wcStripF fuel rest.tail
    else c :: wcStripF fuel rest

/-- The word-count strip in the sceneContent setter: re.sub with the
alternation of a lazy bracket tag, a literal dot, a literal comma and the
two-character sequence space hyphen, each replaced by nothing, scanning
left to right with the alternatives tried in that order. -/
def wcStrip (s : Str) : Str := wcStripF s.length s

theorem wcStripF_invar :
    ∀ (f1 : Nat) (s : Str) (f2 : Nat), s.length ≤ f1 → s.length ≤ f2 →
      wcStripF f1 s = wcStripF f2 s := by
  intro f1
  induction f1 with
  | zero =>
    intro s f2 h1 _
    have hs : s = [] := List.length_eq_zero.mp (Nat.le_zero.mp h1)
    subst hs
    cases f2 <;> rfl
  | succ k ih =>
    intro s f2 h1 h2
    cases s with
    | nil => cases f2 <;> rfl
    | cons c rest =>
      cases f2 with
      | zero => simp at h2
      | succ m =>
        simp only [wcStripF]
        simp only [List.length_cons] at h1 h2
        split
        · rcases hq : sqClose rest with _ | r
          · dsimp only
            congr 1
            apply ih <;> omega
          · dsimp only
            have := sqClose_len hq
            apply ih <;> omega
        · split
          · apply ih <;> omega
          · split
            · have := List.length_tail rest
              apply ih <;> omega
            · congr 1
              apply ih <;> omega

theorem wcStrip_nil : wcStrip [] = [] := rfl

theorem wcStrip_cons (c : Char) (rest : Str) :
    wcStrip (c :: rest) =
      (if c = '[' then
        match sqClose rest with
        | some r => wcStrip r
        | none => '[' :: wcStrip rest
      else if c = '.' ∨ c = ',' then wcStrip rest
      else if c = ' ' ∧ rest.head? = some '-' then wcStrip rest.tail
      else c :: wcStrip rest) := by
  show wcStripF (rest.length + 1) (c :: rest) = _
  simp only [wcStripF]
  split
  · rcases hq : sqClose rest with _ | r
    · dsimp only
      rfl
    · dsimp only
      have := sqClose_len hq
      apply wcStripF_invar <;> omega
  · split
    · rfl
    · split
      · have := List.length_tail rest
        apply wcStripF_invar <;> omega
      · rfl

/-- Fuel-driven body of the letter-count strip. -/
def letterStripF : Nat → Str → Str
  | _, [] => []
  | 0, s => s
  | fuel + 1, c :: rest =>
    if c = '[' then
      match sqClose rest with
      | some r => letterStripF fuel r
      | none => '[' :: letterStripF fuel rest
    else c :: letterStripF fuel rest

/-- The letter-count strip in the sceneContent setter: re.sub removing
only the lazy bracket tags. -/
def letterStrip (s : Str) : Str := letterStripF s.length s

theorem letterStripF_invar :
    ∀ (f1 : Nat) (s : Str) (f2 : Nat), s.length ≤ f1 → s.length ≤ f2 →
      letterStripF f1 s = letterStripF f2 s := by
  intro f1
  induction f1 with
  | zero =>
    intro s f2 h1 _
    have hs : s = [] := List.length_eq_zero.mp (Nat.le_zero.mp h1)
    subst hs
    cases f2 <;> rfl
  | succ k ih =>
    intro s f2 h1 h2
    cases s with
    | nil => cases f2 <;> rfl
    | cons c rest =>
      cases f2 with
      | zero => simp at h2
      | succ m =>
        simp only [letterStripF]
        simp only [List.length_cons] at h1 h2
        split
        · rcases hq : sqClose rest with _ | r
          · dsimp only
            congr 1
            apply ih <;> omega
          · dsimp only
            have := sqClose_len hq
            apply ih <;> omega
        · congr 1
          apply ih <;> omega

theorem letterStrip_nil : letterStrip [] = [] := rfl

theorem letterStrip_cons (c : Char) (rest : Str) :
    letterStrip (c :: rest) =
      (if c = '[' then
        match sqClose rest with
        | some r => letterStrip r
        | none => '[' :: letterStrip rest
      else c :: letterStrip rest) := by
  show letterStripF (rest.length + 1) (c :: rest) = _
  simp only [letterStripF]
  split
  · rcases hq : sqClose rest with _ | r
    · dsimp only
      rfl
    · dsimp only
      have := sqClose_len hq
      apply letterStripF_invar <;> omega
  · rfl

/-- Match, right after an opening square bracket, of the tag-removal regex
of convert_from_yw: zero or more slashes, one character of the class
holding h, c, r, s, u and the bar, zero or more digits, then a closing
bracket.  The starred pieces are greedy but the pattern is deterministic
because the class excludes the slash and the closing bracket is no digit. -/
def tagMatch (s : Str) : Option Str :=
  match s.dropWhile (fun c => decide (c = '/')) with
  | [] => none
  | c :: s2 =>
    if c = 'h' ∨ c = 'c' ∨ c = 'r' ∨ c = 's' ∨ c = 'u' ∨ c = '|' then
      match s2.dropWhile Char.isDigit with
      | [] => none
      | d :: rest => if d = ']' then some rest else none
    else none

theorem tagMatch_len : ∀ {s r : Str}, tagMatch s = some r → r.length < s.length := by
  intro s r h
  simp only [tagMatch] at h
  split at h
  · cases h
  · next c s2 heq =>
    have h1 : s2.length < s.length := by
      have h0 : (c :: s2).length ≤ s.length := by
        rw [← heq]
        exact dropWhile_len_le _ s
      simp only [List.length_cons] at h0; omega
    split at h
    · split at h
      · cases h
      · next d rest heq2 =>
        have h2 : (d :: rest).length ≤ s2.length := by
          rw [← heq2]
          exact dropWhile_len_le _ s2
        simp only [List.length_cons] at h2
        split at h
        · cases h; omega
        · cases h
    · cases h

/-- Fuel-driven body of the tag-removal pass. -/
def tagStripF : Nat → Str → Str
  | _, [] => []
  | 0, s => s
  | fuel + 1, c :: rest =>
    if c = '[' then
      match tagMatch rest with
      | some r => tagStripF fuel r
      | none => '[' :: tagStripF fuel rest
    else c :: tagStripF fuel rest

/-- The tag-removal pass of convert_from_yw: scan left to right, removing
every tag match. -/
def tagStrip (s : Str) : Str := tagStripF s.length s

theorem tagStripF_invar :
    ∀ (f1 : Nat) (s : Str) (f2 : Nat), s.length ≤ f1 → s.length ≤ f2 →
      tagStripF f1 s = tagStripF f2 s := by
  intro f1
  induction f1 with
  | zero =>
    intro s f2 h1 _
    have hs : s = [] := List.length_eq_zero.mp (Nat.le_zero.mp h1)
    subst hs
    cases f2 <;> rfl
  | succ k ih =>
    intro s f2 h1 h2
    cases s with
    | nil => cases f2 <;> rfl
    | cons c rest =>
      cases f2 with
      | zero => simp at h2
      | succ m =>
        simp only [tagStripF]
        simp only [List.length_cons] at h1 h2
        split
        · rcases hq : tagMatch rest with _ | r
          · dsimp only
            congr 1
            apply ih <;> omega
          · dsimp only
            have := tagMatch_len hq
            apply ih <;> omega
        · congr 1
          apply ih <;> omega

theorem tagStrip_nil : tagStrip [] = [] := rfl

theorem tagStrip_cons (c : Char) (rest : Str) :
    tagStrip (c :: rest) =
      (if c = '[' then
        match tagMatch rest with
        | some r => tagStrip r
        | none => '[' :: tagStrip rest
      else c :: tagStrip rest) := by
  show tagStripF (rest.length + 1) (c :: rest) = _
  simp only [tagStripF]
  split
  · rcases hq : tagMatch rest with _ | r
    · dsimp only
      rfl
    · dsimp only
      have := tagMatch_len hq
      apply tagStripF_invar <;> omega
  · rfl

/-- Lazy search for the closing double asterisk of the bold regex, the
characters already consumed being content: the earliest double asterisk,
every content character being neither a newline nor part of the close.
Returns the content and the rest after the close. -/
def bcAux : Str → Option (Str × Str)
  | [] => none
  | c :: rest =>
    if c = '*' then
      match rest with
      | [] => none
      | d :: rest2 =>
        if d = '*' then some ([], rest2)
        else (bcAux rest).map fun p => (c :: p.1, p.2)
    else if c = '\n' then none
    else (bcAux rest).map fun p => (c :: p.1, p.2)

theorem bcAux_len : ∀ {s : Str} {g r : Str}, bcAux s = some (g, r) → r.length < s.length := by
  intro s
  induction s with
  | nil => intro g r h; simp [bcAux] at h
  | cons c rest ih =>
    intro g r h
    simp only [bcAux] at h
    split at h
    · split at h
      · cases h
      · next d rest2 =>
        split at h
        · cases h
          simp only [List.length_cons]; omega
        · simp only [Option.map_eq_some'] at h
          obtain ⟨p, hp, hpe⟩ := h
          cases hpe
          have := ih (g := p.1) (r := p.2) (by rw [hp])
          simp only [List.length_cons] at this ⊢; omega
    · split at h
      · cases h
      · simp only [Option.map_eq_some'] at h
        obtain ⟨p, hp, hpe⟩ := h
        cases hpe
        have := ih (g := p.1) (r := p.2) (by rw [hp])
        simp only [List.length_cons] at this ⊢; omega

/-- Fuel-driven body of the bold substitution. -/
def boldSubF : Nat → Str → Str
  | _, [] => []
  | _, [c] => [c]
  | _, [c, d] => [c, d]
  | 0, s => s
  | fuel + 1, c :: d :: e :: rest3 =>
    if c = '*' ∧ d = '*' ∧ e ≠ '\n' then
      match bcAux rest3 with
      | some (g, after) =>
        ('[' :: 'b' :: ']' :: e :: g) ++ ('[' :: '/' :: 'b' :: ']' :: boldSubF fuel after)
      | none => c :: boldSubF fuel (d :: e :: rest3)
    else c :: boldSubF fuel (d :: e :: rest3)

/-- The bold substitution of convert_to_yw: the regex replacing a lazily
matched non-empty non-newline span between double asterisks by the same
span between internal bold tags, scanning left to right; on a failed match
the scan advances one character. -/
def boldSub (s : Str) : Str := boldSubF s.length s

theorem boldSubF_invar :
    ∀ (f1 : Nat) (s : Str) (f2 : Nat), s.length ≤ f1 → s.length ≤ f2 →
      boldSubF f1 s = boldSubF f2 s := by
  intro f1
  induction f1 with
  | zero =>
    intro s f2 h1 _
    have hs : s = [] := List.length_eq_zero.mp (Nat.le_zero.mp h1)
    subst hs
    cases f2 <;> rfl
  | succ k ih =>
    intro s f2 h1 h2
    match s with
    | [] => cases f2 <;> rfl
    | [c] =>
      cases f2 with
      | zero => simp at h2
      | succ m => rfl
    | [c, d] =>
      cases f2 with
      | zero => simp at h2
      | succ m => rfl
    | c :: d :: e :: rest3 =>
      cases f2 with
      | zero => simp at h2
      | succ m =>
        simp only [boldSubF]
        simp only [List.length_cons] at h1 h2
        split
        · rcases hq : bcAux rest3 with _ | ⟨g, after⟩
          · dsimp only
            congr 1
            apply ih <;> (simp only [List.length_cons]; omega)
          · dsimp only
            have := bcAux_len hq
            rw [ih after m (by omega) (by omega)]
        · congr 1
          apply ih <;> (simp only [List.length_cons]; omega)

theorem boldSub_small :
    boldSub [] = [] ∧ (∀ c, boldSub [c] = [c]) ∧ (∀ c d, boldSub [c, d] = [c, d]) :=
  ⟨rfl, fun _ => rfl, fun _ _ => rfl⟩

theorem boldSub_cons (c d e : Char) (rest3 : Str) :
    boldSub (c :: d :: e :: rest3) =
      (if c = '*' ∧ d = '*' ∧ e ≠ '\n' then
        match bcAux rest3 with
        | some (g, after) =>
          ('[' :: 'b' :: ']' :: e :: g) ++ ('[' :: '/' :: 'b' :: ']' :: boldSub after)
        | none => c :: boldSub (d :: e :: rest3)
      else c :: boldSub (d :: e :: rest3)) := by
  show boldSubF (rest3.length + 3) (c :: d :: e :: rest3) = _
  simp only [boldSubF]
  split
  · rcases hq : bcAux rest3 with _ | ⟨g, after⟩
    · dsimp only
      rfl
    · dsimp only
      have := bcAux_len hq
      rw [boldSubF_invar (rest3.length + 2) after after.length (by omega) (Nat.le_refl _)]
      rfl
  · rfl

/-- Lazy search for the closing part of the italic regex after the first
group character: one or more lazily matched non-newline characters, one
non-space character, then the closing asterisk.  Returns the group part
after the first character and the rest after the close. -/
def icAux : Str → Option (Str × Str)
  | [] => none
  | x :: t =>
    if x = '\n' then none
    else
      match t with
      | [] => none
      | b :: rest =>
        if b ≠ ' ' ∧ rest.head? = some '*' then some ([x, b], rest.tail)
        else (icAux t).map fun p => (x :: p.1, p.2)

theorem icAux_len : ∀ {s : Str} {g r : Str}, icAux s = some (g, r) → r.length < s.length := by
  intro s
  induction s with
  | nil => intro g r h; simp [icAux] at h
  | cons x t ih =>
    intro g r h
    simp only [icAux] at h
    split at h
    · cases h
    · split at h
      · cases h
      · next b rest =>
        split at h
        · next hb =>
          cases h
          have : rest.tail.length ≤ rest.length := by
            cases rest <;> simp
          simp only [List.length_cons]; omega
        · simp only [Option.map_eq_some'] at h
          obtain ⟨p, hp, hpe⟩ := h
          cases hpe
          have := ih (g := p.1) (r := p.2) (by rw [hp])
          simp only [List.length_cons] at this ⊢; omega

/-- Fuel-driven body of the italic substitution. -/
def italicSubF : Nat → Str → Str
  | _, [] => []
  | _, [c] => [c]
  | 0, s => s
  | fuel + 1, c :: a :: rest2 =>
    if c = '*' ∧ a ≠ ' ' then
      match icAux rest2 with
      | some (g, after) =>
        ('[' :: 'i' :: ']' :: a :: g) ++ ('[' :: '/' :: 'i' :: ']' :: italicSubF fuel after)
      | none => c :: italicSubF fuel (a :: rest2)
    else c :: italicSubF fuel (a :: rest2)

/-- The italic substitution of convert_to_yw: the regex replacing an
asterisk-delimited span whose first and last characters are not spaces
and whose lazily matched interior holds no newline by the same span
between internal italic tags, scanning left to right; on a failed match
the scan advances one character. -/
def italicSub (s : Str) : Str := italicSubF s.length s

theorem italicSubF_invar :
    ∀ (f1 : Nat) (s : Str) (f2 : Nat), s.length ≤ f1 → s.length ≤ f2 →
      italicSubF f1 s = italicSubF f2 s := by
  intro f1
  induction f1 with
  | zero =>
    intro s f2 h1 _
    have hs : s = [] := List.length_eq_zero.mp (Nat.le_zero.mp h1)
    subst hs
    cases f2 <;> rfl
  | succ k ih =>
    intro s f2 h1 h2
    match s with
    | [] => cases f2 <;> rfl
    | [c] =>
      cases f2 with
      | zero => simp at h2
      | succ m => rfl
    | c :: a :: rest2 =>
      cases f2 with
      | zero => simp at h2
      | succ m =>
        simp only [italicSubF]
        simp only [List.length_cons] at h1 h2
        split
        · rcases hq : icAux rest2 with _ | ⟨g, after⟩
          · dsimp only
            congr 1
            apply ih <;> (simp only [List.length_cons]; omega)
          · dsimp only
            have := icAux_len hq
            rw [ih after m (by omega) (by omega)]
        · congr 1
          apply ih <;> (simp only [List.length_cons]; omega)

theorem italicSub_small :
    italicSub [] = [] ∧ (∀ c, italicSub [c] = [c]) :=
  ⟨rfl, fun _ => rfl⟩

theorem italicSub_cons (c a : Char) (rest2 : Str) :
    italicSub (c :: a :: rest2) =
      (if c = '*' ∧ a ≠ ' ' then
        match icAux rest2 with
        | some (g, after) =>
          ('[' :: 'i' :: ']' :: a :: g) ++ ('[' :: '/' :: 'i' :: ']' :: italicSub after)
        | none => c :: italicSub (a :: rest2)
      else c :: italicSub (a :: rest2)) := by
  show italicSubF (rest2.length + 2) (c :: a :: rest2) = _
  simp only [italicSubF]
  split
  · rcases hq : icAux rest2 with _ | ⟨g, after⟩
    · dsimp only
      rfl
    · dsimp only
      have := icAux_len hq
      rw [italicSubF_invar (rest2.length + 1) after after.length (by omega) (Nat.le_refl _)]
      rfl
  · rfl

/-! ## Ordered dictionaries -/

/-- Lookup in an insertion-ordered dictionary, first match. -/
def lookupA {α : Type} (m : List (Str × α)) (k : Str) : Option α :=
  match m with
  | [] => none
  | (k0, v) :: rest => if k0 = k then some v else lookupA rest k

/-- Python dictionary assignment: update the value in place when the key
is present, else append the binding at the end. -/
def insertA {α : Type} (m : List (Str × α)) (k : Str) (v : α) : List (Str × α) :=
  match m with
  | [] => [(k, v)]
  | (k0, v0) :: rest => if k0 = k then (k0, v) :: rest else (k0, v0) :: insertA rest k v

/-- The keys of a dictionary in order. -/
def keysA {α : Type} (m : List (Str × α)) : List Str := m.map (fun p => p.1)

/-! ## The document model -/

/-- A Python value that is either a string or an integer; the source
stores such mixed values in the status and oldType attributes, whose
string and integer variants never compare equal under Python equality. -/
abbrev SVal := Str ⊕ Nat

/-- Python truthiness of an optional string: present and non-empty. -/
def truthyS : Option Str → Bool
  | none => false
  | some s => decide (s ≠ [])

/-- Python truthiness of an optional boolean: present and true. -/
def truthyB : Option Bool → Bool
  | none => false
  | some b => b

/-- WorldElement of the source: the shared shape of locations and items. -/
structure WorldElement where
  title : Option Str := none
  image : Option Str := none
  desc : Option Str := none
  tags : Option (List Str) := none
  aka : Option Str := none
  deriving DecidableEq

/-- Character of the source: a WorldElement with five more fields. -/
structure Character where
  title : Option Str := none
  image : Option Str := none
  desc : Option Str := none
  tags : Option (List Str) := none
  aka : Option Str := none
  notes : Option Str := none
  bio : Option Str := none
  goals : Option Str := none
  fullName : Option Str := none
  isMajor : Option Bool := none
  deriving DecidableEq

/-- Scene of the source.  The sceneContent field is the private attribute
behind the property; wordCount and letterCount are maintained by the
setter function below. -/
structure Scene where
  title : Option Str := none
  desc : Option Str := none
  sceneContent : Option Str := none
  rtfFile : Option Str := none
  wordCount : Nat := 0
  letterCount : Nat := 0
  isUnused : Option Bool := none
  isNotesScene : Option Bool := none
  isTodoScene : Option Bool := none
  doNotExport : Option Bool := none
  status : Option SVal := none
  sceneNotes : Option Str := none
  tags : Option (List Str) := none
  field1 : Option Str := none
  field2 : Option Str := none
  field3 : Option Str := none
  field4 : Option Str := none
  appendToPrev : Option Bool := none
  isReactionScene : Option Bool := none
  isSubPlot : Option Bool := none
  goal : Option Str := none
  conflict : Option Str := none
  outcome : Option Str := none
  characters : Option (List Str) := none
  locations : Option (List Str) := none
  items : Option (List Str) := none
  date : Option Str := none
  time : Option Str := none
  minute : Option Str := none
  hour : Option Str := none
  day : Option Str := none
  lastsMinutes : Option Str := none
  lastsHours : Option Str := none
  lastsDays : Option Str := none
  deriving DecidableEq

/-- Chapter of the source.  In Python the srtScenes attribute is born as
an empty list, so its default here is an empty list, not absent. -/
structure Chapter where
  title : Option Str := none
  desc : Option Str := none
  chLevel : Option Nat := none
  oldType : Option SVal := none
  chType : Option Nat := none
  isUnused : Option Bool := none
  suppressChapterTitle : Option Bool := none
  isTrash : Option Bool := none
  suppressChapterBreak : Option Bool := none
  srtScenes : Option (List Str) := some []
  deriving DecidableEq

/-- Novel of the source: the in-memory project held by every file class.
The tree field models whether the underlying element tree is loaded,
which for a yw7 target means the project file existed and was read. -/
structure Novel where
  title : Option Str := none
  desc : Option Str := none
  author : Option Str := none
  fieldTitle1 : Option Str := none
  fieldTitle2 : Option Str := none
  fieldTitle3 : Option Str := none
  fieldTitle4 : Option Str := none
  chapters : List (Str × Chapter) := []
  scenes : List (Str × Scene) := []
  srtChapters : List Str := []
  locations : List (Str × WorldElement) := []
  srtLocations : List Str := []
  items : List (Str × WorldElement) := []
  srtItems : List Str := []
  characters : List (Str × Character) := []
  srtCharacters : List Str := []
  tree : Bool := false
  deriving DecidableEq

/-- The sceneContent property setter of Scene: store the text and derive
the word count, stripping bracket tags, dots, commas and space-hyphen
pairs before splitting on whitespace, and the letter count, stripping
bracket tags and removing newline and carriage-return characters. -/
def setSceneContent (sc : Scene) (text : Str) : Scene :=
  { sc with
    sceneContent := some text
    wordCount := (wsTokens (wcStrip text)).length
    letterCount :=
      (pyReplace (['\r']) [] (pyReplace (['\n']) [] (letterStrip text))).length }

/-! ## The markup translator of MdFile -/

/-- The string transformation of convert_from_yw on a present text: the
replacement list, prefixed with newline doubling when not in
markdown-native mode, then the formatting-tag removal regex. -/
def convFromYwText (markdownMode : Bool) (t : Str) : Str :=
  let t1 := if markdownMode then t else pyReplace (['\n']) (['\n', '\n']) t
  let t2 := pyReplace (("[i]").data) (("*").data) t1
  let t3 := pyReplace (("[/i]").data) (("*").data) t2
  let t4 := pyReplace (("[b]").data) (("**").data) t3
  let t5 := pyReplace (("[/b]").data) (("**").data) t4
  let t6 := pyReplace (("/*").data) (("<!---").data) t5
  let t7 := pyReplace (("*/").data) (("--->").data) t6
  let t8 := pyReplace (("  ").data) ((" ").data) t7
  tagStrip t8

/-- MdFile.convert_from_yw: on None the first replacement raises
AttributeError, which the source catches and turns into the empty
string. -/
def convFromYw (markdownMode : Bool) : Option Str → Str
  | none => []
  | some t => convFromYwText markdownMode t

/-- The string transformation of convert_to_yw on a present text: in
markdown-native mode it is the identity, otherwise the bold then italic
regex substitutions, newline halving, and comment-delimiter rewriting. -/
def convToYwText (markdownMode : Bool) (t : Str) : Str :=
  if markdownMode then t
  else
    let t1 := boldSub t
    let t2 := italicSub t1
    let t3 := pyReplace (['\n', '\n']) (['\n']) t2
    let t4 := pyReplace (("<!---").data) (("/*").data) t3
    pyReplace (("--->").data) (("*/").data) t4

/-- MdFile.convert_to_yw: on None in non-native mode the first re.sub
raises an uncaught TypeError; in native mode the text is returned
unchanged, so None comes back as None. -/
def convToYw (markdownMode : Bool) : Option Str → Except PyErr (Option Str)
  | none => if markdownMode then .ok none else .error .typeError
  | some t => .ok (some (convToYwText markdownMode t))


/-! ## Claims C6 and C8 -/

theorem dropWhile_first_not (q : Char → Bool) :
    ∀ {l : Str} {a : Char} {t : Str}, l.dropWhile q = a :: t → q a = false := by
  intro l
  induction l with
  | nil => intro a t h; simp [List.dropWhile] at h
  | cons c rest ih =>
    intro a t h
    rw [List.dropWhile_cons] at h
    split at h
    · exact ih h
    · cases h
      simp_all

theorem splitOnP_takeWhile (p : Char → Bool) :
    ∀ l : Str, l.splitOnP p = (l.takeWhile (fun d => ¬ p d)) ::
      (match l.dropWhile (fun d => ¬ p d) with
        | [] => []
        | _ :: u2 => u2.splitOnP p) := by
  intro l
  induction l with
  | nil => simp [List.splitOnP_nil]
  | cons c rest ih =>
    rw [List.splitOnP_cons]
    by_cases hc : p c
    · simp [hc, List.takeWhile_cons, List.dropWhile_cons]
    · simp only [hc, if_false, List.takeWhile_cons, List.dropWhile_cons, Bool.not_false,
        if_true, ite_true, ih]
      simp [hc]

/-- The run tokenizer agrees with splitting on whitespace and discarding
empty parts. -/
theorem wsTokens_eq_splitOnP :
    ∀ s : Str, wsTokens s = (s.splitOnP pyIsSpace).filter (fun t => ¬ t.isEmpty) := by
  have main : ∀ n, ∀ s : Str, s.length ≤ n →
      wsTokens s = (s.splitOnP pyIsSpace).filter (fun t => ¬ t.isEmpty) := by
    intro n
    induction n with
    | zero =>
      intro s hs
      have h0 : s = [] := List.length_eq_zero.mp (Nat.le_zero.mp hs)
      subst h0
      simp [wsTokens_nil, List.splitOnP_nil]
    | succ k ih =>
      intro s hs
      cases s with
      | nil => simp [wsTokens_nil, List.splitOnP_nil]
      | cons c rest =>
        simp only [List.length_cons] at hs
        rw [wsTokens_cons]
        by_cases hc : pyIsSpace c
        · rw [if_pos hc, ih rest (by omega), List.splitOnP_cons, if_pos hc]
          simp
        · rw [if_neg hc, List.splitOnP_cons, if_neg hc,
            splitOnP_takeWhile pyIsSpace rest]
          have hdl := dropWhile_len_le (fun d => ¬ pyIsSpace d) rest
          rw [ih (rest.dropWhile (fun d => ¬ pyIsSpace d)) (by omega)]
          rcases hdw : rest.dropWhile (fun d => ¬ pyIsSpace d) with _ | ⟨a, u2⟩
          · simp [List.modifyHead, List.splitOnP_nil]
          · have ha : pyIsSpace a = true := by
              have := dropWhile_first_not (fun d => ¬ pyIsSpace d) hdw
              simp at this
              exact this
            rw [List.splitOnP_cons, if_pos ha]
            simp [List.modifyHead, List.filter_cons]
  exact fun s => main s.length s (Nat.le_refl _)

/-- Removing every occurrence of a single character by str.replace is the
same as filtering it out. -/
theorem pyReplaceP_single_filter (c0 : Char) :
    ∀ s : Str, pyReplaceP c0 [] [] s = s.filter (fun c => decide (c ≠ c0)) := by
  intro s
  induction s with
  | nil => rfl
  | cons c rest ih =>
    rw [pyReplaceP_cons]
    by_cases hc : c0 = c
    · have hpre : ([c0].isPrefixOf (c :: rest)) = true := by
        simp [List.isPrefixOf, hc]
      rw [hpre]
      simp only [if_true, ite_true, List.length_nil, List.drop_zero, List.nil_append,
        List.filter_cons]
      rw [show (decide (c ≠ c0)) = false by simp [hc.symm]]
      simp [ih]
    · have hpre : ([c0].isPrefixOf (c :: rest)) = false := by
        simp [List.isPrefixOf]
        exact fun h => hc h
      rw [hpre]
      simp only [Bool.false_eq_true, if_false, ite_false]
      simp only [List.filter_cons]
      rw [show (decide (c ≠ c0)) = true by simp; exact fun h => hc h.symm]
      simp [ih]

/-- The pyReplace form of the previous lemma. -/
theorem pyReplace_single_filter (c0 : Char) (s : Str) :
    pyReplace [c0] [] s = s.filter (fun c => decide (c ≠ c0)) :=
  pyReplaceP_single_filter c0 s

/-- Word count as the specification states it: the number of non-empty
whitespace-separated parts of the stripped content. -/
def specWordCount (c : Str) : Nat :=
  (((wcStrip c).splitOnP pyIsSpace).filter (fun t => ¬ t.isEmpty)).length

/-- Letter count as the specification states it: the length of the
content with bracket tags gone and line breaks filtered out. -/
def specLetterCount (c : Str) : Nat :=
  ((letterStrip c).filter (fun ch => decide (ch ≠ '\r') && decide (ch ≠ '\n'))).length

/-- Claim C6: for every string assigned to sceneContent, the stored word
count equals the number of whitespace-delimited tokens of the content
after removing bracket-tag spans, dots, commas and space-hyphen pairs,
and the stored letter count equals the length of the content after
removing bracket-tag spans and all newline and carriage-return
characters; both are recomputed from the assigned text on every
assignment, whatever the prior state of the scene held. -/
theorem c6_counts_derived (s : Scene) (c : Str) :
    (setSceneContent s c).sceneContent = some c ∧
    (setSceneContent s c).wordCount = specWordCount c ∧
    (setSceneContent s c).letterCount = specLetterCount c := by
  refine ⟨rfl, ?_, ?_⟩
  · simp only [setSceneContent, specWordCount, wsTokens_eq_splitOnP]
  · simp only [setSceneContent, specLetterCount,
      pyReplace_single_filter '\n' (letterStrip c), pyReplace_single_filter '\r']
    rw [List.filter_filter]

/-- Claim C8 counterexample: convert_to_yw applied to an absent text does
not return the empty string: in non-native mode the first re.sub raises
an uncaught TypeError, and in native mode the absent value is returned
unchanged. -/
theorem c8_counterexample :
    convToYw false none = .error .typeError ∧ convToYw true none = .ok none :=
  ⟨rfl, rfl⟩

/-- Claim C8 amended: convert_from_yw maps an absent text to the empty
string in both modes, while convert_to_yw raises TypeError on an absent
text in non-native mode and returns it unchanged (still absent, not the
empty string) in native mode. -/
theorem c8_amended (markdownMode : Bool) :
    convFromYw markdownMode none = [] ∧
    convToYw false none = .error .typeError ∧
    convToYw true none = .ok none :=
  ⟨rfl, rfl, rfl⟩


/-! ## The merge of Yw7File

The Python method begins by reading the project file when it exists; the
embedding takes the target in its post-read state, the tree flag saying
whether a tree was loaded.  Everything from the location section to the
returned message is modelled below in source order. -/

/-- The two messages Yw7File.merge can return: the SUCCESS string or the
project-structure-mismatch ERROR string. -/
inductive MergeMsg where
  | success
  | mismatchError
  deriving DecidableEq

/-- Override an optional field when the source value is present (the
source test is: is not None). -/
def ovr {α : Type} (srcV tgtV : Option α) : Option α :=
  match srcV with
  | some v => some v
  | none => tgtV

/-- The location section of Yw7File.merge.  When the source ordering is
non-empty the target ordering is replaced and the registry rebuilt in
source order; a missing source registry entry raises KeyError.  The image
branch reproduces the source faithfully: when the source image is absent
the code assigns the previous description to the description field
instead of keeping the previous image, so the rebuilt entry keeps the
image default of the fresh WorldElement. -/
def mergeLocations (tgt src : Novel) : Except PyErr Novel :=
  if src.srtLocations = [] then .ok tgt
  else do
    let temploc := tgt.locations
    let newLocs ← src.srtLocations.foldlM (fun acc lcId => do
      let srcLoc ← match lookupA src.locations lcId with
        | some w => pure w
        | none => throw PyErr.keyError
      let tmp := (lookupA temploc lcId).getD {}
      let w1 : WorldElement :=
        { title := if truthyS srcLoc.title then srcLoc.title else tmp.title }
      let w2 := if srcLoc.image.isSome then { w1 with image := srcLoc.image }
        else { w1 with desc := tmp.desc }
      let w3 := if srcLoc.desc.isSome then { w2 with desc := srcLoc.desc }
        else { w2 with desc := tmp.desc }
      let w4 := if srcLoc.aka.isSome then { w3 with aka := srcLoc.aka }
        else { w3 with aka := tmp.aka }
      let w5 := if srcLoc.tags.isSome then { w4 with tags := srcLoc.tags }
        else { w4 with tags := tmp.tags }
      pure (insertA acc lcId w5)) ([] : List (Str × WorldElement))
    pure { tgt with srtLocations := src.srtLocations, locations := newLocs }

/-- The item section of Yw7File.merge: like the locations but with the
image fallback assigning the image field as intended. -/
def mergeItems (tgt src : Novel) : Except PyErr Novel :=
  if src.srtItems = [] then .ok tgt
  else do
    let tempitm := tgt.items
    let newItems ← src.srtItems.foldlM (fun acc itId => do
      let srcIt ← match lookupA src.items itId with
        | some w => pure w
        | none => throw PyErr.keyError
      let tmp := (lookupA tempitm itId).getD {}
      let w1 : WorldElement :=
        { title := if truthyS srcIt.title then srcIt.title else tmp.title }
      let w2 := { w1 with image := if srcIt.image.isSome then srcIt.image else tmp.image }
      let w3 := { w2 with desc := if srcIt.desc.isSome then srcIt.desc else tmp.desc }
      let w4 := { w3 with aka := if srcIt.aka.isSome then srcIt.aka else tmp.aka }
      let w5 := { w4 with tags := if srcIt.tags.isSome then srcIt.tags else tmp.tags }
      pure (insertA acc itId w5)) ([] : List (Str × WorldElement))
    pure { tgt with srtItems := src.srtItems, items := newItems }

/-- The character section of Yw7File.merge. -/
def mergeCharacters (tgt src : Novel) : Except PyErr Novel :=
  if src.srtCharacters = [] then .ok tgt
  else do
    let tempchr := tgt.characters
    let newChars ← src.srtCharacters.foldlM (fun acc crId => do
      let srcCr ← match lookupA src.characters crId with
        | some w => pure w
        | none => throw PyErr.keyError
      let tmp := (lookupA tempchr crId).getD {}
      let w : Character :=
        { title := if truthyS srcCr.title then srcCr.title else tmp.title
          image := if srcCr.image.isSome then srcCr.image else tmp.image
          desc := if srcCr.desc.isSome then srcCr.desc else tmp.desc
          aka := if srcCr.aka.isSome then srcCr.aka else tmp.aka
          tags := if srcCr.tags.isSome then srcCr.tags else tmp.tags
          notes := if srcCr.notes.isSome then srcCr.notes else tmp.notes
          bio := if srcCr.bio.isSome then srcCr.bio else tmp.bio
          goals := if srcCr.goals.isSome then srcCr.goals else tmp.goals
          fullName := if srcCr.fullName.isSome then srcCr.fullName else tmp.fullName
          isMajor := if srcCr.isMajor.isSome then srcCr.isMajor else tmp.isMajor }
      pure (insertA acc crId w)) ([] : List (Str × Character))
    pure { tgt with srtCharacters := src.srtCharacters, characters := newChars }

/-- The scalar field updates of the scene section: every field is
overwritten only when the source value is present, the title only when
the source title is truthy, and sceneContent goes through the property
setter, refreshing both counts. -/
def mergeSceneFields (tgtSc srcSc : Scene) : Scene :=
  let base := match srcSc.sceneContent with
    | some c => setSceneContent tgtSc c
    | none => tgtSc
  { base with
    title := if truthyS srcSc.title then srcSc.title else tgtSc.title
    desc := ovr srcSc.desc tgtSc.desc
    isUnused := ovr srcSc.isUnused tgtSc.isUnused
    isNotesScene := ovr srcSc.isNotesScene tgtSc.isNotesScene
    isTodoScene := ovr srcSc.isTodoScene tgtSc.isTodoScene
    status := ovr srcSc.status tgtSc.status
    sceneNotes := ovr srcSc.sceneNotes tgtSc.sceneNotes
    tags := ovr srcSc.tags tgtSc.tags
    field1 := ovr srcSc.field1 tgtSc.field1
    field2 := ovr srcSc.field2 tgtSc.field2
    field3 := ovr srcSc.field3 tgtSc.field3
    field4 := ovr srcSc.field4 tgtSc.field4
    appendToPrev := ovr srcSc.appendToPrev tgtSc.appendToPrev
    date := ovr srcSc.date tgtSc.date
    time := ovr srcSc.time tgtSc.time
    minute := ovr srcSc.minute tgtSc.minute
    hour := ovr srcSc.hour tgtSc.hour
    day := ovr srcSc.day tgtSc.day
    lastsMinutes := ovr srcSc.lastsMinutes tgtSc.lastsMinutes
    lastsHours := ovr srcSc.lastsHours tgtSc.lastsHours
    lastsDays := ovr srcSc.lastsDays tgtSc.lastsDays
    isReactionScene := ovr srcSc.isReactionScene tgtSc.isReactionScene
    isSubPlot := ovr srcSc.isSubPlot tgtSc.isSubPlot
    goal := ovr srcSc.goal tgtSc.goal
    conflict := ovr srcSc.conflict tgtSc.conflict
    outcome := ovr srcSc.outcome tgtSc.outcome }

/-- One source scene of the scene section of Yw7File.merge: upsert,
counting a mismatch when the target did not hold it, update the scalar
fields, and rebuild the three cross-reference lists filtered against the
merged registries.  The items list reproduces the source faithfully: the
append is called on the Scene object instead of its items list, so the
first surviving item id raises AttributeError; with no surviving id the
list is left freshly emptied. -/
def sceneStep (st : Novel × Nat) (p : Str × Scene) : Except PyErr (Novel × Nat) := do
  let (t, sc0, mm) := match lookupA st.1.scenes p.1 with
    | some sc => (st.1, sc, st.2)
    | none => ({ st.1 with scenes := insertA st.1.scenes p.1 {} }, {}, st.2 + 1)
  let s := mergeSceneFields sc0 p.2
  let s := match p.2.characters with
    | none => s
    | some l =>
      { s with characters := some (l.filter (fun cr => (lookupA t.characters cr).isSome)) }
  let s := match p.2.locations with
    | none => s
    | some l =>
      { s with locations := some (l.filter (fun lc => (lookupA t.locations lc).isSome)) }
  let s ← match p.2.items with
    | none => pure s
    | some l =>
      if l.any (fun it => (lookupA t.items it).isSome) then throw PyErr.attributeError
      else pure { s with items := some [] }
  pure ({ t with scenes := insertA t.scenes p.1 s }, mm)

/-- The scene section of Yw7File.merge. -/
def mergeScenes (tgt src : Novel) : Except PyErr (Novel × Nat) :=
  src.scenes.foldlM sceneStep (tgt, 0)

/-- The scalar field updates of the chapter section. -/
def mergeChapterFields (tgtCh srcCh : Chapter) : Chapter :=
  let c := if truthyS srcCh.title then { tgtCh with title := srcCh.title } else tgtCh
  let c := { c with desc := ovr srcCh.desc c.desc }
  let c := { c with chLevel := ovr srcCh.chLevel c.chLevel }
  let c := { c with oldType := ovr srcCh.oldType c.oldType }
  let c := { c with chType := ovr srcCh.chType c.chType }
  let c := { c with isUnused := ovr srcCh.isUnused c.isUnused }
  let c := { c with suppressChapterTitle := ovr srcCh.suppressChapterTitle c.suppressChapterTitle }
  let c := { c with suppressChapterBreak := ovr srcCh.suppressChapterBreak c.suppressChapterBreak }
  { c with isTrash := ovr srcCh.isTrash c.isTrash }

/-- Rebuild one chapter scene-order list: walk the source list keeping
ids that exist in the merged scene registry and are not yet claimed,
extending the claimed accumulator. -/
def rebuildSrtScenes (scenes : List (Str × Scene)) (l : List Str) (assigned : List Str) :
    List Str × List Str :=
  l.foldl (fun acc scId =>
    if (lookupA scenes scId).isSome ∧ scId ∉ acc.2 then
      (acc.1 ++ [scId], acc.2 ++ [scId])
    else acc) ([], assigned)

/-- One source chapter of the chapter section of Yw7File.merge: upsert,
counting a mismatch when absent from the target, update scalar fields,
and rebuild the scene-order list against the shared claimed accumulator,
which spans all chapters of this pass. -/
def chapStep (st : Novel × Nat × List Str) (p : Str × Chapter) : Novel × Nat × List Str :=
  let t := st.1
  let mm := st.2.1
  let assigned := st.2.2
  let (ch0, mm) := match lookupA t.chapters p.1 with
    | some c => (c, mm)
    | none => (({} : Chapter), mm + 1)
  let ch1 := mergeChapterFields ch0 p.2
  let (ch2, assigned) := match p.2.srtScenes with
    | none => (ch1, assigned)
    | some l =>
      let r := rebuildSrtScenes t.scenes l assigned
      ({ ch1 with srtScenes := some r.1 }, r.2)
  ({ t with chapters := insertA t.chapters p.1 ch2 }, mm, assigned)

/-- The chapter section of Yw7File.merge. -/
def mergeChapters (tgt src : Novel) (mm0 : Nat) : Novel × Nat :=
  let res := src.chapters.foldl chapStep (tgt, mm0, [])
  (res.1, res.2.1)

/-- Yw7File.merge on the post-read target state: the location, item,
character, scene and chapter sections in order, then the project scalar
attributes, the chapter ordering (copied from the source only when the
target ordering is empty, per the source), and the returned message:
the mismatch error exactly when a tree is loaded and the mismatch count
is non-zero. -/
def ywMerge (tgt src : Novel) : Except PyErr (Novel × MergeMsg) := do
  let t1 ← mergeLocations tgt src
  let t2 ← mergeItems t1 src
  let t3 ← mergeCharacters t2 src
  let (t4, mm) ← mergeScenes t3 src
  let (t5, mm) := mergeChapters t4 src mm
  let t6 := { t5 with
    title := if truthyS src.title then src.title else t5.title
    desc := ovr src.desc t5.desc
    author := ovr src.author t5.author
    fieldTitle1 := ovr src.fieldTitle1 t5.fieldTitle1
    fieldTitle2 := ovr src.fieldTitle2 t5.fieldTitle2
    fieldTitle3 := ovr src.fieldTitle3 t5.fieldTitle3
    fieldTitle4 := ovr src.fieldTitle4 t5.fieldTitle4
    srtChapters := if t5.srtChapters = [] then src.srtChapters else t5.srtChapters }
  if t6.tree ∧ mm ≠ 0 then pure (t6, MergeMsg.mismatchError)
  else pure (t6, MergeMsg.success)


/-! ## Claims C2 and C3: the two merge slips -/

/-- A target holding one location, id 1, with a title and an image. -/
def c2tgt : Novel :=
  { locations := [((("1")).data, { title := some (("L").data), image := some (("pic").data) })]
    srtLocations := [(("1")).data] }

/-- A source holding the same location with a fresh title and an absent
image. -/
def c2src : Novel :=
  { locations := [((("1")).data, { title := some (("M").data), image := none })]
    srtLocations := [(("1")).data] }

/-- Claim C2: the code drops a previously set location image.  Before the
merge the target location holds an image; the source location has image
absent; after the merge the rebuilt location entry holds no image at all,
because the image-absent branch of the location section assigns the
previous description instead of the previous image. -/
theorem c2_location_image_dropped :
    (lookupA c2tgt.locations ((("1")).data)).map (fun w => w.image)
      = some (some ((("pic")).data)) ∧
    (lookupA c2src.locations ((("1")).data)).map (fun w => w.image) = some none ∧
    ((ywMerge c2tgt c2src).toOption.bind
      (fun p => (lookupA p.1.locations ((("1")).data)).map (fun w => w.image)))
      = some none := by
  refine ⟨rfl, rfl, rfl⟩

/-- A target holding one item, id 1, and one scene, id 1. -/
def c3tgt : Novel :=
  { items := [((("1")).data, { title := some (("I").data) })]
    scenes := [((("1")).data, { title := some (("sc").data) })] }

/-- A source whose scene 1 references item 1. -/
def c3src : Novel :=
  { scenes := [((("1")).data, { items := some [(("1")).data] })] }

/-- A target and source for the working character cross-reference case:
the source scene references characters 1 and 9, the target registry holds
only character 1, so the merged list keeps just id 1. -/
def c3tgtChr : Novel :=
  { characters := [((("1")).data, { title := some (("C").data) })]
    scenes := [((("1")).data, {})] }

def c3srcChr : Novel :=
  { scenes := [((("1")).data, { characters := some [(("1")).data, (("9")).data] })] }

/-- Claim C3: the character and location cross-reference lists are indeed
filtered copies, but the item list code calls append on the Scene object
itself, so any source scene whose items list has an id surviving the
filter makes the whole merge raise AttributeError instead of storing the
filtered list. -/
theorem c3_items_append_raises :
    ywMerge c3tgt c3src = Except.error PyErr.attributeError ∧
    ((ywMerge c3tgtChr c3srcChr).toOption.bind
      (fun p => (lookupA p.1.scenes ((("1")).data)).bind (fun s => s.characters)))
      = some [(("1")).data] := by
  refine ⟨rfl, rfl⟩


/-! ## The Markdown importer: MdFile.read

The file reading and its try blocks are out of scope; the embedding takes
the raw text, applies convert_to_yw, splits on newlines and runs the
line scanner.  The title extraction of a heading line indexes element 1
of a split, which raises an uncaught IndexError when the separator does
not occur, so the scanner is Except-valued. -/

/-- Python str.split with maxsplit 1. -/
def pySplit1 (p : Str) (s : Str) : List Str :=
  match p with
  | [] => [s]
  | p0 :: pt => pySplit1P p0 pt s

/-- The Python containment test p in s for strings. -/
def isSubstr (p : Str) : Str → Bool
  | [] => decide (p = [])
  | c :: rest => p.isPrefixOf (c :: rest) || isSubstr p rest

/-- The local scanner state of MdFile.read: the registries being built,
the counters, the open chapter and scene ids and the line buffer. -/
structure MdState where
  chCount : Nat := 0
  scCount : Nat := 0
  chapters : List (Str × Chapter) := []
  srtChapters : List Str := []
  scenes : List (Str × Scene) := []
  chId : Option Str := none
  scId : Option Str := none
  buf : List Str := []
  deriving DecidableEq

/-- write_scene_content: when a scene is open, join the buffered lines,
assign them through the sceneContent setter and classify the status as
Outline (index 1) below ten words, else Draft (index 2). -/
def flushScene (st : MdState) : Except PyErr MdState :=
  match st.scId with
  | none => pure st
  | some id =>
    match lookupA st.scenes id with
    | none => throw PyErr.keyError
    | some sc =>
      let sc1 := setSceneContent sc (joinNl st.buf)
      let sc2 := { sc1 with
        status := some (Sum.inr (if sc1.wordCount < 10 then 1 else 2)) }
      pure { st with scenes := insertA st.scenes id sc2 }

/-- One line of the MdFile.read scan, in source order: a hash line closes
any open scene and opens a chapter whose title is element 1 of the split
on hash-space (IndexError when absent) and whose level is 1 exactly for a
hash-space prefix; a line holding the scene divider closes the open
scene; with a scene open the line is buffered; otherwise a non-empty line
inside a chapter opens a scene, taking its title from a leading comment
unless noSceneTitles is set. -/
def mdStep (markdownMode noSceneTitles : Bool) (st : MdState) (line : Str) :
    Except PyErr MdState :=
  let commentStart : Str := if markdownMode then ("<!---").data else ("/*").data
  let commentEnd : Str := if markdownMode then ("--->").data else ("*/").data
  if line.head? = some '#' then do
    let st ← flushScene st
    let st := { st with scId := none }
    let chCount := st.chCount + 1
    let chId := natId chCount
    let parts := pySplitP '#' [' '] line
    match parts.get? 1 with
    | none => throw PyErr.indexError
    | some title =>
      let ch : Chapter :=
        { title := some title
          oldType := some (Sum.inl (("0").data))
          chLevel := some (if (('#' :: [' ']) : Str).isPrefixOf line then 1 else 0)
          srtScenes := some [] }
      pure { st with
        chCount := chCount
        chId := some chId
        chapters := insertA st.chapters chId ch
        srtChapters := st.srtChapters ++ [chId] }
  else if isSubstr (("* * *").data) line then do
    let st ← flushScene st
    pure { st with scId := none }
  else if st.scId.isSome then
    pure { st with buf := st.buf ++ [line] }
  else
    match st.chId with
    | none => pure st
    | some cid =>
      if line = [] then pure st
      else do
        let scCount := st.scCount + 1
        let scId := natId scCount
        match lookupA st.chapters cid with
        | none => throw PyErr.keyError
        | some ch =>
          match ch.srtScenes with
          | none => throw PyErr.attributeError
          | some l =>
            let ch2 := { ch with srtScenes := some (l ++ [scId]) }
            let baseTitle : Str := (("Scene ").data) ++ natId scCount
            let (title2, buf2) :=
              if ¬ noSceneTitles ∧ commentStart.isPrefixOf line then
                match pySplit1 commentEnd line with
                | [scTitle, scContent] => (pyLstrip commentStart scTitle, [scContent])
                | _ => (baseTitle, [line])
              else (baseTitle, [line])
            let sc : Scene :=
              { status := some (Sum.inl (("1").data)), title := some title2 }
            pure { st with
              scCount := scCount
              scId := some scId
              scenes := insertA st.scenes scId sc
              chapters := insertA st.chapters cid ch2
              buf := buf2 }

/-- The scan loop of MdFile.read over the converted lines. -/
def mdRun (markdownMode noSceneTitles : Bool) : MdState → List Str → Except PyErr MdState
  | st, [] => pure st
  | st, l :: ls => do
    let st2 ← mdStep markdownMode noSceneTitles st l
    mdRun markdownMode noSceneTitles st2 ls

/-- MdFile.read on the raw file text: convert to internal markup, split
into lines and scan.  The loop ends without flushing a still-open scene.
-/
def mdRead (markdownMode noSceneTitles : Bool) (text : Str) : Except PyErr MdState :=
  mdRun markdownMode noSceneTitles {} (splitNl (convToYwText markdownMode text))


/-! ## Claims C4 and C10: the scanner at end of input and on bad headings -/

theorem lookupA_insertA_self {α : Type} (m : List (Str × α)) (k : Str) (v : α) :
    lookupA (insertA m k v) k = some v := by
  induction m with
  | nil => simp [insertA, lookupA]
  | cons p rest ih =>
    simp only [insertA]
    split
    · next h => simp [lookupA, h]
    · next h => simp [lookupA, h, ih]

theorem lookupA_insertA_ne {α : Type} (m : List (Str × α)) (k k' : Str) (v : α)
    (h : k' ≠ k) : lookupA (insertA m k v) k' = lookupA m k' := by
  induction m with
  | nil =>
    simp only [insertA, lookupA]
    rw [if_neg (fun he : k = k' => h he.symm)]
  | cons p rest ih =>
    simp only [insertA]
    split
    · next he =>
      simp only [lookupA]
      rw [if_neg (fun he2 : p.1 = k' => h ((he.symm.trans he2).symm)),
        if_neg (fun he2 : p.1 = k' => h ((he.symm.trans he2).symm))]
    · next he =>
      simp only [lookupA]
      split
      · rfl
      · exact ih

theorem consHead_ne_nil (c : Char) (L : List Str) : consHead c L ≠ [] := by
  cases L <;> simp [consHead]

theorem consHead_length (c : Char) (L : List Str) (h : L ≠ []) :
    (consHead c L).length = L.length := by
  cases L with
  | nil => exact absurd rfl h
  | cons a t => simp [consHead]

theorem pySplitP_ne_nil (p0 : Char) (pt : Str) : ∀ s : Str, pySplitP p0 pt s ≠ [] := by
  have main : ∀ n (s : Str), s.length ≤ n → pySplitP p0 pt s ≠ [] := by
    intro n
    induction n with
    | zero =>
      intro s hs
      have h0 : s = [] := List.length_eq_zero.mp (Nat.le_zero.mp hs)
      subst h0
      simp [pySplitP_nil]
    | succ k ih =>
      intro s hs
      cases s with
      | nil => simp [pySplitP_nil]
      | cons c rest =>
        rw [pySplitP_cons]
        split
        · simp
        · exact consHead_ne_nil _ _
  exact fun s => main s.length s (Nat.le_refl _)

/-- A separator occurs as a substring exactly when the full split has at
least two parts. -/
theorem pySplitP_two_iff (p0 : Char) (pt : Str) :
    ∀ s : Str, isSubstr (p0 :: pt) s = true ↔ 2 ≤ (pySplitP p0 pt s).length := by
  intro s
  induction s with
  | nil =>
    simp [isSubstr, pySplitP_nil]
  | cons c rest ih =>
    rw [pySplitP_cons]
    simp only [isSubstr, Bool.or_eq_true]
    constructor
    · intro h
      rcases h with h | h
      · rw [if_pos h]
        have := pySplitP_ne_nil p0 pt (rest.drop pt.length)
        simp only [List.length_cons]
        have : 1 ≤ (pySplitP p0 pt (rest.drop pt.length)).length :=
          Nat.one_le_iff_ne_zero.mpr (fun h0 => this (List.length_eq_zero.mp h0))
        omega
      · split
        · have := pySplitP_ne_nil p0 pt (rest.drop pt.length)
          simp only [List.length_cons]
          have : 1 ≤ (pySplitP p0 pt (rest.drop pt.length)).length :=
            Nat.one_le_iff_ne_zero.mpr (fun h0 => this (List.length_eq_zero.mp h0))
          omega
        · rw [consHead_length _ _ (pySplitP_ne_nil p0 pt rest)]
          exact ih.mp h
    · intro h
      split at h
      · next hp => exact Or.inl hp
      · next hp =>
        rw [consHead_length _ _ (pySplitP_ne_nil p0 pt rest)] at h
        exact Or.inr (ih.mpr h)

/-- A line that begins the chapter branch but cannot yield a title: it
starts with a hash yet contains no hash-space. -/
def badHeading (l : Str) : Prop :=
  l.head? = some '#' ∧ isSubstr ('#' :: [' ']) l = false

instance (l : Str) : Decidable (badHeading l) := by
  unfold badHeading
  infer_instance

/-- The scanner invariant: an open scene is registered, unflushed (its
content unset, its status the creation string, its counts zero), and an
open chapter is registered with a scene list present. -/
def MdInv (st : MdState) : Prop :=
  (∀ id, st.scId = some id → ∃ sc, lookupA st.scenes id = some sc ∧
    sc.sceneContent = none ∧ sc.status = some (Sum.inl (("1").data)) ∧
    sc.wordCount = 0 ∧ sc.letterCount = 0) ∧
  (∀ cid, st.chId = some cid → ∃ ch, lookupA st.chapters cid = some ch ∧
    ch.srtScenes ≠ none)

theorem flushScene_ok {st : MdState} (hinv : MdInv st) :
    ∃ stf, flushScene st = .ok stf ∧ stf.chId = st.chId ∧ stf.chapters = st.chapters ∧
      stf.scId = st.scId ∧ stf.buf = st.buf := by
  unfold flushScene
  cases hsc : st.scId with
  | none => exact ⟨st, rfl, rfl, rfl, hsc, rfl⟩
  | some id =>
    obtain ⟨sc, hlk, -⟩ := hinv.1 id hsc
    dsimp only
    rw [hlk]
    refine ⟨_, rfl, rfl, rfl, ?_, rfl⟩
    simp only [MdState.scId]

theorem mdStep_bad {mm nst : Bool} {st : MdState} {l : Str}
    (hinv : MdInv st) (hbad : badHeading l) :
    mdStep mm nst st l = .error PyErr.indexError := by
  obtain ⟨hstf, hflush, -, -, -, -⟩ := flushScene_ok hinv
  unfold mdStep
  rw [if_pos hbad.1]
  have hparts : (pySplitP '#' [' '] l).get? 1 = none := by
    rw [List.get?_eq_none]
    have h2 := pySplitP_two_iff '#' [' '] l
    rcases Nat.lt_or_ge (pySplitP '#' [' '] l).length 2 with h | h
    · omega
    · have := h2.mpr h
      rw [hbad.2] at this
      cases this
  simp only [bind, Except.bind, hflush, hparts]
  rfl

theorem mdStep_good {mm nst : Bool} {st : MdState} {l : Str}
    (hinv : MdInv st) (hbad : ¬ badHeading l) :
    ∃ st2, mdStep mm nst st l = .ok st2 ∧ MdInv st2 := by
  unfold mdStep
  by_cases hh : l.head? = some '#'
  · have hsub : isSubstr ('#' :: [' ']) l = true := by
      rcases hs : isSubstr ('#' :: [' ']) l with _ | _
      · exact absurd ⟨hh, hs⟩ hbad
      · rfl
    obtain ⟨stf, hflush, hchid, hchaps, -, -⟩ := flushScene_ok hinv
    rw [if_pos hh]
    obtain ⟨title, htitle⟩ : ∃ t, (pySplitP '#' [' '] l).get? 1 = some t := by
      have h2 := (pySplitP_two_iff '#' [' '] l).mp hsub
      rcases hg : (pySplitP '#' [' '] l).get? 1 with _ | t
      · rw [List.get?_eq_none] at hg
        omega
      · exact ⟨t, rfl⟩
    simp only [bind, Except.bind, hflush, htitle]
    refine ⟨_, rfl, ?_, ?_⟩
    · intro id h
      simp at h
    · intro cid h
      simp only at h
      cases h
      refine ⟨_, lookupA_insertA_self _ _ _, ?_⟩
      simp
  · rw [if_neg hh]
    split
    · obtain ⟨stf, hflush, hchid, hchaps, -, -⟩ := flushScene_ok hinv
      simp only [bind, Except.bind, hflush]
      refine ⟨_, rfl, ?_, ?_⟩
      · intro id h
        simp at h
      · intro cid h
        simp only at h
        rw [hchid] at h
        obtain ⟨ch, hch, hsrt⟩ := hinv.2 cid h
        exact ⟨ch, by rw [hchaps]; exact hch, hsrt⟩
    · split
      · next hscid =>
        refine ⟨_, rfl, ?_, ?_⟩
        · intro id h
          simp only at h
          exact hinv.1 id h
        · intro cid h
          simp only at h
          exact hinv.2 cid h
      · cases hcid : st.chId with
        | none =>
          refine ⟨st, ?_, hinv⟩
          simp only [hcid]
          rfl
        | some cid =>
          simp only [hcid]
          split
          · exact ⟨st, rfl, hinv⟩
          · obtain ⟨ch, hch, hsrt⟩ := hinv.2 cid hcid
            rw [hch]
            dsimp only
            cases hl : ch.srtScenes with
            | none => exact absurd hl hsrt
            | some l0 =>
              dsimp only
              refine ⟨_, rfl, ?_, ?_⟩
              · intro id h
                simp only at h
                cases h
                exact ⟨_, lookupA_insertA_self _ _ _, rfl, rfl, rfl, rfl⟩
              · intro cid2 h
                simp only at h
                cases h
                exact ⟨_, lookupA_insertA_self _ _ _, by simp⟩


theorem mdInv_init : MdInv {} := by
  constructor
  · intro id h
    simp [MdState.scId] at h
  · intro cid h
    simp [MdState.chId] at h

theorem mdStep_ok_inv {mm nst : Bool} {st st2 : MdState} {l : Str}
    (hinv : MdInv st) (hok : mdStep mm nst st l = .ok st2) : MdInv st2 := by
  by_cases hbad : badHeading l
  · rw [mdStep_bad hinv hbad] at hok
    cases hok
  · obtain ⟨st2', heq, hinv2⟩ := @mdStep_good mm nst _ _ hinv hbad
    rw [heq] at hok
    cases hok
    exact hinv2

theorem mdRun_ok_inv {mm nst : Bool} :
    ∀ (lines : List Str) (st st' : MdState), MdInv st →
      mdRun mm nst st lines = .ok st' → MdInv st' := by
  intro lines
  induction lines with
  | nil =>
    intro st st' hinv hok
    cases hok
    exact hinv
  | cons l ls ih =>
    intro st st' hinv hok
    simp only [mdRun, bind, Except.bind] at hok
    cases hstep : mdStep mm nst st l with
    | error e => rw [hstep] at hok; cases hok
    | ok st2 =>
      rw [hstep] at hok
      exact ih st2 st' (mdStep_ok_inv hinv hstep) hok

theorem mdRun_nobad_ok {mm nst : Bool} :
    ∀ (lines : List Str) (st : MdState), MdInv st →
      (∀ l ∈ lines, ¬ badHeading l) → ∃ st', mdRun mm nst st lines = .ok st' := by
  intro lines
  induction lines with
  | nil => exact fun st _ _ => ⟨st, rfl⟩
  | cons l ls ih =>
    intro st hinv hnb
    obtain ⟨st2, heq, hinv2⟩ :=
      @mdStep_good mm nst _ _ hinv (hnb l (by simp))
    obtain ⟨st', hrun⟩ := ih st2 hinv2 (fun x hx => hnb x (by simp [hx]))
    refine ⟨st', ?_⟩
    simp only [mdRun, bind, Except.bind, heq]
    exact hrun

theorem mdRun_bad_error {mm nst : Bool} :
    ∀ (lines : List Str) (st : MdState), MdInv st →
      (∃ l ∈ lines, badHeading l) →
      mdRun mm nst st lines = .error PyErr.indexError := by
  intro lines
  induction lines with
  | nil =>
    intro st _ h
    simp at h
  | cons l ls ih =>
    intro st hinv h
    by_cases hbad : badHeading l
    · simp only [mdRun, bind, Except.bind, mdStep_bad hinv hbad]
    · obtain ⟨st2, heq, hinv2⟩ := @mdStep_good mm nst _ _ hinv hbad
      simp only [mdRun, bind, Except.bind, heq]
      apply ih st2 hinv2
      rcases h with ⟨x, hx, hbx⟩
      rcases List.mem_cons.mp hx with he | ht
      · exact absurd (he ▸ hbx) hbad
      · exact ⟨x, ht, hbx⟩

/-- Claim C10: MdFile.read raises an uncaught IndexError exactly when
some line of the converted text begins with a hash character but holds no
hash-space: the title extraction indexes element 1 of the split, so
reading ends with the exception rather than an ERROR-tagged message, and
every heading line holding a hash-space is processed without error. -/
theorem c10_bad_heading_iff_index_error (mm nst : Bool) (text : Str) :
    mdRead mm nst text = .error PyErr.indexError ↔
      ∃ l ∈ splitNl (convToYwText mm text), badHeading l := by
  constructor
  · intro herr
    by_contra hnb
    push_neg at hnb
    obtain ⟨st', hok⟩ := mdRun_nobad_ok _ {} mdInv_init hnb
    rw [mdRead] at herr
    rw [hok] at herr
    cases herr
  · intro hex
    exact mdRun_bad_error _ {} mdInv_init hex

/-- The Markdown text of the C4 counterexample: a chapter heading, then
scene text that is still open when input ends. -/
def c4input : Str := ("# C\n\nHello\n").data

/-- Claim C4 counterexample: on text whose final scene is never closed by
a later heading or divider, read returns SUCCESS but the scene keeps an
unset content and the creation status, the string 1, instead of the
flushed content Hello with Outline status the claim requires. -/
theorem c4_counterexample :
    ((mdRead false false c4input).toOption.bind
      (fun st => st.scId.bind (fun id => (lookupA st.scenes id).map
        (fun sc => (sc.sceneContent, sc.status, sc.wordCount)))))
      = some (none, some (Sum.inl (("1").data)), 0) := by
  rfl

/-- Claim C4 amended: end of input does not flush a still-open scene; the
loop simply ends, so whenever read returns successfully with a scene
still open, that scene keeps an unset content, the creation status (the
string 1) and a zero word count; flushing happens only on later heading
or divider lines. -/
theorem c4_open_scene_never_flushed (mm nst : Bool) (text : Str) (st : MdState)
    (id : Str) (hok : mdRead mm nst text = .ok st) (hid : st.scId = some id) :
    (lookupA st.scenes id).map (fun sc => (sc.sceneContent, sc.status, sc.wordCount))
      = some (none, some (Sum.inl (("1").data)), 0) := by
  have hinv := mdRun_ok_inv _ _ _ mdInv_init hok
  obtain ⟨sc, hlk, h1, h2, h3, -⟩ := hinv.1 id hid
  rw [hlk]
  simp [h1, h2, h3]

/-- Witness for the amended C4 theorem at the concrete counterexample
input. -/
theorem c4_open_scene_never_flushed_witness :
    (lookupA ((mdRead false false c4input).toOption.getD {}).scenes (natId 1)).map
      (fun sc => (sc.sceneContent, sc.status, sc.wordCount))
      = some (none, some (Sum.inl (("1").data)), 0) :=
  c4_open_scene_never_flushed false false c4input
    ((mdRead false false c4input).toOption.getD {}) (natId 1) (by rfl) (by rfl)


/-! ## Claims C5, C7 and C9: the merge result

Shared machinery: inversion for Except binds, key-presence under
insertion, and what each merge section leaves untouched. -/

theorem exceptBind_ok {ε α β : Type} {x : Except ε α} {f : α → Except ε β} {b : β}
    (h : x >>= f = .ok b) : ∃ a, x = .ok a ∧ f a = .ok b := by
  cases x with
  | error e => simp [Bind.bind, Except.bind] at h
  | ok a =>
    refine ⟨a, rfl, ?_⟩
    simpa [Bind.bind, Except.bind] using h

theorem lookupA_insertA_isSome {α : Type} (m : List (Str × α)) (k x : Str) (v : α) :
    (lookupA (insertA m k v) x).isSome ↔ ((lookupA m x).isSome ∨ x = k) := by
  by_cases hx : x = k
  · subst hx
    simp [lookupA_insertA_self]
  · rw [lookupA_insertA_ne m k x v hx]
    simp [hx]

theorem lookupA_insertA_none {α : Type} {m : List (Str × α)} {k x : Str} {v : α}
    (h : lookupA (insertA m k v) x = none) : lookupA m x = none := by
  by_cases hx : x = k
  · subst hx
    rw [lookupA_insertA_self] at h
    cases h
  · rw [lookupA_insertA_ne m k x v hx] at h
    exact h

/-- The merge-scalar view of a novel: the fields the final block of
Yw7File.merge writes, plus the tree flag. -/
def coreView (n : Novel) :=
  (n.title, n.desc, n.author, n.fieldTitle1, n.fieldTitle2, n.fieldTitle3,
    n.fieldTitle4, n.srtChapters, n.tree)

theorem mergeLocations_pres {tgt src t1 : Novel} (h : mergeLocations tgt src = .ok t1) :
    coreView t1 = coreView tgt ∧ t1.chapters = tgt.chapters ∧ t1.scenes = tgt.scenes ∧
    t1.items = tgt.items ∧ t1.characters = tgt.characters := by
  unfold mergeLocations at h
  split at h
  · cases h
    exact ⟨rfl, rfl, rfl, rfl, rfl⟩
  · obtain ⟨L, hL, hp⟩ := exceptBind_ok h
    cases hp
    exact ⟨rfl, rfl, rfl, rfl, rfl⟩

theorem mergeItems_pres {tgt src t1 : Novel} (h : mergeItems tgt src = .ok t1) :
    coreView t1 = coreView tgt ∧ t1.chapters = tgt.chapters ∧ t1.scenes = tgt.scenes ∧
    t1.locations = tgt.locations ∧ t1.characters = tgt.characters := by
  unfold mergeItems at h
  split at h
  · cases h
    exact ⟨rfl, rfl, rfl, rfl, rfl⟩
  · obtain ⟨L, hL, hp⟩ := exceptBind_ok h
    cases hp
    exact ⟨rfl, rfl, rfl, rfl, rfl⟩

theorem mergeCharacters_pres {tgt src t1 : Novel} (h : mergeCharacters tgt src = .ok t1) :
    coreView t1 = coreView tgt ∧ t1.chapters = tgt.chapters ∧ t1.scenes = tgt.scenes ∧
    t1.locations = tgt.locations ∧ t1.items = tgt.items := by
  unfold mergeCharacters at h
  split at h
  · cases h
    exact ⟨rfl, rfl, rfl, rfl, rfl⟩
  · obtain ⟨L, hL, hp⟩ := exceptBind_ok h
    cases hp
    exact ⟨rfl, rfl, rfl, rfl, rfl⟩

/-- What one scene step does to the state: everything but the scene
registry is kept, the registry gains exactly the key of the processed
pair, and the mismatch count grows exactly when that key was absent. -/
theorem sceneStep_ok {st : Novel × Nat} {p : Str × Scene} {out : Novel × Nat}
    (h : sceneStep st p = .ok out) :
    coreView out.1 = coreView st.1 ∧ out.1.chapters = st.1.chapters ∧
    (∀ x, (lookupA out.1.scenes x).isSome ↔ ((lookupA st.1.scenes x).isSome ∨ x = p.1)) ∧
    out.2 = (if (lookupA st.1.scenes p.1).isSome then st.2 else st.2 + 1) := by
  unfold sceneStep at h
  rcases hlk : lookupA st.1.scenes p.1 with _ | sc0
  · rw [hlk] at h
    dsimp only at h
    rcases hit : p.2.items with _ | its
    · rw [hit] at h
      simp only [bind, Except.bind, pure, Except.pure] at h
      cases h
      refine ⟨rfl, rfl, ?_, by simp [hlk]⟩
      intro x
      dsimp only
      rw [lookupA_insertA_isSome, lookupA_insertA_isSome]
      tauto
    · rw [hit] at h
      dsimp only at h
      split at h
      · simp only [throw, throwThe, MonadExceptOf.throw, bind, Except.bind,
          pure, Except.pure] at h
        exact Except.noConfusion h
      · simp only [bind, Except.bind, pure, Except.pure] at h
        cases h
        refine ⟨rfl, rfl, ?_, by simp [hlk]⟩
        intro x
        dsimp only
        rw [lookupA_insertA_isSome, lookupA_insertA_isSome]
        tauto
  · rw [hlk] at h
    dsimp only at h
    rcases hit : p.2.items with _ | its
    · rw [hit] at h
      simp only [bind, Except.bind, pure, Except.pure] at h
      cases h
      refine ⟨rfl, rfl, ?_, by simp [hlk]⟩
      intro x
      dsimp only
      rw [lookupA_insertA_isSome]
    · rw [hit] at h
      dsimp only at h
      split at h
      · simp only [throw, throwThe, MonadExceptOf.throw, bind, Except.bind,
          pure, Except.pure] at h
        exact Except.noConfusion h
      · simp only [bind, Except.bind, pure, Except.pure] at h
        cases h
        refine ⟨rfl, rfl, ?_, by simp [hlk]⟩
        intro x
        dsimp only
        rw [lookupA_insertA_isSome]

/-- The scene fold: scalars and chapters preserved, presence grows by the
processed keys, the count is monotone and grows exactly when some
processed key was absent at the start. -/
theorem sceneFold_spec :
    ∀ (ps : List (Str × Scene)) (st0 out : Novel × Nat),
      List.foldlM sceneStep st0 ps = .ok out →
      coreView out.1 = coreView st0.1 ∧ out.1.chapters = st0.1.chapters ∧
      (∀ x, (lookupA out.1.scenes x).isSome ↔
        ((lookupA st0.1.scenes x).isSome ∨ ∃ p ∈ ps, x = p.1)) ∧
      st0.2 ≤ out.2 ∧
      (out.2 ≠ st0.2 ↔ ∃ p ∈ ps, lookupA st0.1.scenes p.1 = none) := by
  intro ps
  induction ps with
  | nil =>
    intro st0 out h
    simp only [List.foldlM_nil] at h
    cases h
    refine ⟨rfl, rfl, fun x => ?_, Nat.le_refl _, ?_⟩
    · constructor
      · exact fun hx => Or.inl hx
      · rintro (hx | ⟨q, hq, -⟩)
        · exact hx
        · exact absurd hq (List.not_mem_nil q)
    · constructor
      · exact fun hh => absurd rfl hh
      · rintro ⟨q, hq, -⟩
        exact absurd hq (List.not_mem_nil q)
  | cons p ps ih =>
    intro st0 out h
    rw [List.foldlM_cons] at h
    obtain ⟨st1, hstep, hrest⟩ := exceptBind_ok h
    obtain ⟨hc1, hch1, hpres1, hmm1⟩ := sceneStep_ok hstep
    obtain ⟨hc2, hch2, hpres2, hle2, hiff2⟩ := ih st1 out hrest
    refine ⟨hc2.trans hc1, hch2.trans hch1, ?_, ?_, ?_⟩
    · intro x
      rw [hpres2 x, hpres1 x]
      constructor
      · rintro ((hx | hx) | hx)
        · exact Or.inl hx
        · exact Or.inr ⟨p, List.mem_cons_self p ps, hx⟩
        · rcases hx with ⟨q, hq, hqx⟩
          exact Or.inr ⟨q, List.mem_cons_of_mem p hq, hqx⟩
      · rintro (hx | ⟨q, hq, hqx⟩)
        · exact Or.inl (Or.inl hx)
        · rcases List.mem_cons.mp hq with he | ht
          · exact Or.inl (Or.inr (by rw [hqx, he]))
          · exact Or.inr ⟨q, ht, hqx⟩
    · split at hmm1 <;> omega
    · rcases hlk : (lookupA st0.1.scenes p.1) with _ | sc
      · rw [hlk] at hmm1
        simp only [Option.isSome_none, Bool.false_eq_true, if_false, ite_false] at hmm1
        constructor
        · intro _
          exact ⟨p, List.mem_cons_self p ps, hlk⟩
        · intro _
          omega
      · rw [hlk] at hmm1
        simp only [Option.isSome_some, if_true, ite_true] at hmm1
        rw [hmm1] at hle2 hiff2
        rw [hiff2]
        constructor
        · rintro ⟨q, hq, hqn⟩
          refine ⟨q, List.mem_cons_of_mem p hq, ?_⟩
          rcases hn : lookupA st0.1.scenes q.1 with _ | v
          · rfl
          · exfalso
            have hsome : (lookupA st1.1.scenes q.1).isSome := by
              rw [hpres1 q.1]
              exact Or.inl (by simp [hn])
            rw [hqn] at hsome
            cases hsome
        · rintro ⟨q, hq, hqn⟩
          rcases List.mem_cons.mp hq with he | ht
          · exfalso
            rw [he, hlk] at hqn
            cases hqn
          · refine ⟨q, ht, ?_⟩
            rcases hn : lookupA st1.1.scenes q.1 with _ | v
            · rfl
            · exfalso
              have h1 : (lookupA st1.1.scenes q.1).isSome := by simp [hn]
              rw [hpres1 q.1] at h1
              rcases h1 with h1 | h1
              · rw [hqn] at h1
                cases h1
              · rw [h1, hlk] at hqn
                cases hqn

/-! ## Chapter-section machinery: the rebuilt scene-order lists and the
chapter fold of Yw7File.merge -/

/-- The body of the rebuild fold, named for reasoning. -/
def rbStep (scenes : List (Str × Scene)) (acc : List Str × List Str) (scId : Str) :
    List Str × List Str :=
  if (lookupA scenes scId).isSome ∧ scId ∉ acc.2 then
    (acc.1 ++ [scId], acc.2 ++ [scId])
  else acc

theorem rebuildSrtScenes_eq (scenes : List (Str × Scene)) (l assigned : List Str) :
    rebuildSrtScenes scenes l assigned = List.foldl (rbStep scenes) ([], assigned) l := rfl

theorem rbFold_aux (scenes : List (Str × Scene)) :
    ∀ (l a1 A0 : List Str), a1.Nodup → (∀ x ∈ a1, x ∉ A0) →
      (List.foldl (rbStep scenes) (a1, A0 ++ a1) l).2
          = A0 ++ (List.foldl (rbStep scenes) (a1, A0 ++ a1) l).1 ∧
      (List.foldl (rbStep scenes) (a1, A0 ++ a1) l).1.Nodup ∧
      (∀ x ∈ (List.foldl (rbStep scenes) (a1, A0 ++ a1) l).1, x ∉ A0) := by
  intro l
  induction l with
  | nil =>
    intro a1 A0 h1 h2
    exact ⟨rfl, h1, h2⟩
  | cons s ls ih =>
    intro a1 A0 h1 h2
    rw [List.foldl_cons]
    by_cases hc : (lookupA scenes s).isSome ∧ s ∉ (A0 ++ a1)
    · have hsA0 : s ∉ A0 := fun hm => hc.2 (List.mem_append.mpr (Or.inl hm))
      have hsa1 : s ∉ a1 := fun hm => hc.2 (List.mem_append.mpr (Or.inr hm))
      have hstep : rbStep scenes (a1, A0 ++ a1) s = (a1 ++ [s], A0 ++ (a1 ++ [s])) := by
        simp only [rbStep]
        rw [if_pos hc]
        rw [List.append_assoc]
      rw [hstep]
      have h1n : (a1 ++ [s]).Nodup := by
        rw [List.nodup_append]
        refine ⟨h1, List.nodup_singleton s, ?_⟩
        intro x hx hxs
        rw [List.mem_singleton] at hxs
        exact hsa1 (hxs ▸ hx)
      have h2n : ∀ x ∈ a1 ++ [s], x ∉ A0 := by
        intro x hx
        rcases List.mem_append.mp hx with hx | hx
        · exact h2 x hx
        · rw [List.mem_singleton] at hx
          exact hx ▸ hsA0
      exact ih (a1 ++ [s]) A0 h1n h2n
    · have hstep : rbStep scenes (a1, A0 ++ a1) s = (a1, A0 ++ a1) := by
        simp only [rbStep]
        rw [if_neg hc]
      rw [hstep]
      exact ih a1 A0 h1 h2

/-- The rebuilt list: the claimed accumulator grows by exactly the kept
list, the kept list has no duplicates, and none of its ids were already
claimed. -/
theorem rebuildSrtScenes_spec (scenes : List (Str × Scene)) (l assigned : List Str) :
    (rebuildSrtScenes scenes l assigned).2
        = assigned ++ (rebuildSrtScenes scenes l assigned).1 ∧
    (rebuildSrtScenes scenes l assigned).1.Nodup ∧
    ∀ x ∈ (rebuildSrtScenes scenes l assigned).1, x ∉ assigned := by
  have he : rebuildSrtScenes scenes l assigned
      = List.foldl (rbStep scenes) ([], assigned ++ []) l := by
    rw [List.append_nil]
    rfl
  rw [he]
  exact rbFold_aux scenes l [] assigned List.nodup_nil (fun x hx => absurd hx (List.not_mem_nil x))

/-- What one chapter step does to the state: scalars and the scene
registry kept, the chapter registry gains exactly the processed key, and
the mismatch count grows exactly when that key was absent. -/
theorem chapStep_ok (st : Novel × Nat × List Str) (p : Str × Chapter) :
    coreView (chapStep st p).1 = coreView st.1 ∧
    (chapStep st p).1.scenes = st.1.scenes ∧
    (∀ x, (lookupA (chapStep st p).1.chapters x).isSome ↔
      ((lookupA st.1.chapters x).isSome ∨ x = p.1)) ∧
    (chapStep st p).2.1 =
      (if (lookupA st.1.chapters p.1).isSome then st.2.1 else st.2.1 + 1) := by
  rcases hlk : lookupA st.1.chapters p.1 with _ | c0 <;>
    rcases hsrt : p.2.srtScenes with _ | l <;>
      simp only [chapStep, hlk, hsrt, Option.isSome_none, Option.isSome_some,
        Bool.false_eq_true, if_false, if_true, ite_false, ite_true] <;>
      refine ⟨?_, ?_, fun x => ?_, ?_⟩ <;>
        first
          | trivial
          | rw [lookupA_insertA_isSome]

/-- A chapter step on a source chapter that carries a scene-order list:
the inserted entry holds exactly the rebuilt list, and the claimed
accumulator becomes the rebuild output. -/
theorem chapStep_srt (st : Novel × Nat × List Str) (p : Str × Chapter) (l : List Str)
    (hsrt : p.2.srtScenes = some l) :
    (∃ ch, lookupA (chapStep st p).1.chapters p.1 = some ch ∧
      ch.srtScenes = some (rebuildSrtScenes st.1.scenes l st.2.2).1) ∧
    (chapStep st p).2.2 = (rebuildSrtScenes st.1.scenes l st.2.2).2 := by
  rcases hlk : lookupA st.1.chapters p.1 with _ | c0 <;>
    simp only [chapStep, hlk, hsrt] <;>
    exact ⟨⟨_, lookupA_insertA_self _ _ _, rfl⟩, trivial⟩

/-- A chapter step on a source chapter without a scene-order list leaves
the claimed accumulator unchanged. -/
theorem chapStep_nosrt (st : Novel × Nat × List Str) (p : Str × Chapter)
    (hsrt : p.2.srtScenes = none) :
    (chapStep st p).2.2 = st.2.2 := by
  rcases hlk : lookupA st.1.chapters p.1 with _ | c0 <;>
    simp only [chapStep, hlk, hsrt]

/-- A chapter step leaves every other chapter entry unchanged. -/
theorem chapStep_lookup_ne (st : Novel × Nat × List Str) (p : Str × Chapter)
    (x : Str) (hne : x ≠ p.1) :
    lookupA (chapStep st p).1.chapters x = lookupA st.1.chapters x := by
  rcases hlk : lookupA st.1.chapters p.1 with _ | c0 <;>
    rcases hsrt : p.2.srtScenes with _ | l <;>
      simp only [chapStep, hlk, hsrt] <;>
      exact lookupA_insertA_ne _ _ _ _ hne

/-- A chapter step only ever appends to the claimed accumulator. -/
theorem chapStep_assigned_ext (st : Novel × Nat × List Str) (p : Str × Chapter) :
    ∃ B, (chapStep st p).2.2 = st.2.2 ++ B := by
  rcases hsrt : p.2.srtScenes with _ | l
  · exact ⟨[], by rw [chapStep_nosrt st p hsrt, List.append_nil]⟩
  · refine ⟨(rebuildSrtScenes st.1.scenes l st.2.2).1, ?_⟩
    rw [(chapStep_srt st p l hsrt).2]
    exact (rebuildSrtScenes_spec st.1.scenes l st.2.2).1

/-- The chapter fold: scalars and scenes preserved, chapter presence
grows by the processed keys, the count is monotone and grows exactly
when some processed key was absent at the start. -/
theorem chapFold_spec :
    ∀ (ps : List (Str × Chapter)) (st0 : Novel × Nat × List Str),
      coreView (List.foldl chapStep st0 ps).1 = coreView st0.1 ∧
      (List.foldl chapStep st0 ps).1.scenes = st0.1.scenes ∧
      (∀ x, (lookupA (List.foldl chapStep st0 ps).1.chapters x).isSome ↔
        ((lookupA st0.1.chapters x).isSome ∨ ∃ p ∈ ps, x = p.1)) ∧
      st0.2.1 ≤ (List.foldl chapStep st0 ps).2.1 ∧
      ((List.foldl chapStep st0 ps).2.1 ≠ st0.2.1 ↔
        ∃ p ∈ ps, lookupA st0.1.chapters p.1 = none) := by
  intro ps
  induction ps with
  | nil =>
    intro st0
    rw [List.foldl_nil]
    refine ⟨rfl, rfl, fun x => ?_, Nat.le_refl _, ?_⟩
    · constructor
      · exact fun hx => Or.inl hx
      · rintro (hx | ⟨q, hq, -⟩)
        · exact hx
        · exact absurd hq (List.not_mem_nil q)
    · constructor
      · exact fun hh => absurd rfl hh
      · rintro ⟨q, hq, -⟩
        exact absurd hq (List.not_mem_nil q)
  | cons p ps ih =>
    intro st0
    rw [List.foldl_cons]
    obtain ⟨hc1, hs1, hpres1, hmm1⟩ := chapStep_ok st0 p
    obtain ⟨hc2, hs2, hpres2, hle2, hiff2⟩ := ih (chapStep st0 p)
    refine ⟨hc2.trans hc1, hs2.trans hs1, ?_, ?_, ?_⟩
    · intro x
      rw [hpres2 x, hpres1 x]
      constructor
      · rintro ((hx | hx) | hx)
        · exact Or.inl hx
        · exact Or.inr ⟨p, List.mem_cons_self p ps, hx⟩
        · rcases hx with ⟨q, hq, hqx⟩
          exact Or.inr ⟨q, List.mem_cons_of_mem p hq, hqx⟩
      · rintro (hx | ⟨q, hq, hqx⟩)
        · exact Or.inl (Or.inl hx)
        · rcases List.mem_cons.mp hq with he | ht
          · exact Or.inl (Or.inr (by rw [hqx, he]))
          · exact Or.inr ⟨q, ht, hqx⟩
    · split at hmm1 <;> omega
    · rcases hlk : (lookupA st0.1.chapters p.1) with _ | c
      · rw [hlk] at hmm1
        simp only [Option.isSome_none, Bool.false_eq_true, if_false, ite_false] at hmm1
        constructor
        · intro _
          exact ⟨p, List.mem_cons_self p ps, hlk⟩
        · intro _
          omega
      · rw [hlk] at hmm1
        simp only [Option.isSome_some, if_true, ite_true] at hmm1
        rw [hmm1] at hle2 hiff2
        rw [hiff2]
        constructor
        · rintro ⟨q, hq, hqn⟩
          refine ⟨q, List.mem_cons_of_mem p hq, ?_⟩
          rcases hn : lookupA st0.1.chapters q.1 with _ | v
          · rfl
          · exfalso
            have hsome : (lookupA (chapStep st0 p).1.chapters q.1).isSome := by
              rw [hpres1 q.1]
              exact Or.inl (by simp [hn])
            rw [hqn] at hsome
            cases hsome
        · rintro ⟨q, hq, hqn⟩
          rcases List.mem_cons.mp hq with he | ht
          · exfalso
            rw [he, hlk] at hqn
            cases hqn
          · refine ⟨q, ht, ?_⟩
            rcases hn : lookupA (chapStep st0 p).1.chapters q.1 with _ | v
            · rfl
            · exfalso
              have h1 : (lookupA (chapStep st0 p).1.chapters q.1).isSome := by simp [hn]
              rw [hpres1 q.1] at h1
              rcases h1 with h1 | h1
              · rw [hqn] at h1
                cases h1
              · rw [h1, hlk] at hqn
                cases hqn

/-- Keys not processed by the chapter fold keep their entries. -/
theorem chapFold_lookup_notin :
    ∀ (ps : List (Str × Chapter)) (st0 : Novel × Nat × List Str) (x : Str),
      (∀ q ∈ ps, x ≠ q.1) →
      lookupA (List.foldl chapStep st0 ps).1.chapters x = lookupA st0.1.chapters x := by
  intro ps
  induction ps with
  | nil =>
    intro st0 x _
    rw [List.foldl_nil]
  | cons p ps ih =>
    intro st0 x hx
    rw [List.foldl_cons]
    rw [ih (chapStep st0 p) x (fun q hq => hx q (List.mem_cons_of_mem p hq))]
    exact chapStep_lookup_ne st0 p x (hx p (List.mem_cons_self p ps))

/-- The chapter fold against the shared claimed accumulator: the
accumulator only grows; every processed source chapter that carries a
scene-order list ends up holding a rebuilt list whose ids are fresh
relative to the starting accumulator and are all claimed at the end;
and the rebuilt lists of two distinct processed chapters are disjoint. -/
theorem chapFold_claims :
    ∀ (ps : List (Str × Chapter)) (st0 : Novel × Nat × List Str),
      (keysA ps).Nodup →
      (∃ B, (List.foldl chapStep st0 ps).2.2 = st0.2.2 ++ B) ∧
      (∀ q ∈ ps, ∀ l, q.2.srtScenes = some l →
        ∃ ch, lookupA (List.foldl chapStep st0 ps).1.chapters q.1 = some ch ∧
          ∃ kept, ch.srtScenes = some kept ∧ kept.Nodup ∧
            (∀ x ∈ kept, x ∉ st0.2.2) ∧
            (∀ x ∈ kept, x ∈ (List.foldl chapStep st0 ps).2.2)) ∧
      (∀ q ∈ ps, ∀ r ∈ ps, q.1 ≠ r.1 →
        ∀ lq lr, q.2.srtScenes = some lq → r.2.srtScenes = some lr →
        ∀ chq chr keptq keptr,
          lookupA (List.foldl chapStep st0 ps).1.chapters q.1 = some chq →
          chq.srtScenes = some keptq →
          lookupA (List.foldl chapStep st0 ps).1.chapters r.1 = some chr →
          chr.srtScenes = some keptr →
          ∀ x ∈ keptq, x ∉ keptr) := by
  intro ps
  induction ps with
  | nil =>
    intro st0 _
    rw [List.foldl_nil]
    refine ⟨⟨[], (List.append_nil _).symm⟩, ?_, ?_⟩
    · intro q hq
      exact absurd hq (List.not_mem_nil q)
    · intro q hq
      exact absurd hq (List.not_mem_nil q)
  | cons p ps ih =>
    intro st0 hnd
    simp only [keysA, List.map_cons, List.nodup_cons] at hnd
    obtain ⟨hp1, hnd2⟩ := hnd
    rw [List.foldl_cons]
    obtain ⟨hpre, hper, hpair⟩ := ih (chapStep st0 p) hnd2
    obtain ⟨B1, hB1⟩ := chapStep_assigned_ext st0 p
    obtain ⟨B2, hB2⟩ := hpre
    have hself : ∀ v, lookupA (chapStep st0 p).1.chapters p.1 = some v →
        lookupA (List.foldl chapStep (chapStep st0 p) ps).1.chapters p.1 = some v := by
      intro v hv
      rw [chapFold_lookup_notin ps (chapStep st0 p) p.1 ?_]
      · exact hv
      · intro q hq he
        exact hp1 (he ▸ List.mem_map_of_mem _ hq)
    refine ⟨⟨B1 ++ B2, by rw [hB2, hB1, List.append_assoc]⟩, ?_, ?_⟩
    · intro q hq l hl
      rcases List.mem_cons.mp hq with he | ht
      · subst he
        obtain ⟨⟨ch2, hch2, hsrt2⟩, hass⟩ := chapStep_srt st0 q l hl
        obtain ⟨hr1, hr2, hr3⟩ := rebuildSrtScenes_spec st0.1.scenes l st0.2.2
        have hassA : (chapStep st0 q).2.2
            = st0.2.2 ++ (rebuildSrtScenes st0.1.scenes l st0.2.2).1 := by
          rw [hass, hr1]
        refine ⟨ch2, hself ch2 hch2, _, hsrt2, hr2, hr3, ?_⟩
        intro x hx
        rw [hB2, hassA]
        exact List.mem_append.mpr (Or.inl (List.mem_append.mpr (Or.inr hx)))
      · obtain ⟨ch, hch, kept, hk, hkn, hknot, hkin⟩ := hper q ht l hl
        refine ⟨ch, hch, kept, hk, hkn, ?_, hkin⟩
        intro x hx hx0
        refine hknot x hx ?_
        rw [hB1]
        exact List.mem_append.mpr (Or.inl hx0)
    · intro q hq r hr hne lq lr hlq hlr chq chr keptq keptr e1 f1 e2 f2 x hxq hxr
      rcases List.mem_cons.mp hq with heq | htq <;> rcases List.mem_cons.mp hr with her | htr
      · exact hne (by rw [heq, her])
      · subst heq
        obtain ⟨⟨ch2, hch2, hsrt2⟩, hass⟩ := chapStep_srt st0 q lq hlq
        obtain ⟨hr1, hr2, hr3⟩ := rebuildSrtScenes_spec st0.1.scenes lq st0.2.2
        have hfin := hself ch2 hch2
        rw [hfin] at e1
        have hce : ch2 = chq := Option.some.inj e1
        rw [hce] at hsrt2
        rw [f1] at hsrt2
        have hke : keptq = (rebuildSrtScenes st0.1.scenes lq st0.2.2).1 :=
          Option.some.inj hsrt2
        obtain ⟨ch', hch', kept', hk', hkn', hknot', hkin'⟩ := hper r htr lr hlr
        rw [hch'] at e2
        have hce' : ch' = chr := Option.some.inj e2
        rw [hce'] at hk'
        rw [f2] at hk'
        have hke' : keptr = kept' := Option.some.inj hk'

        refine hknot' x (hke' ▸ hxr) ?_
        rw [hass, hr1]
        exact List.mem_append.mpr (Or.inr (hke ▸ hxq))
      · subst her
        obtain ⟨⟨ch2, hch2, hsrt2⟩, hass⟩ := chapStep_srt st0 r lr hlr
        obtain ⟨hr1, hr2, hr3⟩ := rebuildSrtScenes_spec st0.1.scenes lr st0.2.2
        have hfin := hself ch2 hch2
        rw [hfin] at e2
        have hce : ch2 = chr := Option.some.inj e2
        rw [hce] at hsrt2
        rw [f2] at hsrt2
        have hke : keptr = (rebuildSrtScenes st0.1.scenes lr st0.2.2).1 :=
          Option.some.inj hsrt2
        obtain ⟨ch', hch', kept', hk', hkn', hknot', hkin'⟩ := hper q htq lq hlq
        rw [hch'] at e1
        have hce' : ch' = chq := Option.some.inj e1
        rw [hce'] at hk'
        rw [f1] at hk'
        have hke' : keptq = kept' := Option.some.inj hk'

        refine hknot' x (hke' ▸ hxq) ?_
        rw [hass, hr1]
        exact List.mem_append.mpr (Or.inr (hke ▸ hxr))
      · exact hpair q htq r htr hne lq lr hlq hlr chq chr keptq keptr e1 f1 e2 f2 x hxq hxr

/-- Decomposition of a normally returning merge: the first three
sections keep the scalar view and both registries, then the scene fold,
the chapter fold, the final scalar block, and the message rule. -/
theorem ywMerge_ok_decomp {tgt src st : Novel} {msg : MergeMsg}
    (h : ywMerge tgt src = .ok (st, msg)) :
    ∃ t3 t4 mm t5 mm2 A,
      coreView t3 = coreView tgt ∧ t3.scenes = tgt.scenes ∧ t3.chapters = tgt.chapters ∧
      mergeScenes t3 src = .ok (t4, mm) ∧
      List.foldl chapStep (t4, mm, []) src.chapters = (t5, mm2, A) ∧
      st = { t5 with
        title := if truthyS src.title then src.title else t5.title
        desc := ovr src.desc t5.desc
        author := ovr src.author t5.author
        fieldTitle1 := ovr src.fieldTitle1 t5.fieldTitle1
        fieldTitle2 := ovr src.fieldTitle2 t5.fieldTitle2
        fieldTitle3 := ovr src.fieldTitle3 t5.fieldTitle3
        fieldTitle4 := ovr src.fieldTitle4 t5.fieldTitle4
        srtChapters := if t5.srtChapters = [] then src.srtChapters else t5.srtChapters } ∧
      (msg = MergeMsg.mismatchError ↔ (st.tree = true ∧ mm2 ≠ 0)) := by
  unfold ywMerge at h
  obtain ⟨t1, h1, h⟩ := exceptBind_ok h
  obtain ⟨t2, h2, h⟩ := exceptBind_ok h
  obtain ⟨t3, h3, h⟩ := exceptBind_ok h
  obtain ⟨t4mm, h4, h⟩ := exceptBind_ok h
  obtain ⟨t4, mm⟩ := t4mm
  dsimp only at h
  rw [show mergeChapters t4 src mm
      = ((List.foldl chapStep (t4, mm, []) src.chapters).1,
         (List.foldl chapStep (t4, mm, []) src.chapters).2.1) from rfl] at h
  rcases hch : List.foldl chapStep (t4, mm, []) src.chapters with ⟨t5, mm2, A⟩
  rw [hch] at h
  dsimp only at h
  obtain ⟨c1, ch1, s1, -, -⟩ := mergeLocations_pres h1
  obtain ⟨c2, ch2, s2, -, -⟩ := mergeItems_pres h2
  obtain ⟨c3, ch3, s3, -, -⟩ := mergeCharacters_pres h3
  refine ⟨t3, t4, mm, t5, mm2, A, c3.trans (c2.trans c1), s3.trans (s2.trans s1),
    ch3.trans (ch2.trans ch1), h4, hch, ?_⟩
  split at h
  · next hcond =>
    simp only [pure, Except.pure, Except.ok.injEq, Prod.mk.injEq] at h
    obtain ⟨hst, hmsg⟩ := h
    subst hst
    subst hmsg
    exact ⟨rfl, fun _ => hcond, fun _ => rfl⟩
  · next hcond =>
    simp only [pure, Except.pure, Except.ok.injEq, Prod.mk.injEq] at h
    obtain ⟨hst, hmsg⟩ := h
    subst hst
    subst hmsg
    exact ⟨rfl, fun he => MergeMsg.noConfusion he, fun hc => absurd hc hcond⟩

/-- The scene section preserves the scalar view and the chapters, and
produces a non-zero count exactly when a source scene id is absent. -/
theorem mergeScenes_spec {t3 t4 : Novel} {mm : Nat} {src : Novel}
    (h : mergeScenes t3 src = .ok (t4, mm)) :
    coreView t4 = coreView t3 ∧ t4.chapters = t3.chapters ∧
    (mm ≠ 0 ↔ ∃ p ∈ src.scenes, lookupA t3.scenes p.1 = none) := by
  unfold mergeScenes at h
  obtain ⟨hc, hch, hpres, hle, hiff⟩ := sceneFold_spec src.scenes (t3, 0) (t4, mm) h
  exact ⟨hc, hch, hiff⟩

/-! ## Claim C9: the final scalar block -/

/-- A target with a title and a non-empty chapter ordering. -/
def c9tgt : Novel :=
  { title := some (("Old")).data, srtChapters := [(("1")).data] }

/-- A source that provides both a title and a chapter ordering. -/
def c9src : Novel :=
  { title := some (("New")).data, srtChapters := [(("2")).data] }

/-- Claim C9 counterexample: the source provides a chapter ordering, the
target ordering is non-empty, and after the merge the target ordering is
kept unchanged: the chapter ordering is not overwritten wholesale from
the source whenever the source provides it, but only when the target
ordering is empty. -/
theorem c9_counterexample :
    c9src.srtChapters = [(("2")).data] ∧
    c9tgt.srtChapters ≠ [] ∧
    (ywMerge c9tgt c9src).toOption.map (fun p => p.1.srtChapters)
      = some [(("1")).data] :=
  ⟨rfl, List.cons_ne_nil _ _, rfl⟩

/-- Claim C9 amended: at the end of every normally returning merge the
scalar metadata is overwritten from the source whenever the source
provides it (title when non-blank, the others when not None), while the
chapter ordering is copied from the source only when the target ordering
is empty, and is otherwise kept. -/
theorem c9_amended {tgt src st : Novel} {msg : MergeMsg}
    (h : ywMerge tgt src = .ok (st, msg)) :
    st.title = (if truthyS src.title then src.title else tgt.title) ∧
    st.desc = ovr src.desc tgt.desc ∧
    st.author = ovr src.author tgt.author ∧
    st.fieldTitle1 = ovr src.fieldTitle1 tgt.fieldTitle1 ∧
    st.fieldTitle2 = ovr src.fieldTitle2 tgt.fieldTitle2 ∧
    st.fieldTitle3 = ovr src.fieldTitle3 tgt.fieldTitle3 ∧
    st.fieldTitle4 = ovr src.fieldTitle4 tgt.fieldTitle4 ∧
    st.srtChapters = (if tgt.srtChapters = [] then src.srtChapters else tgt.srtChapters) := by
  obtain ⟨t3, t4, mm, t5, mm2, A, hc3, hs3, hch3, h4, hch, hst, hiff⟩ := ywMerge_ok_decomp h
  obtain ⟨hc4, -, -⟩ := mergeScenes_spec h4
  obtain ⟨hc5, -, -, -, -⟩ := chapFold_spec src.chapters (t4, mm, [])
  rw [hch] at hc5
  have hc5t : coreView t5 = coreView t4 := hc5
  have hcv : coreView t5 = coreView tgt := hc5t.trans (hc4.trans hc3)
  simp only [coreView, Prod.mk.injEq] at hcv
  obtain ⟨e1, e2, e3, e4, e5, e6, e7, e8, e9⟩ := hcv
  subst hst
  refine ⟨?_, ?_, ?_, ?_, ?_, ?_, ?_, ?_⟩ <;>
    simp only [e1, e2, e3, e4, e5, e6, e7, e8]

def c9out : Novel × MergeMsg := (ywMerge c9tgt c9src).toOption.getD ({}, MergeMsg.success)

theorem c9_amended_witness :
    c9out.1.title = (if truthyS c9src.title then c9src.title else c9tgt.title) ∧
    c9out.1.desc = ovr c9src.desc c9tgt.desc ∧
    c9out.1.author = ovr c9src.author c9tgt.author ∧
    c9out.1.fieldTitle1 = ovr c9src.fieldTitle1 c9tgt.fieldTitle1 ∧
    c9out.1.fieldTitle2 = ovr c9src.fieldTitle2 c9tgt.fieldTitle2 ∧
    c9out.1.fieldTitle3 = ovr c9src.fieldTitle3 c9tgt.fieldTitle3 ∧
    c9out.1.fieldTitle4 = ovr c9src.fieldTitle4 c9tgt.fieldTitle4 ∧
    c9out.1.srtChapters
      = (if c9tgt.srtChapters = [] then c9src.srtChapters else c9tgt.srtChapters) :=
  c9_amended (show ywMerge c9tgt c9src = .ok (c9out.1, c9out.2) from rfl)

/-! ## Claim C7: the structure-mismatch message -/

/-- A persistent target that owns item 1 and no chapters. -/
def c7tgt : Novel :=
  { items := [((("1")).data, ({} : WorldElement))], tree := true }

/-- A source with a chapter id the target does not have and a scene
whose items list resolves against the target registry. -/
def c7src : Novel :=
  { chapters := [((("9")).data, ({} : Chapter))]
    scenes := [((("1")).data, ({ items := some [(("1")).data] } : Scene))] }

/-- Claim C7 counterexample: against a persistent target, the source
brings a chapter id absent from the target, so the claim requires the
mismatch error to be returned; instead the merge raises an uncaught
AttributeError out of the scene item loop and returns nothing at all. -/
theorem c7_counterexample :
    c7tgt.tree = true ∧
    (∃ p ∈ c7src.chapters, lookupA c7tgt.chapters p.1 = none) ∧
    ywMerge c7tgt c7src = .error PyErr.attributeError :=
  ⟨rfl, ⟨((("9")).data, ({} : Chapter)), List.mem_singleton.mpr rfl, rfl⟩, rfl⟩

/-- Claim C7 amended: whenever the merge returns normally, it returns
the structure-mismatch error exactly when the target is persistent (its
tree flag is set) and some scene id or chapter id of the source was
absent from the target before merging. -/
theorem c7_amended {tgt src st : Novel} {msg : MergeMsg}
    (h : ywMerge tgt src = .ok (st, msg)) :
    msg = MergeMsg.mismatchError ↔
      (tgt.tree = true ∧
        ((∃ p ∈ src.scenes, lookupA tgt.scenes p.1 = none) ∨
         (∃ p ∈ src.chapters, lookupA tgt.chapters p.1 = none))) := by
  obtain ⟨t3, t4, mm, t5, mm2, A, hc3, hs3, hch3, h4, hch, hst, hiff⟩ := ywMerge_ok_decomp h
  obtain ⟨hc4, hch4, hsc⟩ := mergeScenes_spec h4
  obtain ⟨hc5, -, -, hle, hcf⟩ := chapFold_spec src.chapters (t4, mm, [])
  rw [hch] at hc5 hle hcf
  have hc5t : coreView t5 = coreView t4 := hc5
  have hle2 : mm ≤ mm2 := hle
  have hcf2 : mm2 ≠ mm ↔ ∃ p ∈ src.chapters, lookupA t4.chapters p.1 = none := hcf
  rw [hs3] at hsc
  rw [hch4, hch3] at hcf2
  have hcv : coreView t5 = coreView tgt := hc5t.trans (hc4.trans hc3)
  simp only [coreView, Prod.mk.injEq] at hcv
  have htree : st.tree = tgt.tree := by
    rw [hst]
    exact hcv.2.2.2.2.2.2.2.2
  rw [hiff, htree]
  have hnum : mm2 ≠ 0 ↔ (mm ≠ 0 ∨ mm2 ≠ mm) := by omega
  rw [hnum, hsc, hcf2]

/-- A persistent target with no content at all. -/
def c7wtgt : Novel := { tree := true }

/-- A source bringing one chapter id the target does not have. -/
def c7wsrc : Novel := { chapters := [((("9")).data, ({} : Chapter))] }

def c7wout : Novel × MergeMsg := (ywMerge c7wtgt c7wsrc).toOption.getD ({}, MergeMsg.success)

theorem c7_amended_witness :
    c7wout.2 = MergeMsg.mismatchError ↔
      (c7wtgt.tree = true ∧
        ((∃ p ∈ c7wsrc.scenes, lookupA c7wtgt.scenes p.1 = none) ∨
         (∃ p ∈ c7wsrc.chapters, lookupA c7wtgt.chapters p.1 = none))) :=
  c7_amended (show ywMerge c7wtgt c7wsrc = .ok (c7wout.1, c7wout.2) from rfl)

/-! ## Claim C5: scene ownership after the merge -/

/-- A target where chapter 1 owns scene 1 and chapter 2 is empty. -/
def c5tgt : Novel :=
  { scenes := [((("1")).data, ({} : Scene))]
    chapters := [((("1")).data, ({ srtScenes := some [(("1")).data] } : Chapter)),
                 ((("2")).data, ({ srtScenes := some [] } : Chapter))]
    srtChapters := [(("1")).data, (("2")).data]
    tree := true }

/-- A source that assigns scene 1 to chapter 2 and does not mention
chapter 1. -/
def c5src : Novel :=
  { scenes := [((("1")).data, ({} : Scene))]
    chapters := [((("2")).data, ({ srtScenes := some [(("1")).data] } : Chapter))] }

/-- Claim C5 counterexample: the merge returns SUCCESS, yet scene 1 is
owned both by chapter 1, which only exists in the target and is never
rebuilt, and by chapter 2, whose list was rebuilt from the source; the
claimed no-double-ownership invariant fails once target-only chapters
are included. -/
theorem c5_counterexample :
    ∃ stp : Novel × MergeMsg, ywMerge c5tgt c5src = .ok stp ∧
      stp.2 = MergeMsg.success ∧
      (lookupA stp.1.chapters (("1")).data).map (fun ch => ch.srtScenes)
        = some (some [(("1")).data]) ∧
      (lookupA stp.1.chapters (("2")).data).map (fun ch => ch.srtScenes)
        = some (some [(("1")).data]) :=
  ⟨(ywMerge c5tgt c5src).toOption.getD ({}, MergeMsg.success), rfl, rfl, rfl, rfl⟩

/-- Claim C5 amended: after every normally returning merge, among the
chapters processed from the source (no duplicate source chapter keys),
any two distinct chapters that carry source scene-order lists end up
with disjoint rebuilt lists: no scene id is double-owned within the
source-processed chapters. -/
theorem c5_amended {tgt src st : Novel} {msg : MergeMsg}
    (hnd : (keysA src.chapters).Nodup)
    (h : ywMerge tgt src = .ok (st, msg)) :
    ∀ q ∈ src.chapters, ∀ r ∈ src.chapters, q.1 ≠ r.1 →
      ∀ lq lr, q.2.srtScenes = some lq → r.2.srtScenes = some lr →
      ∀ chq chr keptq keptr,
        lookupA st.chapters q.1 = some chq → chq.srtScenes = some keptq →
        lookupA st.chapters r.1 = some chr → chr.srtScenes = some keptr →
        ∀ x ∈ keptq, x ∉ keptr := by
  obtain ⟨t3, t4, mm, t5, mm2, A, hc3, hs3, hch3, h4, hch, hst, hiff⟩ := ywMerge_ok_decomp h
  obtain ⟨-, -, hpair⟩ := chapFold_claims src.chapters (t4, mm, []) hnd
  rw [hch] at hpair
  have hstch : st.chapters = t5.chapters := by rw [hst]
  rw [hstch]
  exact fun q hq r hr hne lq lr hlq hlr chq chr keptq keptr e1 f1 e2 f2 x hxq =>
    hpair q hq r hr hne lq lr hlq hlr chq chr keptq keptr e1 f1 e2 f2 x hxq

/-- A fresh target. -/
def c5wtgt : Novel := {}

/-- A source with two chapters whose scene-order lists overlap on scene
2, to be disambiguated by the claimed-accumulator pass. -/
def c5wsrc : Novel :=
  { scenes := [((("1")).data, ({} : Scene)), ((("2")).data, ({} : Scene))]
    chapters := [((("1")).data,
                    ({ srtScenes := some [(("1")).data, (("2")).data] } : Chapter)),
                 ((("2")).data, ({ srtScenes := some [(("2")).data] } : Chapter))] }

def c5wout : Novel × MergeMsg := (ywMerge c5wtgt c5wsrc).toOption.getD ({}, MergeMsg.success)

def c5wch (k : Str) : Chapter := (lookupA c5wout.1.chapters k).getD {}

def c5wkept (k : Str) : List Str := (c5wch k).srtScenes.getD []

theorem c5_amended_witness :
    (("2")).data ∈ c5wkept (("1")).data ∧ (("2")).data ∉ c5wkept (("2")).data :=
  ⟨by decide,
    c5_amended (by decide)
      (show ywMerge c5wtgt c5wsrc = .ok (c5wout.1, c5wout.2) from rfl)
      ((("1")).data, ({ srtScenes := some [(("1")).data, (("2")).data] } : Chapter))
      (List.mem_cons_self _ _)
      ((("2")).data, ({ srtScenes := some [(("2")).data] } : Chapter))
      (List.mem_cons_of_mem _ (List.mem_cons_self _ _))
      (by decide)
      [(("1")).data, (("2")).data] [(("2")).data] rfl rfl
      (c5wch (("1")).data) (c5wch (("2")).data)
      (c5wkept (("1")).data) (c5wkept (("2")).data)
      rfl rfl rfl rfl (("2")).data (by decide)⟩

/-! ## Claim C1: machinery for the export pipeline

Segment and hit equations for the left-to-right replacement scanner,
and the interaction of newline doubling with newline halving. -/

theorem pyReplaceP_seg (p0 : Char) (pt r : Str) :
    ∀ (a b : Str), (∀ c ∈ a, c ≠ p0) →
      pyReplaceP p0 pt r (a ++ b) = a ++ pyReplaceP p0 pt r b := by
  intro a
  induction a with
  | nil => intro b _; rfl
  | cons c a2 ih =>
    intro b hc
    rw [List.cons_append, pyReplaceP_cons]
    rw [if_neg ?_]
    · rw [ih b (fun x hx => hc x (List.mem_cons_of_mem c hx))]
      rfl
    · simp only [List.isPrefixOf, Bool.and_eq_true, beq_iff_eq]
      intro hcontra
      exact hc c (List.mem_cons_self c a2) hcontra.1.symm

theorem pyReplaceP_hit (p0 : Char) (pt r : Str) (b : Str) :
    pyReplaceP p0 pt r ((p0 :: pt) ++ b) = r ++ pyReplaceP p0 pt r b := by
  rw [List.cons_append, pyReplaceP_cons]
  rw [if_pos ?_]
  · rw [List.drop_left]
  · simp only [List.isPrefixOf, beq_self_eq_true, Bool.true_and]
    have : pt <+: pt ++ b := List.prefix_append pt b
    exact List.isPrefixOf_iff_prefix.mpr this

theorem pyReplaceP_id_nohead (p0 : Char) (pt r : Str) (s : Str)
    (h : ∀ c ∈ s, c ≠ p0) : pyReplaceP p0 pt r s = s := by
  have := pyReplaceP_seg p0 pt r s [] h
  rw [List.append_nil] at this
  rw [this, pyReplaceP_nil, List.append_nil]

/-- Absence of two adjacent occurrences of a character. -/
def noTwo (x : Char) : Str → Bool
  | [] => true
  | [_] => true
  | c :: d :: r => !(c = x ∧ d = x) && noTwo x (d :: r)

theorem pyReplaceP_id_noTwo (x : Char) (r : Str) :
    ∀ s : Str, noTwo x s = true → pyReplaceP x [x] r s = s := by
  intro s
  induction s with
  | nil => intro _; rfl
  | cons c rest ih =>
    intro h
    rw [pyReplaceP_cons]
    cases rest with
    | nil =>
      rw [if_neg ?_]
      · rfl
      · simp [List.isPrefixOf]
    | cons d r2 =>
      simp only [noTwo, Bool.and_eq_true, Bool.not_eq_eq_eq_not, Bool.not_true,
        decide_eq_false_iff_not] at h
      rw [if_neg ?_]
      · rw [ih h.2]
      · simp only [List.isPrefixOf, Bool.and_eq_true, beq_iff_eq]
        intro hpre
        obtain ⟨hc, hd, -⟩ := hpre
        exact h.1 ⟨hc.symm, hd.symm⟩

/-- Replacing a pattern by itself changes nothing. -/
theorem pyReplaceP_self (p0 : Char) (pt : Str) :
    ∀ s : Str, pyReplaceP p0 pt (p0 :: pt) s = s := by
  have H : ∀ (n : Nat) (s : Str), s.length ≤ n → pyReplaceP p0 pt (p0 :: pt) s = s := by
    intro n
    induction n with
    | zero =>
      intro s hs
      have : s = [] := List.length_eq_zero.mp (Nat.le_zero.mp hs)
      rw [this]
      rfl
    | succ k ih =>
      intro s hs
      cases s with
      | nil => rfl
      | cons c rest =>
        rw [pyReplaceP_cons]
        split
        · next hp =>
          obtain ⟨t, ht⟩ := List.isPrefixOf_iff_prefix.mp hp
          rw [List.cons_append] at ht
          have hc1 : p0 = c := by
            cases ht
            rfl
          have hc2 : pt ++ t = rest := by
            cases ht
            rfl
          subst hc1
          rw [← hc2, List.drop_left]
          rw [ih t ?_]
          · rw [List.cons_append]
          · have : rest.length ≤ k := by
              simp only [List.length_cons] at hs
              omega
            rw [← hc2] at this
            simp only [List.length_append] at this
            omega
        · rw [ih rest ?_]
          simp only [List.length_cons] at hs
          omega
  exact fun s => H s.length s (Nat.le_refl _)

/-- Newline doubling of convert_from_yw in non-native mode. -/
def dblNl (s : Str) : Str := pyReplaceP '\n' [] ['\n', '\n'] s

/-- Newline halving of convert_to_yw in non-native mode. -/
def halveNl (s : Str) : Str := pyReplaceP '\n' ['\n'] ['\n'] s

theorem halveNl_seg (a b : Str) (h : ∀ c ∈ a, c ≠ '\n') :
    halveNl (a ++ b) = a ++ halveNl b := pyReplaceP_seg '\n' ['\n'] ['\n'] a b h

theorem halveNl_nl2 (b : Str) : halveNl ('\n' :: '\n' :: b) = '\n' :: halveNl b :=
  pyReplaceP_hit '\n' ['\n'] ['\n'] b

theorem halveNl_nl1 (b : Str) (h : b.head? ≠ some '\n') :
    halveNl ('\n' :: b) = '\n' :: halveNl b := by
  show pyReplaceP '\n' ['\n'] ['\n'] ('\n' :: b) = _
  rw [pyReplaceP_cons]
  rw [if_neg ?_]
  · rfl
  · cases b with
    | nil => simp [List.isPrefixOf]
    | cons d r =>
      simp only [List.head?_cons, ne_eq, Option.some.injEq] at h
      simp only [List.isPrefixOf, beq_self_eq_true, Bool.true_and, Bool.and_eq_true,
        beq_iff_eq]
      intro hh
      exact h hh.1.symm

theorem dblNl_cons_ne (c : Char) (s : Str) (h : c ≠ '\n') :
    dblNl (c :: s) = c :: dblNl s := by
  show pyReplaceP '\n' [] ['\n','\n'] (c :: s) = _
  rw [pyReplaceP_cons]
  rw [if_neg ?_]
  · rfl
  · simp only [List.isPrefixOf]
    simp only [Bool.and_eq_true, beq_iff_eq]
    intro hh
    exact h hh.1.symm

theorem dblNl_cons_nl (s : Str) : dblNl ('\n' :: s) = '\n' :: '\n' :: dblNl s := by
  show pyReplaceP '\n' [] ['\n','\n'] ('\n' :: s) = _
  rw [pyReplaceP_cons]
  rw [if_pos ?_]
  · rfl
  · simp [List.isPrefixOf]

/-- Doubling then halving restores the text and hands the scan cleanly to
whatever follows. -/
theorem halveNl_dblNl (s t : Str) : halveNl (dblNl s ++ t) = s ++ halveNl t := by
  induction s with
  | nil => rfl
  | cons c rest ih =>
    by_cases hc : c = '\n'
    · subst hc
      rw [dblNl_cons_nl, List.cons_append, List.cons_append, halveNl_nl2, ih]
      rfl
    · rw [dblNl_cons_ne c rest hc, List.cons_append]
      have hseg := halveNl_seg [c] (dblNl rest ++ t) ?_
      · simp only [List.cons_append, List.nil_append] at hseg
        rw [hseg, ih]
        rfl
      · intro x hx
        rw [List.mem_singleton] at hx
        exact hx ▸ hc

/-- Prepend a string to the first part of a split result. -/
def strConsHead (p : Str) : List Str → List Str
  | [] => [p]
  | h :: t => (p ++ h) :: t

theorem splitNl_ne_nil : ∀ s : Str, splitNl s ≠ [] := by
  intro s
  cases s with
  | nil => simp [splitNl]
  | cons c rest =>
    simp only [splitNl]
    split
    · simp
    · exact consHead_ne_nil c (splitNl rest)

theorem consHead_append (c : Char) (L M : List Str) (h : L ≠ []) :
    consHead c (L ++ M) = consHead c L ++ M := by
  cases L with
  | nil => exact absurd rfl h
  | cons x xs => rfl

theorem consHead_strConsHead (c : Char) (p : Str) (L : List Str) :
    consHead c (strConsHead p L) = strConsHead (c :: p) L := by
  cases L <;> rfl

theorem strConsHead_nil (L : List Str) (h : L ≠ []) : strConsHead [] L = L := by
  cases L with
  | nil => exact absurd rfl h
  | cons x xs => rfl

/-- Splitting at a newline boundary splits the parts. -/
theorem splitNl_append_nl : ∀ (u b : Str), splitNl (u ++ '\n' :: b) = splitNl u ++ splitNl b := by
  intro u
  induction u with
  | nil =>
    intro b
    simp only [List.nil_append, splitNl, if_pos rfl]
    rfl
  | cons c u2 ih =>
    intro b
    rw [List.cons_append]
    simp only [splitNl]
    split
    · rw [ih b]
      rfl
    · rw [ih b, consHead_append c (splitNl u2) (splitNl b) (splitNl_ne_nil u2)]

/-- A newline-free prefix glues onto the first line. -/
theorem splitNl_front_nonl : ∀ (m s : Str), (∀ c ∈ m, c ≠ '\n') →
    splitNl (m ++ s) = strConsHead m (splitNl s) := by
  intro m
  induction m with
  | nil =>
    intro s _
    rw [List.nil_append, strConsHead_nil (splitNl s) (splitNl_ne_nil s)]
  | cons c m2 ih =>
    intro s hm
    rw [List.cons_append]
    simp only [splitNl]
    rw [if_neg (hm c (List.mem_cons_self c m2))]
    rw [ih s (fun x hx => hm x (List.mem_cons_of_mem c hx))]
    exact consHead_strConsHead c m2 (splitNl s)

theorem splitNl_nonl (s : Str) (h : ∀ c ∈ s, c ≠ '\n') : splitNl s = [s] := by
  have := splitNl_front_nonl s [] h
  rw [List.append_nil] at this
  rw [this]
  simp [splitNl, strConsHead]

theorem joinNl_cons (x : Str) (xs : List Str) (h : xs ≠ []) :
    joinNl (x :: xs) = x ++ '\n' :: joinNl xs := by
  cases xs with
  | nil => exact absurd rfl h
  | cons y ys =>
    simp only [joinNl, List.intercalate, List.intersperse]
    rfl

theorem joinNl_single (x : Str) : joinNl [x] = x := by
  simp [joinNl, List.intercalate, List.intersperse]

theorem joinNl_consHead (c : Char) (L : List Str) (h : L ≠ []) :
    joinNl (consHead c L) = c :: joinNl L := by
  cases L with
  | nil => exact absurd rfl h
  | cons x xs =>
    simp only [consHead]
    cases xs with
    | nil => rw [joinNl_single, joinNl_single]
    | cons y ys =>
      rw [joinNl_cons (c :: x) (y :: ys) (by simp),
        joinNl_cons x (y :: ys) (by simp)]
      rfl

/-- Lines back to text. -/
theorem joinNl_splitNl : ∀ s : Str, joinNl (splitNl s) = s := by
  intro s
  induction s with
  | nil => rfl
  | cons c rest ih =>
    simp only [splitNl]
    split
    · next hc =>
      subst hc
      rw [joinNl_cons [] (splitNl rest) (splitNl_ne_nil rest), ih]
      rfl
    · rw [joinNl_consHead c (splitNl rest) (splitNl_ne_nil rest), ih]


theorem joinNl_append_empty : ∀ (L : List Str), L ≠ [] →
    joinNl (L ++ [[]]) = joinNl L ++ ['\n'] := by
  intro L
  induction L with
  | nil => intro h; exact absurd rfl h
  | cons x xs ih =>
    intro _
    cases xs with
    | nil =>
      rw [joinNl_single]
      rw [List.cons_append, List.nil_append, joinNl_cons x [[]] (by simp), joinNl_single]
    | cons y ys =>
      rw [List.cons_append, joinNl_cons x ((y :: ys) ++ [[]]) (by simp),
        joinNl_cons x (y :: ys) (by simp), ih (by simp)]
      simp

theorem dblNl_mem (s : Str) : ∀ c ∈ dblNl s, c ∈ s ∨ c = '\n' := by
  induction s with
  | nil => intro c hc; cases hc
  | cons x rest ih =>
    intro c hc
    by_cases hx : x = '\n'
    · subst hx
      rw [dblNl_cons_nl] at hc
      rcases List.mem_cons.mp hc with hc | hc
      · exact Or.inr hc
      rcases List.mem_cons.mp hc with hc | hc
      · exact Or.inr hc
      rcases ih c hc with h | h
      · exact Or.inl (List.mem_cons_of_mem _ h)
      · exact Or.inr h
    · rw [dblNl_cons_ne x rest hx] at hc
      rcases List.mem_cons.mp hc with hc | hc
      · exact Or.inl (hc ▸ List.mem_cons_self _ _)
      rcases ih c hc with h | h
      · exact Or.inl (List.mem_cons_of_mem _ h)
      · exact Or.inr h

theorem tagStrip_id (s : Str) (h : ∀ c ∈ s, c ≠ '[') : tagStrip s = s := by
  induction s with
  | nil => rfl
  | cons c rest ih =>
    rw [tagStrip_cons, if_neg (h c (List.mem_cons_self c rest))]
    rw [ih (fun x hx => h x (List.mem_cons_of_mem c hx))]

/-! Bold and italic scanner segment equations. -/

theorem boldSub_cons_ne (c : Char) (s : Str) (h : c ≠ '*') :
    boldSub (c :: s) = c :: boldSub s := by
  match s with
  | [] => rfl
  | [x] => rfl
  | x :: y :: r =>
    rw [boldSub_cons]
    rw [if_neg ?_]
    intro hcontra
    exact h hcontra.1

theorem boldSub_seg : ∀ (a b : Str), (∀ x ∈ a, x ≠ '*') →
    boldSub (a ++ b) = a ++ boldSub b := by
  intro a
  induction a with
  | nil => intro b _; rfl
  | cons c a2 ih =>
    intro b h
    rw [List.cons_append, boldSub_cons_ne c (a2 ++ b) (h c (List.mem_cons_self c a2)),
      ih b (fun x hx => h x (List.mem_cons_of_mem c hx))]
    rfl

theorem boldSub_star_ne (d : Char) (s : Str) (h : d ≠ '*') :
    boldSub ('*' :: d :: s) = '*' :: boldSub (d :: s) := by
  match s with
  | [] => rfl
  | e :: r =>
    rw [boldSub_cons]
    rw [if_neg ?_]
    intro hcontra
    exact h hcontra.2.1

theorem bcAux_hit : ∀ (t r : Str), (∀ c ∈ t, c ≠ '*' ∧ c ≠ '\n') →
    bcAux (t ++ '*' :: '*' :: r) = some (t, r) := by
  intro t
  induction t with
  | nil =>
    intro r _
    simp [bcAux]
  | cons x t2 ih =>
    intro r h
    have hx := h x (List.mem_cons_self x t2)
    rw [List.cons_append]
    simp only [bcAux]
    rw [if_neg hx.1, if_neg hx.2]
    rw [ih r (fun c hc => h c (List.mem_cons_of_mem x hc))]
    rfl

theorem boldSub_hit (T R : Str) (hne : T ≠ []) (hT : ∀ c ∈ T, c ≠ '*' ∧ c ≠ '\n') :
    boldSub ('*' :: '*' :: T ++ '*' :: '*' :: R)
      = ('[' :: 'b' :: ']' :: T) ++ ('[' :: '/' :: 'b' :: ']' :: boldSub R) := by
  cases T with
  | nil => exact absurd rfl hne
  | cons e T2 =>
    rw [List.cons_append, List.cons_append, List.cons_append, boldSub_cons]
    rw [if_pos ⟨rfl, rfl, (hT e (List.mem_cons_self e T2)).2⟩]
    rw [bcAux_hit T2 R (fun c hc => hT c (List.mem_cons_of_mem e hc))]

theorem italicSub_cons_ne (c : Char) (s : Str) (h : c ≠ '*') :
    italicSub (c :: s) = c :: italicSub s := by
  match s with
  | [] => rfl
  | a :: r2 =>
    rw [italicSub_cons]
    rw [if_neg ?_]
    intro hcontra
    exact h hcontra.1

theorem italicSub_seg : ∀ (a b : Str), (∀ x ∈ a, x ≠ '*') →
    italicSub (a ++ b) = a ++ italicSub b := by
  intro a
  induction a with
  | nil => intro b _; rfl
  | cons c a2 ih =>
    intro b h
    rw [List.cons_append, italicSub_cons_ne c (a2 ++ b) (h c (List.mem_cons_self c a2)),
      ih b (fun x hx => h x (List.mem_cons_of_mem c hx))]
    rfl

theorem italicSub_star_sp (s : Str) :
    italicSub ('*' :: ' ' :: s) = '*' :: italicSub (' ' :: s) := by
  rw [italicSub_cons]
  rw [if_neg ?_]
  intro hcontra
  exact hcontra.2 rfl

theorem italicSub_star_nl (s : Str) :
    italicSub ('*' :: '\n' :: '\n' :: s) = '*' :: italicSub ('\n' :: '\n' :: s) := by
  rw [italicSub_cons]
  rw [if_pos ⟨rfl, by decide⟩]
  have : icAux ('\n' :: s) = none := by
    simp [icAux]
  rw [this]

theorem icAux_cons (x b : Char) (r2 : Str) :
    icAux (x :: b :: r2) =
      if x = '\n' then none
      else if b ≠ ' ' ∧ r2.head? = some '*' then some ([x, b], r2.tail)
      else (icAux (b :: r2)).map fun p => (x :: p.1, p.2) := by
  simp only [icAux]

theorem icAux_hit : ∀ (t r : Str), 2 ≤ t.length →
    (∀ c ∈ t, c ≠ '*' ∧ c ≠ '\n') → t.getLast? ≠ some ' ' →
    icAux (t ++ '*' :: r) = some (t, r) := by
  intro t
  induction t with
  | nil =>
    intro r hlen _ _
    simp at hlen
  | cons x t2 ih =>
    intro r hlen h hlast
    cases t2 with
    | nil => simp at hlen
    | cons b t3 =>
      cases t3 with
      | nil =>
        have hx := h x (List.mem_cons_self x (b :: []))
        have hb : b ≠ ' ' := by
          intro hcq
          exact hlast (by rw [hcq]; rfl)
        rw [List.cons_append, List.cons_append, List.nil_append]
        rw [icAux_cons x b ('*' :: r)]
        rw [if_neg hx.2]
        rw [if_pos ⟨hb, rfl⟩]
        rfl
      | cons c t4 =>
        have hx := h x (List.mem_cons_self x (b :: c :: t4))
        have hc := h c (List.mem_cons_of_mem x (List.mem_cons_of_mem b (List.mem_cons_self c t4)))
        have hstep : icAux ((b :: c :: t4) ++ '*' :: r) = some (b :: c :: t4, r) := by
          refine ih r (by simp) (fun y hy => h y (List.mem_cons_of_mem x hy)) ?_
          rw [List.getLast?_cons_cons, List.getLast?_cons_cons] at hlast
          rw [List.getLast?_cons_cons]
          exact hlast
        simp only [List.cons_append] at hstep ⊢
        rw [icAux_cons x b (c :: (t4 ++ '*' :: r))]
        rw [if_neg hx.2]
        rw [if_neg ?_]
        · rw [hstep]
          rfl
        · intro hcontra
          have : (c :: (t4 ++ '*' :: r)).head? = some '*' := hcontra.2
          simp only [List.head?_cons, Option.some.injEq] at this
          exact hc.1 this

theorem italicSub_hit (a : Char) (A2 R : Str) (hlen : 2 ≤ A2.length)
    (ha : a ≠ ' ' ∧ a ≠ '*') (hA : ∀ c ∈ A2, c ≠ '*' ∧ c ≠ '\n')
    (hlast : A2.getLast? ≠ some ' ') :
    italicSub ('*' :: (a :: A2) ++ '*' :: R)
      = ('[' :: 'i' :: ']' :: a :: A2) ++ ('[' :: '/' :: 'i' :: ']' :: italicSub R) := by
  rw [List.cons_append, List.cons_append, italicSub_cons]
  rw [if_pos ⟨rfl, ha.1⟩]
  rw [icAux_hit A2 R hlen hA hlast]

/-! Decimal ids are injective, and insertion with a fresh key appends. -/

theorem char_digit_toNat (n : Nat) : (Char.ofNat (48 + n % 10)).toNat = 48 + n % 10 := by
  have h : (48 + n % 10).isValidChar := by
    left
    have := Nat.mod_lt n (show 0 < 10 by omega)
    omega
  rw [Char.ofNat, dif_pos h]
  simp only [Char.toNat, Char.ofNatAux, UInt32.toNat, BitVec.toNat_ofNatLt]

/-- Decimal valuation of a digit string. -/
def decVal (s : Str) : Nat := s.foldl (fun a c => a * 10 + (c.toNat - 48)) 0

theorem decVal_append_digit (xs : Str) (c : Char) :
    decVal (xs ++ [c]) = 10 * decVal xs + (c.toNat - 48) := by
  simp only [decVal, List.foldl_append, List.foldl_cons, List.foldl_nil]
  omega

theorem natIdAux_zero : ∀ f, natIdAux f 0 = [] := by
  intro f
  cases f with
  | zero => rfl
  | succ k => simp [natIdAux]

theorem decVal_natIdAux : ∀ (fuel n : Nat), 0 < n → n ≤ fuel →
    decVal (natIdAux fuel n) = n := by
  intro fuel
  induction fuel with
  | zero =>
    intro n h1 h2
    omega
  | succ k ih =>
    intro n h1 h2
    rw [natIdAux, if_neg (by omega)]
    rw [decVal_append_digit, char_digit_toNat]
    by_cases hq : n / 10 = 0
    · rw [hq, natIdAux_zero]
      have : decVal [] = 0 := rfl
      rw [this]
      have hlt : n < 10 := by
        rcases Nat.lt_or_ge n 10 with h | h
        · exact h
        · exfalso
          have := Nat.div_le_div_right (c := 10) h
          simp at this
          omega
      omega
    · have hdiv : n / 10 < n := Nat.div_lt_self h1 (by omega)
      rw [ih (n / 10) (by omega) (by omega)]
      omega

theorem decVal_natId (n : Nat) : decVal (natId n) = n := by
  rw [natId]
  by_cases h : n = 0
  · rw [if_pos h, h]
    rfl
  · rw [if_neg h]
    exact decVal_natIdAux n n (by omega) (Nat.le_refl n)

theorem natId_inj {m n : Nat} (h : natId m = natId n) : m = n := by
  have := congrArg decVal h
  rwa [decVal_natId, decVal_natId] at this

theorem insertA_fresh {α : Type} (m : List (Str × α)) (k : Str) (v : α)
    (h : lookupA m k = none) : insertA m k v = m ++ [(k, v)] := by
  induction m with
  | nil => rfl
  | cons p rest ih =>
    obtain ⟨k0, v0⟩ := p
    simp only [insertA]
    simp only [lookupA] at h
    split at h
    · cases h
    · next hne =>
      rw [if_neg hne, ih h]
      rfl

theorem insertA_last_replace {α : Type} (pre : List (Str × α)) (k : Str) (w v : α)
    (h : lookupA pre k = none) : insertA (pre ++ [(k, w)]) k v = pre ++ [(k, v)] := by
  induction pre with
  | nil => simp [insertA]
  | cons p rest ih =>
    obtain ⟨k0, v0⟩ := p
    simp only [lookupA] at h
    split at h
    · cases h
    · next hne =>
      simp only [List.cons_append, insertA]
      rw [if_neg hne]
      show (k0, v0) :: insertA (rest ++ [(k, w)]) k v = _
      rw [ih h]

/-! The Markdown export: FileExport.get_text through the MdFile templates
in default mode (markdownMode and noSceneTitles both off).  Hazards of
the scene mapping construction are modeled in source order: dangling
location and item references raise KeyError, a None title in those lists
makes the join raise TypeError, an hour without a minute raises
AttributeError, and the status lookup raises TypeError on None or string
status and IndexError on an index beyond the status list. -/

def strOpt : Option Str → Str
  | none => ("None").data
  | some s => s

/-- Chapter.get_title: replace the chapter title prefix by itself. -/
def getTitleC (ch : Chapter) : Option Str :=
  if truthyS ch.title then
    ch.title.map (fun t => pyReplace (("Chapter ").data) (("Chapter ").data) t)
  else ch.title

/-- The Title entry of the MdFile chapter mapping. -/
def chapterTitleStr (ch : Chapter) : Str :=
  if truthyB ch.suppressChapterTitle then [] else strOpt (getTitleC ch)

def xrefTitles (reg : List (Str × WorldElement)) : List Str → Except PyErr (List (Option Str))
  | [] => pure []
  | id :: rest =>
    match lookupA reg id with
    | none => throw PyErr.keyError
    | some w => do
      let ts ← xrefTitles reg rest
      pure (w.title :: ts)

def joinChk (ts : List (Option Str)) : Except PyErr Unit :=
  if ts.any (fun t => t.isNone) then throw PyErr.typeError else pure ()

def sceneHazards (n : Novel) (sc : Scene) : Except PyErr Unit := do
  match sc.locations with
  | none => pure ()
  | some ls => do
    let ts ← xrefTitles n.locations ls
    joinChk ts
  match sc.items with
  | none => pure ()
  | some ls => do
    let ts ← xrefTitles n.items ls
    joinChk ts
  match sc.time, sc.hour, sc.minute with
  | none, some _, none => throw PyErr.attributeError
  | _, _, _ => pure ()
  match sc.status with
  | none => throw PyErr.typeError
  | some (Sum.inl _) => throw PyErr.typeError
  | some (Sum.inr k) => if k < 6 then pure () else throw PyErr.indexError

/-- One filled scene template. -/
def sceneBlockE (n : Novel) (sc : Scene) : Except PyErr Str := do
  sceneHazards n sc
  pure ((("<!---").data) ++ strOpt sc.title ++ (("--->").data)
    ++ convFromYw false sc.sceneContent ++ ['\n', '\n'])

/-- FileExport.get_scenes under the MdFile templates: the skip cascade,
the divider before every exported scene that neither opens the chapter
nor appends to the previous one, and the filled scene template. -/
def mdScenesGo (n : Novel) (ch : Chapter) (dne : Bool) :
    List Str → Bool → Except PyErr (List Str)
  | [], _ => pure []
  | scId :: rest, first =>
    match lookupA n.scenes scId with
    | none => throw PyErr.keyError
    | some sc =>
      if truthyB sc.isTodoScene then mdScenesGo n ch dne rest first
      else if truthyB sc.isNotesScene then mdScenesGo n ch dne rest first
      else if truthyB sc.isUnused ∨ truthyB ch.isUnused then mdScenesGo n ch dne rest first
      else if ch.oldType = some (Sum.inr 1) then mdScenesGo n ch dne rest first
      else if truthyB sc.doNotExport ∨ dne = true then mdScenesGo n ch dne rest first
      else do
        let block ← sceneBlockE n sc
        let more ← mdScenesGo n ch dne rest false
        pure ((if first ∨ truthyB sc.appendToPrev then [] else [(("\n\n* * *\n\n").data)])
          ++ block :: more)

/-- One chapter of FileExport.get_chapters under the MdFile templates:
the all-scenes-unexported test, the chapter classification cascade with
the part and chapter headings as the only non-empty templates, then the
scenes. -/
def mdChapterLines (n : Novel) (chId : Str) : Except PyErr (List Str) := do
  match lookupA n.chapters chId with
  | none => throw PyErr.keyError
  | some ch =>
    match ch.srtScenes with
    | none => throw PyErr.typeError
    | some l => do
      let flags ← l.mapM (fun scId =>
        match lookupA n.scenes scId with
        | none => throw PyErr.keyError
        | some sc => pure (truthyB sc.doNotExport))
      let dne := decide (0 < l.length) && flags.all (fun b => b)
      let heading : List Str :=
        if ch.chType = some 2 then []
        else if ch.chType = some 1 then []
        else if truthyB ch.isUnused then []
        else if ch.oldType = some (Sum.inr 1) then []
        else if dne = true then []
        else if ch.chLevel = some 1 then
          [('\n' :: (("# ").data)) ++ chapterTitleStr ch ++ ['\n', '\n']]
        else
          [('\n' :: (("## ").data)) ++ chapterTitleStr ch ++ ['\n', '\n']]
      let sls ← mdScenesGo n ch dne l true
      pure (heading ++ sls)

def charSectionE (n : Novel) : Except PyErr (List Str) :=
  n.srtCharacters.mapM (fun crId =>
    match lookupA n.characters crId with
    | none => throw PyErr.keyError
    | some _ => pure ([] : Str))

def locSectionE (n : Novel) : Except PyErr (List Str) :=
  n.srtLocations.mapM (fun lcId =>
    match lookupA n.locations lcId with
    | none => throw PyErr.keyError
    | some _ => pure ([] : Str))

def itemSectionE (n : Novel) : Except PyErr (List Str) :=
  n.srtItems.mapM (fun itId =>
    match lookupA n.items itId with
    | none => throw PyErr.keyError
    | some _ => pure ([] : Str))

/-- The filled file header template. -/
def mdFileHeaderStr (n : Novel) : Str :=
  (("**").data) ++ strOpt n.title ++ (("**  \n  \n*").data) ++ strOpt n.author
    ++ (("*  \n  \n").data)

def catStrs (ls : List Str) : Str := ls.foldr (fun a b => a ++ b) []

/-- FileExport.get_text under the MdFile templates in default mode: the
file header, the chapters with their scenes, the character, location and
item sections (every template empty, so each entry contributes an empty
string after its mapping is built), and the empty footer, joined. -/
def mdGetText (n : Novel) : Except PyErr Str := do
  let chs ← n.srtChapters.mapM (fun chId => mdChapterLines n chId)
  let _ ← charSectionE n
  let _ ← locSectionE n
  let _ ← itemSectionE n
  pure (mdFileHeaderStr n ++ catStrs (chs.foldr (fun a b => a ++ b) []))

/-! Well-formedness for the round trip: every chapter and scene is
exported with plain title and content characters, and no field that only
the yw7 side supports is set. -/

def titleChar (c : Char) : Bool :=
  decide (c ≠ '*' ∧ c ≠ '#' ∧ c ≠ '<' ∧ c ≠ '-' ∧ c ≠ '/' ∧ c ≠ '\n')

def contChar (c : Char) : Bool :=
  decide (c ≠ '*' ∧ c ≠ '#' ∧ c ≠ '<' ∧ c ≠ '-' ∧ c ≠ '/' ∧ c ≠ '[')

def sceneWF (sc : Scene) : Prop :=
  (∃ S, sc.title = some S ∧ S.all titleChar = true) ∧
  (∃ C, sc.sceneContent = some C ∧ C.all contChar = true ∧ noTwo ' ' C = true) ∧
  (∃ k, sc.status = some (Sum.inr k) ∧ k < 6) ∧
  truthyB sc.isTodoScene = false ∧ truthyB sc.isNotesScene = false ∧
  truthyB sc.isUnused = false ∧ truthyB sc.doNotExport = false ∧
  truthyB sc.appendToPrev = false ∧
  sc.locations = none ∧ sc.items = none ∧ sc.time = none ∧ sc.hour = none

def chapWF (P : Novel) (ch : Chapter) : Prop :=
  (∃ T, ch.title = some T ∧ T.all titleChar = true) ∧
  (ch.chType = none ∨ ch.chType = some 0) ∧
  truthyB ch.isUnused = false ∧
  ch.oldType ≠ some (Sum.inr 1) ∧
  truthyB ch.suppressChapterTitle = false ∧
  (∃ l, ch.srtScenes = some l ∧ l ≠ [] ∧
    ∀ sid ∈ l, ∃ sc, lookupA P.scenes sid = some sc ∧ sceneWF sc)

def C1WF (P : Novel) : Prop :=
  (∃ T, P.title = some T ∧ T ≠ [] ∧ T.all titleChar = true) ∧
  (∃ A, P.author = some A ∧ A.all titleChar = true ∧ 3 ≤ A.length ∧
    A.head? ≠ some ' ' ∧ A.getLast? ≠ some ' ') ∧
  P.srtChapters ≠ [] ∧
  (∀ cid ∈ P.srtChapters, ∃ ch, lookupA P.chapters cid = some ch ∧ chapWF P ch) ∧
  (∀ id ∈ P.srtCharacters, (lookupA P.characters id).isSome = true) ∧
  (∀ id ∈ P.srtLocations, (lookupA P.locations id).isSome = true) ∧
  (∀ id ∈ P.srtItems, (lookupA P.items id).isSome = true)

/-! The chapter, scene, text and line structure of a well-formed export. -/

def c1ChapOf (P : Novel) (cid : Str) : Chapter := (lookupA P.chapters cid).getD {}

def c1Chapters (P : Novel) : List Chapter := P.srtChapters.map (c1ChapOf P)

def c1ScenesOf (P : Novel) (ch : Chapter) : List Scene :=
  (ch.srtScenes.getD []).map (fun sid => (lookupA P.scenes sid).getD {})

def c1Scenes (P : Novel) : List Scene :=
  (c1Chapters P).foldr (fun ch acc => c1ScenesOf P ch ++ acc) []

def chTitleOf (ch : Chapter) : Str := ch.title.getD []

def scTitleOf (sc : Scene) : Str := sc.title.getD []

def contentOf (sc : Scene) : Str := sc.sceneContent.getD []

def hashesOf (ch : Chapter) : Str :=
  if ch.chLevel = some 1 then ("# ").data else ("## ").data

def blockRaw (sc : Scene) : Str :=
  (("<!---").data) ++ scTitleOf sc ++ (("--->").data) ++ dblNl (contentOf sc) ++ ['\n', '\n']

def blocksRaw : List Scene → Str
  | [] => []
  | [sc] => blockRaw sc
  | sc :: rest => blockRaw sc ++ (("\n\n* * *\n\n").data) ++ blocksRaw rest

def chapterRaw (P : Novel) (ch : Chapter) : Str :=
  '\n' :: (hashesOf ch ++ chTitleOf ch ++ ['\n', '\n'] ++ blocksRaw (c1ScenesOf P ch))

def bodyRaw (P : Novel) : Str :=
  (c1Chapters P).foldr (fun ch acc => chapterRaw P ch ++ acc) []

def headerRaw (P : Novel) : Str :=
  (("**").data) ++ P.title.getD [] ++ (("**  \n  \n*").data) ++ P.author.getD []
    ++ (("*  \n  \n").data)

def exportRaw (P : Novel) : Str := headerRaw P ++ bodyRaw P

def sceneLinesL (sc : Scene) : List Str :=
  strConsHead ((("/*").data) ++ scTitleOf sc ++ (("*/").data)) (splitNl (contentOf sc))

def scenesLinesL : List Scene → List Str
  | [] => []
  | [sc] => sceneLinesL sc ++ [[]]
  | sc :: rest => sceneLinesL sc ++ [[]] ++ (("* * *").data) :: scenesLinesL rest

def chapterLinesL (P : Novel) (ch : Chapter) : List Str :=
  (hashesOf ch ++ chTitleOf ch) :: scenesLinesL (c1ScenesOf P ch)

def c1Lines (P : Novel) : List Str :=
  [(("[b]").data) ++ P.title.getD [] ++ (("[/b]  ").data), ("  ").data,
   (("[i]").data) ++ P.author.getD [] ++ (("[/i]  ").data), ("  ").data]
  ++ (c1Chapters P).foldr (fun ch acc => chapterLinesL P ch ++ acc) []

/-- The scene record created when the scanner opens a scene. -/
def parsedScene (sc : Scene) : Scene :=
  { status := some (Sum.inl (("1").data)), title := some (scTitleOf sc) }

/-- The same record after a later heading or divider flushes it. -/
def flushedScene (sc : Scene) : Scene :=
  let s1 := setSceneContent (parsedScene sc) (contentOf sc ++ ['\n'])
  { s1 with status := some (Sum.inr (if s1.wordCount < 10 then 1 else 2)) }

/-- The chapter record the scanner builds for a heading, its scene list
holding the ids the following scenes receive. -/
def parsedChapter (ch : Chapter) (k m : Nat) : Chapter :=
  { title := some (chTitleOf ch)
    oldType := some (Sum.inl (("0").data))
    chLevel := some (if ch.chLevel = some 1 then 1 else 0)
    srtScenes := some ((List.range m).map (fun j => natId (k + j + 1))) }

def c1ChapList (P : Novel) : List Chapter → Nat → Nat → List (Str × Chapter)
  | [], _, _ => []
  | ch :: rest, i, k =>
    (natId (i + 1), parsedChapter ch k (c1ScenesOf P ch).length)
      :: c1ChapList P rest (i + 1) (k + (c1ScenesOf P ch).length)

def c1SceneList : List Scene → Nat → List (Str × Scene)
  | [], _ => []
  | [sc], k => [(natId (k + 1), parsedScene sc)]
  | sc :: rest, k => (natId (k + 1), flushedScene sc) :: c1SceneList rest (k + 1)

/-- The scanner state when the line loop ends: the last scene is open
and unflushed, its buffered lines being its content lines and the final
empty line. -/
def c1Final (P : Novel) : MdState :=
  { chCount := (c1Chapters P).length
    scCount := (c1Scenes P).length
    chapters := c1ChapList P (c1Chapters P) 0 0
    srtChapters := (List.range (c1Chapters P).length).map (fun i => natId (i + 1))
    scenes := c1SceneList (c1Scenes P) 0
    chId := some (natId (c1Chapters P).length)
    scId := some (natId (c1Scenes P).length)
    buf := splitNl (contentOf (((c1Scenes P).getLast?).getD {})) ++ [[]] }

/-! Theorem A: on a well-formed project the export succeeds and produces
exactly the structured text. -/

theorem catStrs_cons (a : Str) (L : List Str) : catStrs (a :: L) = a ++ catStrs L := rfl

theorem pyReplace_id (p0 : Char) (pt r s : Str) (h : ∀ c ∈ s, c ≠ p0) :
    pyReplace (p0 :: pt) r s = s := pyReplaceP_id_nohead p0 pt r s h

theorem noTwo_cons_ne (x c : Char) (s : Str) (h : c ≠ x) :
    noTwo x (c :: s) = noTwo x s := by
  cases s with
  | nil => rfl
  | cons d r =>
    simp only [noTwo, Bool.and_eq_true]
    simp [h]

theorem noTwo_of_cons {x c : Char} {s : Str} (h : noTwo x (c :: s) = true) :
    noTwo x s = true := by
  cases s with
  | nil => rfl
  | cons d r =>
    simp only [noTwo, Bool.and_eq_true] at h
    exact h.2

theorem dblNl_head (d : Char) (r : Str) :
    (dblNl (d :: r)).head? = some (if d = '\n' then '\n' else d) := by
  by_cases hd : d = '\n'
  · subst hd
    rw [dblNl_cons_nl]
    simp
  · rw [dblNl_cons_ne d r hd]
    simp [hd]

theorem noTwo_space_dblNl : ∀ C : Str, noTwo ' ' C = true → noTwo ' ' (dblNl C) = true := by
  intro C
  induction C with
  | nil => intro _; rfl
  | cons c rest ih =>
    intro h
    have hrest := noTwo_of_cons h
    by_cases hc : c = '\n'
    · subst hc
      rw [dblNl_cons_nl]
      rw [noTwo_cons_ne ' ' '\n' _ (by decide), noTwo_cons_ne ' ' '\n' _ (by decide)]
      exact ih hrest
    · rw [dblNl_cons_ne c rest hc]
      by_cases hsp : c = ' '
      · subst hsp
        rcases hdr : dblNl rest with _ | ⟨d, r2⟩
        · rfl
        · have hd : d ≠ ' ' := by
            cases rest with
            | nil =>
              have hnil : ([] : Str) = d :: r2 := hdr
              cases hnil
            | cons e r3 =>
              have hhd := dblNl_head e r3
              rw [hdr] at hhd
              simp only [List.head?_cons, Option.some.injEq] at hhd
              have he : e ≠ ' ' := by
                simp only [noTwo, Bool.and_eq_true, Bool.not_eq_eq_eq_not,
                  Bool.not_true, decide_eq_false_iff_not] at h
                intro hee
                exact h.1 ⟨by decide, hee⟩
              intro hds
              rw [hds] at hhd
              split at hhd
              · exact absurd hhd (by decide)
              · exact he hhd.symm
          simp only [noTwo, Bool.and_eq_true]
          refine ⟨by simp [hd], ?_⟩
          rw [← hdr]
          exact ih hrest
      · rw [noTwo_cons_ne ' ' c _ hsp]
        exact ih hrest

/-- On well-formed content, convert_from_yw only doubles the newlines. -/
theorem convFromYwText_wf (C : Str) (h1 : C.all contChar = true) (h2 : noTwo ' ' C = true) :
    convFromYwText false C = dblNl C := by
  have hmem : ∀ c ∈ C, contChar c = true := by
    intro c hcm
    exact List.all_eq_true.mp h1 c hcm
  have hd : ∀ c ∈ dblNl C, c ∈ C ∨ c = '\n' := dblNl_mem C
  have hno : ∀ (x : Char), x ≠ '\n' → (∀ c ∈ C, c ≠ x) → ∀ c ∈ dblNl C, c ≠ x := by
    intro x hx hC c hcm
    rcases hd c hcm with hcc | hcc
    · exact hC c hcc
    · rw [hcc]
      exact fun he => hx he.symm
  have hbr : ∀ c ∈ C, c ≠ '[' := fun c hcm => by
    have := hmem c hcm
    simp only [contChar, decide_eq_true_eq] at this
    exact this.2.2.2.2.2
  have hsl : ∀ c ∈ C, c ≠ '/' := fun c hcm => by
    have := hmem c hcm
    simp only [contChar, decide_eq_true_eq] at this
    exact this.2.2.2.2.1
  have hst : ∀ c ∈ C, c ≠ '*' := fun c hcm => by
    have := hmem c hcm
    simp only [contChar, decide_eq_true_eq] at this
    exact this.1
  show tagStrip _ = _
  rw [show (if false = true then C else pyReplace (['\n']) (['\n', '\n']) C) = dblNl C from by
    rw [if_neg (by decide)]
    rfl]
  rw [pyReplace_id '[' _ _ _ (hno '[' (by decide) hbr)]
  rw [pyReplace_id '[' _ _ _ (hno '[' (by decide) hbr)]
  rw [pyReplace_id '[' _ _ _ (hno '[' (by decide) hbr)]
  rw [pyReplace_id '[' _ _ _ (hno '[' (by decide) hbr)]
  rw [pyReplace_id '/' _ _ _ (hno '/' (by decide) hsl)]
  rw [pyReplace_id '*' _ _ _ (hno '*' (by decide) hst)]
  rw [show pyReplace (("  ").data) ((" ").data) (dblNl C) = dblNl C from
    pyReplaceP_id_noTwo ' ' _ _ (noTwo_space_dblNl C h2)]
  exact tagStrip_id _ (hno '[' (by decide) hbr)

theorem sceneHazards_wf (n : Novel) (sc : Scene) (h : sceneWF sc) :
    sceneHazards n sc = .ok () := by
  obtain ⟨-, -, ⟨k, hst, hk⟩, -, -, -, -, -, hloc, hit, htime, hhour⟩ := h
  unfold sceneHazards
  rw [hloc, hit, htime, hhour, hst]
  simp only [bind, Except.bind, pure, Except.pure]
  rw [if_pos hk]

theorem sceneBlockE_wf (n : Novel) (sc : Scene) (h : sceneWF sc) :
    sceneBlockE n sc = .ok (blockRaw sc) := by
  have hh := sceneHazards_wf n sc h
  obtain ⟨⟨S, hS, -⟩, ⟨C, hC, hC1, hC2⟩, -⟩ := h
  unfold sceneBlockE
  rw [hh]
  simp only [bind, Except.bind, pure, Except.pure]
  rw [hS, hC]
  show Except.ok _ = _
  rw [show convFromYw false (some C) = dblNl C from by
    show convFromYwText false C = dblNl C
    exact convFromYwText_wf C hC1 hC2]
  rw [blockRaw]
  rw [show scTitleOf sc = S from by rw [scTitleOf, hS]; rfl]
  rw [show contentOf sc = C from by rw [contentOf, hC]; rfl]
  rfl

def blocksRawT : List Scene → Str
  | [] => []
  | sc :: rest => (("\n\n* * *\n\n").data) ++ blockRaw sc ++ blocksRawT rest

theorem blocksRaw_cons : ∀ (rest : List Scene) (sc : Scene),
    blocksRaw (sc :: rest) = blockRaw sc ++ blocksRawT rest := by
  intro rest
  induction rest with
  | nil =>
    intro sc
    simp [blocksRaw, blocksRawT]
  | cons r rs ih =>
    intro sc
    rw [show blocksRaw (sc :: r :: rs)
        = blockRaw sc ++ (("\n\n* * *\n\n").data) ++ blocksRaw (r :: rs) from rfl]
    rw [ih r]
    simp [blocksRawT, List.append_assoc]

def blocksRawIf (first : Bool) (scs : List Scene) : Str :=
  if first then blocksRaw scs else blocksRawT scs

theorem mdScenesGo_wf (P : Novel) (ch : Chapter)
    (hchU : truthyB ch.isUnused = false) (hold : ch.oldType ≠ some (Sum.inr 1)) :
    ∀ (l : List Str) (first : Bool),
      (∀ sid ∈ l, ∃ sc, lookupA P.scenes sid = some sc ∧ sceneWF sc) →
      ∃ LS, mdScenesGo P ch false l first = .ok LS ∧
        catStrs LS = blocksRawIf first (l.map (fun sid => (lookupA P.scenes sid).getD {})) := by
  intro l
  induction l with
  | nil =>
    intro first _
    refine ⟨[], rfl, ?_⟩
    cases first <;> rfl
  | cons sid rest ih =>
    intro first hl
    obtain ⟨sc, hlk, hwf⟩ := hl sid (List.mem_cons_self sid rest)
    obtain ⟨-, -, -, h4, h5, h6, h7, h8, -⟩ := id hwf
    obtain ⟨LS2, hrec, hcat⟩ := ih false (fun x hx => hl x (List.mem_cons_of_mem sid hx))
    unfold mdScenesGo
    rw [hlk]
    dsimp only
    rw [h4, h5, h6, h7, h8, hchU]
    rw [if_neg (by simp), if_neg (by simp), if_neg (by simp), if_neg hold,
      if_neg (by simp)]
    rw [sceneBlockE_wf P sc hwf]
    simp only [bind, Except.bind, hrec, pure, Except.pure]
    refine ⟨_, rfl, ?_⟩
    simp only [List.map_cons]
    rw [show (lookupA P.scenes sid).getD {} = sc from by rw [hlk]; rfl]
    cases first with
    | true =>
      rw [if_pos (Or.inl rfl)]
      rw [List.nil_append, catStrs_cons, hcat]
      show _ = blocksRaw _
      rw [blocksRaw_cons]
      rw [show blocksRawIf false (rest.map (fun sid => (lookupA P.scenes sid).getD {}))
          = blocksRawT (rest.map (fun sid => (lookupA P.scenes sid).getD {})) from rfl]
    | false =>
      rw [if_neg (by simp)]
      rw [List.cons_append, List.nil_append, catStrs_cons, catStrs_cons, hcat]
      show _ = blocksRawT _
      rw [blocksRawT]
      rw [show blocksRawIf false (rest.map (fun sid => (lookupA P.scenes sid).getD {}))
          = blocksRawT (rest.map (fun sid => (lookupA P.scenes sid).getD {})) from rfl]
      simp [List.append_assoc]

theorem chapterTitleStr_wf (ch : Chapter) (T : Str) (hT : ch.title = some T)
    (hsup : truthyB ch.suppressChapterTitle = false) :
    chapterTitleStr ch = T := by
  unfold chapterTitleStr
  rw [hsup]
  rw [if_neg (by simp)]
  unfold getTitleC
  rw [hT]
  by_cases ht : truthyS (some T) = true
  · rw [if_pos ht]
    simp only [Option.map_some']
    show pyReplace (("Chapter ").data) (("Chapter ").data) T = T
    exact pyReplaceP_self 'C' (("hapter ").data) T
  · rw [if_neg ht]
    rfl

theorem mapM_const_ok {α β : Type} (f : α → Except PyErr β) (g : α → β) :
    ∀ l : List α, (∀ x ∈ l, f x = .ok (g x)) → l.mapM f = .ok (l.map g) := by
  intro l
  induction l with
  | nil => intro _; rfl
  | cons a l2 ih =>
    intro h
    rw [List.mapM_cons, h a (List.mem_cons_self a l2),
      ih (fun x hx => h x (List.mem_cons_of_mem a hx))]
    simp [bind, Except.bind, pure, Except.pure]

theorem catStrs_append : ∀ (A B : List Str), catStrs (A ++ B) = catStrs A ++ catStrs B := by
  intro A
  induction A with
  | nil => intro B; rfl
  | cons a A2 ih =>
    intro B
    rw [List.cons_append, catStrs_cons, catStrs_cons, ih]
    rw [List.append_assoc]

theorem mdChapterLines_wf (P : Novel) (cid : Str) (ch : Chapter)
    (hch : lookupA P.chapters cid = some ch) (hwf : chapWF P ch) :
    ∃ L, mdChapterLines P cid = .ok L ∧ catStrs L = chapterRaw P ch := by
  obtain ⟨⟨T, hT, -⟩, hct, hun, hold, hsup, l, hsrt, hlne, hscs⟩ := hwf
  unfold mdChapterLines
  rw [hch]
  dsimp only
  rw [hsrt]
  dsimp only
  have hflags : l.mapM (fun scId =>
      match lookupA P.scenes scId with
      | none => (throw PyErr.keyError : Except PyErr Bool)
      | some sc => pure (truthyB sc.doNotExport)) = .ok (l.map (fun _ => false)) := by
    refine mapM_const_ok _ _ l ?_
    intro x hx
    obtain ⟨sc, hlk, hswf⟩ := hscs x hx
    obtain ⟨-, -, -, -, -, -, hdne, -⟩ := hswf
    rw [hlk]
    dsimp only
    rw [hdne]
    rfl
  rw [hflags]
  simp only [bind, Except.bind]
  have hdneF : (decide (0 < l.length) && (l.map (fun _ => false)).all (fun b => b)) = false := by
    cases l with
    | nil => exact absurd rfl hlne
    | cons a l2 => simp
  rw [hdneF]
  obtain ⟨LS, hgo, hcat⟩ :=
    mdScenesGo_wf P ch hun hold l true hscs
  rw [hgo]
  simp only [bind, Except.bind, pure, Except.pure]
  have hhead : (if ch.chType = some 2 then ([] : List Str)
      else if ch.chType = some 1 then []
      else if truthyB ch.isUnused = true then []
      else if ch.oldType = some (Sum.inr 1) then []
      else if false = true then []
      else if ch.chLevel = some 1 then
        [('\n' :: (("# ").data)) ++ chapterTitleStr ch ++ ['\n', '\n']]
      else
        [('\n' :: (("## ").data)) ++ chapterTitleStr ch ++ ['\n', '\n']])
      = [('\n' :: hashesOf ch) ++ chapterTitleStr ch ++ ['\n', '\n']] := by
    rw [if_neg (by rcases hct with hct | hct <;> rw [hct] <;> simp),
      if_neg (by rcases hct with hct | hct <;> rw [hct] <;> simp),
      if_neg (by rw [hun]; simp), if_neg hold, if_neg (by simp)]
    unfold hashesOf
    by_cases hlev : ch.chLevel = some 1
    · rw [if_pos hlev, if_pos hlev]
    · rw [if_neg hlev, if_neg hlev]
  rw [hhead]
  refine ⟨_, rfl, ?_⟩
  rw [List.singleton_append, catStrs_cons, hcat]
  rw [chapterTitleStr_wf ch T hT hsup]
  unfold chapterRaw
  rw [show chTitleOf ch = T from by rw [chTitleOf, hT]; rfl]
  rw [show c1ScenesOf P ch = l.map (fun sid => (lookupA P.scenes sid).getD {}) from by
    rw [c1ScenesOf, hsrt]; rfl]
  rw [show blocksRawIf true (l.map (fun sid => (lookupA P.scenes sid).getD {}))
      = blocksRaw (l.map (fun sid => (lookupA P.scenes sid).getD {})) from rfl]
  simp [List.append_assoc, List.cons_append]

theorem chaptersM_wf (P : Novel) :
    ∀ cids : List Str, (∀ cid ∈ cids, ∃ ch, lookupA P.chapters cid = some ch ∧ chapWF P ch) →
      ∃ LSs, cids.mapM (fun chId => mdChapterLines P chId) = .ok LSs ∧
        catStrs (LSs.foldr (fun a b => a ++ b) [])
          = (cids.map (c1ChapOf P)).foldr (fun ch acc => chapterRaw P ch ++ acc) [] := by
  intro cids
  induction cids with
  | nil => intro _; exact ⟨[], rfl, rfl⟩
  | cons cid rest ih =>
    intro h
    obtain ⟨ch, hch, hwf⟩ := h cid (List.mem_cons_self cid rest)
    obtain ⟨L, hL, hcat⟩ := mdChapterLines_wf P cid ch hch hwf
    obtain ⟨LSs, hM, hcats⟩ := ih (fun x hx => h x (List.mem_cons_of_mem cid hx))
    refine ⟨L :: LSs, ?_, ?_⟩
    · rw [List.mapM_cons, hL, hM]
      simp [bind, Except.bind, pure, Except.pure]
    · rw [List.foldr_cons, catStrs_append, hcat, hcats]
      rw [List.map_cons, List.foldr_cons]
      rw [show c1ChapOf P cid = ch from by rw [c1ChapOf, hch]; rfl]

/-- Theorem A: a well-formed project exports successfully to exactly the
structured text. -/
theorem mdGetText_wf (P : Novel) (h : C1WF P) : mdGetText P = .ok (exportRaw P) := by
  obtain ⟨⟨T, hT, -, -⟩, ⟨A, hA, -, -, -, -⟩, -, hchs, hcrs, hlcs, hits⟩ := h
  obtain ⟨LSs, hM, hcats⟩ := chaptersM_wf P P.srtChapters hchs
  unfold mdGetText
  rw [hM]
  have hc : charSectionE P = .ok (P.srtCharacters.map (fun _ => ([] : Str))) := by
    refine mapM_const_ok _ _ _ ?_
    intro x hx
    dsimp only
    split
    · next hq =>
      exfalso
      have := hcrs x hx
      rw [hq] at this
      cases this
    · rfl
  have hl : locSectionE P = .ok (P.srtLocations.map (fun _ => ([] : Str))) := by
    refine mapM_const_ok _ _ _ ?_
    intro x hx
    dsimp only
    split
    · next hq =>
      exfalso
      have := hlcs x hx
      rw [hq] at this
      cases this
    · rfl
  have hi : itemSectionE P = .ok (P.srtItems.map (fun _ => ([] : Str))) := by
    refine mapM_const_ok _ _ _ ?_
    intro x hx
    dsimp only
    split
    · next hq =>
      exfalso
      have := hits x hx
      rw [hq] at this
      cases this
    · rfl
  rw [hc, hl, hi]
  simp only [bind, Except.bind, pure, Except.pure]
  congr 1
  rw [exportRaw, headerRaw, mdFileHeaderStr, hT, hA, bodyRaw, c1Chapters]
  rw [show strOpt (some T) = T from rfl, show strOpt (some A) = A from rfl]
  rw [hcats]
  rfl

/-! Theorem B: converting the exported text back to internal markup and
splitting yields exactly the expected line list.  The proof tracks the
text through the bold and italic substitutions (inert on the body), the
newline halving and the comment-marker rewriting, one structural unit at
a time. -/

def scOkB (sc : Scene) : Prop :=
  (∀ c ∈ scTitleOf sc, titleChar c = true) ∧ (∀ c ∈ contentOf sc, contChar c = true)

def chOkB (P : Novel) (ch : Chapter) : Prop :=
  (∀ c ∈ chTitleOf ch, titleChar c = true) ∧ ∀ sc ∈ c1ScenesOf P ch, scOkB sc

theorem titleChar_no {c : Char} (h : titleChar c = true) :
    c ≠ '*' ∧ c ≠ '#' ∧ c ≠ '<' ∧ c ≠ '-' ∧ c ≠ '/' ∧ c ≠ '\n' := by
  simpa [titleChar] using h

theorem contChar_no {c : Char} (h : contChar c = true) :
    c ≠ '*' ∧ c ≠ '#' ∧ c ≠ '<' ∧ c ≠ '-' ∧ c ≠ '/' ∧ c ≠ '[' := by
  simpa [contChar] using h

theorem dblC_no_star {sc : Scene} (h : scOkB sc) :
    ∀ c ∈ dblNl (contentOf sc), c ≠ '*' := by
  intro c hc
  rcases dblNl_mem (contentOf sc) c hc with hm | hm
  · exact (contChar_no (h.2 c hm)).1
  · rw [hm]
    decide

theorem blockRaw_no_star {sc : Scene} (h : scOkB sc) :
    ∀ c ∈ blockRaw sc, c ≠ '*' := by
  intro c hc
  unfold blockRaw at hc
  simp only [List.append_assoc, List.mem_append] at hc
  rcases hc with hc | hc | hc | hc | hc
  · revert c
    decide
  · exact (titleChar_no (h.1 c hc)).1
  · revert c
    decide
  · exact dblC_no_star h c hc
  · revert c hc
    decide

theorem boldSub_divider (t : Str) :
    boldSub ((("\n\n* * *\n\n").data) ++ t)
      = (("\n\n* * *\n\n").data) ++ boldSub t := by
  rw [show (("\n\n* * *\n\n").data) ++ t
      = '\n' :: '\n' :: '*' :: ' ' :: '*' :: ' ' :: '*' :: '\n' :: '\n' :: t from rfl]
  rw [boldSub_cons_ne '\n' _ (by decide), boldSub_cons_ne '\n' _ (by decide)]
  rw [boldSub_star_ne ' ' _ (by decide)]
  rw [boldSub_cons_ne ' ' _ (by decide)]
  rw [boldSub_star_ne ' ' _ (by decide)]
  rw [boldSub_cons_ne ' ' _ (by decide)]
  rw [boldSub_star_ne '\n' _ (by decide)]
  rw [boldSub_cons_ne '\n' _ (by decide), boldSub_cons_ne '\n' _ (by decide)]
  rfl

theorem boldSub_blocksT {P : Novel} :
    ∀ (scs : List Scene), (∀ sc ∈ scs, scOkB sc) → ∀ t,
      boldSub (blocksRawT scs ++ t) = blocksRawT scs ++ boldSub t := by
  intro scs
  induction scs with
  | nil => intro _ t; rfl
  | cons sc rs ih =>
    intro h t
    rw [blocksRawT]
    rw [List.append_assoc, List.append_assoc]
    rw [boldSub_divider]
    rw [boldSub_seg _ _ (blockRaw_no_star (h sc (List.mem_cons_self sc rs)))]
    rw [ih (fun x hx => h x (List.mem_cons_of_mem sc hx)) t]
    simp [List.append_assoc]

theorem boldSub_blocks {P : Novel} (scs : List Scene) (h : ∀ sc ∈ scs, scOkB sc) (t : Str) :
    boldSub (blocksRaw scs ++ t) = blocksRaw scs ++ boldSub t := by
  cases scs with
  | nil => rfl
  | cons sc rs =>
    rw [blocksRaw_cons, List.append_assoc]
    rw [boldSub_seg _ _ (blockRaw_no_star (h sc (List.mem_cons_self sc rs)))]
    rw [@boldSub_blocksT P rs (fun x hx => h x (List.mem_cons_of_mem sc hx)) t]
    rw [List.append_assoc]


theorem boldSub_body (P : Novel) :
    ∀ (chs : List Chapter), (∀ ch ∈ chs, chOkB P ch) → ∀ t,
      boldSub ((chs.foldr (fun ch acc => chapterRaw P ch ++ acc) []) ++ t)
        = (chs.foldr (fun ch acc => chapterRaw P ch ++ acc) []) ++ boldSub t := by
  intro chs
  induction chs with
  | nil => intro _ t; rfl
  | cons ch rest ih =>
    intro h t
    obtain ⟨hct, hscs⟩ := h ch (List.mem_cons_self ch rest)
    rw [List.foldr_cons]
    rw [chapterRaw]
    simp only [List.cons_append, List.nil_append, List.append_assoc]
    rw [boldSub_cons_ne '\n' _ (by decide)]
    rw [boldSub_seg (hashesOf ch) _ (by
      intro c hc
      unfold hashesOf at hc
      split at hc <;> revert c hc <;> decide)]
    rw [boldSub_seg (chTitleOf ch) _ (fun c hc => (titleChar_no (hct c hc)).1)]
    rw [boldSub_cons_ne '\n' _ (by decide), boldSub_cons_ne '\n' _ (by decide)]
    rw [@boldSub_blocks P (c1ScenesOf P ch) hscs]
    rw [ih (fun x hx => h x (List.mem_cons_of_mem ch hx)) t]

theorem italicSub_divider (t : Str) :
    italicSub ((("\n\n* * *\n\n").data) ++ t)
      = (("\n\n* * *\n\n").data) ++ italicSub t := by
  rw [show (("\n\n* * *\n\n").data) ++ t
      = '\n' :: '\n' :: '*' :: ' ' :: '*' :: ' ' :: '*' :: '\n' :: '\n' :: t from rfl]
  rw [italicSub_cons_ne '\n' _ (by decide), italicSub_cons_ne '\n' _ (by decide)]
  rw [italicSub_star_sp]
  rw [italicSub_cons_ne ' ' _ (by decide)]
  rw [italicSub_star_sp]
  rw [italicSub_cons_ne ' ' _ (by decide)]
  rw [italicSub_star_nl]
  rw [italicSub_cons_ne '\n' _ (by decide), italicSub_cons_ne '\n' _ (by decide)]
  rfl

theorem italicSub_blocksT {P : Novel} :
    ∀ (scs : List Scene), (∀ sc ∈ scs, scOkB sc) → ∀ t,
      italicSub (blocksRawT scs ++ t) = blocksRawT scs ++ italicSub t := by
  intro scs
  induction scs with
  | nil => intro _ t; rfl
  | cons sc rs ih =>
    intro h t
    rw [blocksRawT]
    rw [List.append_assoc, List.append_assoc]
    rw [italicSub_divider]
    rw [italicSub_seg _ _ (blockRaw_no_star (h sc (List.mem_cons_self sc rs)))]
    rw [ih (fun x hx => h x (List.mem_cons_of_mem sc hx)) t]
    simp [List.append_assoc]

theorem italicSub_blocks {P : Novel} (scs : List Scene) (h : ∀ sc ∈ scs, scOkB sc) (t : Str) :
    italicSub (blocksRaw scs ++ t) = blocksRaw scs ++ italicSub t := by
  cases scs with
  | nil => rfl
  | cons sc rs =>
    rw [blocksRaw_cons, List.append_assoc]
    rw [italicSub_seg _ _ (blockRaw_no_star (h sc (List.mem_cons_self sc rs)))]
    rw [@italicSub_blocksT P rs (fun x hx => h x (List.mem_cons_of_mem sc hx)) t]
    rw [List.append_assoc]

theorem italicSub_body (P : Novel) :
    ∀ (chs : List Chapter), (∀ ch ∈ chs, chOkB P ch) → ∀ t,
      italicSub ((chs.foldr (fun ch acc => chapterRaw P ch ++ acc) []) ++ t)
        = (chs.foldr (fun ch acc => chapterRaw P ch ++ acc) []) ++ italicSub t := by
  intro chs
  induction chs with
  | nil => intro _ t; rfl
  | cons ch rest ih =>
    intro h t
    obtain ⟨hct, hscs⟩ := h ch (List.mem_cons_self ch rest)
    rw [List.foldr_cons]
    rw [chapterRaw]
    simp only [List.cons_append, List.nil_append, List.append_assoc]
    rw [italicSub_cons_ne '\n' _ (by decide)]
    rw [italicSub_seg (hashesOf ch) _ (by
      intro c hc
      unfold hashesOf at hc
      split at hc <;> revert c hc <;> decide)]
    rw [italicSub_seg (chTitleOf ch) _ (fun c hc => (titleChar_no (hct c hc)).1)]
    rw [italicSub_cons_ne '\n' _ (by decide), italicSub_cons_ne '\n' _ (by decide)]
    rw [@italicSub_blocks P (c1ScenesOf P ch) hscs]
    rw [ih (fun x hx => h x (List.mem_cons_of_mem ch hx)) t]

/-! The whole export text after each stage of convert_to_yw: bold
substitution, italic substitution, newline halving and the two
comment-delimiter replacements. -/

def textB (P : Novel) : Str :=
  (("[b]").data) ++ P.title.getD [] ++ (("[/b]").data) ++ (("  \n  \n").data)
    ++ '*' :: (P.author.getD [] ++ '*' :: ((("  \n  \n").data) ++ bodyRaw P))

def textI (P : Novel) : Str :=
  (("[b]").data) ++ P.title.getD [] ++ (("[/b]").data) ++ (("  \n  \n").data)
    ++ (("[i]").data) ++ P.author.getD [] ++ (("[/i]").data) ++ (("  \n  \n").data)
    ++ bodyRaw P

theorem boldSub_export (P : Novel)
    (hTne : P.title.getD [] ≠ [])
    (hT : ∀ c ∈ P.title.getD [], titleChar c = true)
    (hAne : P.author.getD [] ≠ [])
    (hA : ∀ c ∈ P.author.getD [], titleChar c = true)
    (hch : ∀ ch ∈ c1Chapters P, chOkB P ch) :
    boldSub (exportRaw P) = textB P := by
  rw [show exportRaw P
      = ('*' :: '*' :: P.title.getD []) ++ '*' :: '*' ::
          ((("  \n  \n").data) ++ '*' :: (P.author.getD []
            ++ '*' :: ((("  \n  \n").data) ++ bodyRaw P))) from by
    unfold exportRaw headerRaw
    rw [show (("**").data : Str) = '*' :: '*' :: ([] : Str) from rfl,
        show (("**  \n  \n*").data : Str)
          = '*' :: '*' :: ((("  \n  \n").data) ++ ['*']) from rfl,
        show (("*  \n  \n").data : Str) = '*' :: (("  \n  \n").data) from rfl]
    simp [List.append_assoc, List.cons_append, List.nil_append]]
  rw [boldSub_hit (P.title.getD []) _ hTne
    (fun c hc => ⟨(titleChar_no (hT c hc)).1, (titleChar_no (hT c hc)).2.2.2.2.2⟩)]
  rw [boldSub_seg (("  \n  \n").data) _ (by decide)]
  rcases hAs : P.author.getD [] with _ | ⟨a, A2⟩
  · exact absurd hAs hAne
  · have ha : a ≠ '*' := by
      refine (titleChar_no (hA a ?_)).1
      rw [hAs]
      exact List.mem_cons_self a A2
    rw [show boldSub ('*' :: (a :: A2 ++ '*' :: ((("  \n  \n").data) ++ bodyRaw P)))
        = boldSub (('*' :: a :: A2) ++ '*' :: ((("  \n  \n").data) ++ bodyRaw P)) from rfl]
    rw [show boldSub (('*' :: a :: A2) ++ '*' :: ((("  \n  \n").data) ++ bodyRaw P))
        = boldSub ('*' :: a :: (A2 ++ '*' :: ((("  \n  \n").data) ++ bodyRaw P))) from rfl]
    rw [boldSub_star_ne a _ ha]
    rw [show (a :: (A2 ++ '*' :: ((("  \n  \n").data) ++ bodyRaw P)))
        = (a :: A2) ++ '*' :: ((("  \n  \n").data) ++ bodyRaw P) from rfl]
    rw [boldSub_seg (a :: A2) _ (by
      intro x hx
      rw [← hAs] at hx
      exact (titleChar_no (hA x hx)).1)]
    rw [show ('*' :: ((("  \n  \n").data) ++ bodyRaw P))
        = '*' :: ' ' :: (((" \n  \n").data) ++ bodyRaw P) from rfl]
    rw [boldSub_star_ne ' ' _ (by decide)]
    rw [show (' ' :: (((" \n  \n").data) ++ bodyRaw P))
        = ((("  \n  \n").data) ++ bodyRaw P) from rfl]
    rw [boldSub_seg (("  \n  \n").data) _ (by decide)]
    rw [show bodyRaw P = bodyRaw P ++ [] from (List.append_nil _).symm]
    unfold bodyRaw
    rw [boldSub_body P (c1Chapters P) hch []]
    simp [textB, bodyRaw, hAs, List.append_assoc, List.cons_append,
      show boldSub ([] : Str) = [] from rfl]

theorem italicSub_textB (P : Novel)
    (hT : ∀ c ∈ P.title.getD [], titleChar c = true)
    (hA : ∀ c ∈ P.author.getD [], titleChar c = true)
    (hAlen : 3 ≤ (P.author.getD []).length)
    (hAhd : (P.author.getD []).head? ≠ some ' ')
    (hAlast : (P.author.getD []).getLast? ≠ some ' ')
    (hch : ∀ ch ∈ c1Chapters P, chOkB P ch) :
    italicSub (textB P) = textI P := by
  unfold textB
  rw [List.append_assoc, List.append_assoc, List.append_assoc]
  rw [italicSub_seg (("[b]").data) _ (by decide)]
  rw [italicSub_seg (P.title.getD []) _ (fun c hc => (titleChar_no (hT c hc)).1)]
  rw [show ((("[/b]").data : Str) ++ ((("  \n  \n").data)
      ++ '*' :: (P.author.getD [] ++ '*' :: ((("  \n  \n").data) ++ bodyRaw P))))
      = (("[/b]  \n  \n").data) ++ '*' :: (P.author.getD []
          ++ '*' :: ((("  \n  \n").data) ++ bodyRaw P)) from rfl]
  rw [italicSub_seg (("[/b]  \n  \n").data) _ (by decide)]
  rcases hAs : P.author.getD [] with _ | ⟨a, A2⟩
  · rw [hAs] at hAlen; simp at hAlen
  · rcases A2 with _ | ⟨b, A3⟩
    · rw [hAs] at hAlen; simp at hAlen
    · have hmem : ∀ x ∈ a :: b :: A3, titleChar x = true := by
        intro x hx; rw [← hAs] at hx; exact hA x hx
      have ha2 : a ≠ ' ' := by
        intro hq; rw [hAs, hq] at hAhd; simp at hAhd
      have ha1 : a ≠ '*' := (titleChar_no (hmem a (by simp))).1
      rw [show ('*' :: ((a :: b :: A3) ++ '*' :: ((("  \n  \n").data) ++ bodyRaw P)))
          = ('*' :: a :: b :: A3) ++ '*' :: ((("  \n  \n").data) ++ bodyRaw P) from rfl]
      rw [italicSub_hit a (b :: A3) _
        (by
          rw [hAs] at hAlen
          simp only [List.length_cons] at hAlen ⊢
          omega)
        ⟨ha2, ha1⟩
        (fun c hc => ⟨(titleChar_no (hmem c (List.mem_cons_of_mem a hc))).1,
          (titleChar_no (hmem c (List.mem_cons_of_mem a hc))).2.2.2.2.2⟩)
        (by rw [hAs, List.getLast?_cons_cons] at hAlast; exact hAlast)]
      rw [italicSub_seg (("  \n  \n").data) _ (by decide)]
      rw [show bodyRaw P = bodyRaw P ++ [] from (List.append_nil _).symm]
      unfold bodyRaw
      rw [italicSub_body P (c1Chapters P) hch []]
      simp [textI, bodyRaw, hAs, List.append_assoc, List.cons_append,
        show italicSub ([] : Str) = [] from rfl]

/-! The text layers after halving: one newline closes each block, one
blank separator line sits between scene blocks, and each chapter after
the first contributes its leading newline.  The comment delimiters are
parameters so that the same structure describes the text before and
after the two delimiter replacements. -/

def blockD (o c : Str) (sc : Scene) : Str :=
  o ++ scTitleOf sc ++ c ++ contentOf sc ++ ['\n']

def blocksD (o c : Str) : List Scene → Str
  | [] => []
  | [sc] => blockD o c sc
  | sc :: rest => blockD o c sc ++ '\n' :: (("* * *").data) ++ '\n' :: blocksD o c rest

def chapInnerRaw (P : Novel) (ch : Chapter) : Str :=
  hashesOf ch ++ chTitleOf ch ++ ['\n', '\n'] ++ blocksRaw (c1ScenesOf P ch)

def chapInnerD (o c : Str) (P : Novel) (ch : Chapter) : Str :=
  hashesOf ch ++ chTitleOf ch ++ '\n' :: blocksD o c (c1ScenesOf P ch)

def bodyTailD (o c : Str) (P : Novel) : List Chapter → Str
  | [] => []
  | ch :: rest => '\n' :: (chapInnerD o c P ch ++ bodyTailD o c P rest)

def textD (o c : Str) (P : Novel) : Str :=
  (("[b]").data) ++ P.title.getD [] ++ (("[/b]  ").data) ++ '\n' :: (("  ").data)
    ++ '\n' :: (("[i]").data) ++ P.author.getD [] ++ (("[/i]  ").data)
    ++ '\n' :: (("  ").data) ++ bodyTailD o c P (c1Chapters P)

theorem chapterRaw_eq (P : Novel) (ch : Chapter) :
    chapterRaw P ch = '\n' :: chapInnerRaw P ch := rfl

theorem halve_blockRaw (sc : Scene) (hT : ∀ c ∈ scTitleOf sc, titleChar c = true)
    (t : Str) :
    halveNl (blockRaw sc ++ t)
      = blockD (("<!---").data) (("--->").data) sc ++ halveNl t := by
  unfold blockRaw
  simp only [List.append_assoc]
  rw [halveNl_seg (("<!---").data) _ (by decide)]
  rw [halveNl_seg (scTitleOf sc) _ (fun c hc => (titleChar_no (hT c hc)).2.2.2.2.2)]
  rw [halveNl_seg (("--->").data) _ (by decide)]
  rw [halveNl_dblNl]
  rw [show ((['\n', '\n'] : Str) ++ t) = '\n' :: '\n' :: t from rfl]
  rw [halveNl_nl2]
  simp [blockD, List.append_assoc, List.cons_append]

theorem halve_blocksL : ∀ (scs : List Scene),
    (∀ sc ∈ scs, ∀ c ∈ scTitleOf sc, titleChar c = true) → ∀ t,
    halveNl (blocksRaw scs ++ t)
      = blocksD (("<!---").data) (("--->").data) scs ++ halveNl t := by
  intro scs
  induction scs with
  | nil => intro _ t; rfl
  | cons sc rest ih =>
    intro h t
    cases rest with
    | nil =>
      exact halve_blockRaw sc (h sc (List.mem_cons_self sc [])) t
    | cons sc2 rest2 =>
      rw [show blocksRaw (sc :: sc2 :: rest2)
          = blockRaw sc ++ (("\n\n* * *\n\n").data) ++ blocksRaw (sc2 :: rest2) from rfl]
      rw [List.append_assoc, List.append_assoc]
      rw [halve_blockRaw sc (h sc (List.mem_cons_self sc _)) _]
      rw [show ((("\n\n* * *\n\n").data : Str) ++ (blocksRaw (sc2 :: rest2) ++ t))
          = '\n' :: '\n' :: ((("* * *").data)
              ++ '\n' :: '\n' :: (blocksRaw (sc2 :: rest2) ++ t)) from rfl]
      rw [halveNl_nl2]
      rw [halveNl_seg (("* * *").data) _ (by decide)]
      rw [halveNl_nl2]
      rw [ih (fun x hx => h x (List.mem_cons_of_mem sc hx)) t]
      rw [show blocksD (("<!---").data) (("--->").data) (sc :: sc2 :: rest2)
          = blockD (("<!---").data) (("--->").data) sc ++ '\n' :: (("* * *").data)
              ++ '\n' :: blocksD (("<!---").data) (("--->").data) (sc2 :: rest2) from rfl]
      simp [List.append_assoc, List.cons_append]

theorem halve_chapInner (P : Novel) (ch : Chapter)
    (hct : ∀ c ∈ chTitleOf ch, titleChar c = true)
    (hscs : ∀ sc ∈ c1ScenesOf P ch, ∀ c ∈ scTitleOf sc, titleChar c = true)
    (t : Str) :
    halveNl (chapInnerRaw P ch ++ t)
      = chapInnerD (("<!---").data) (("--->").data) P ch ++ halveNl t := by
  unfold chapInnerRaw
  simp only [List.append_assoc]
  rw [halveNl_seg (hashesOf ch) _ (by
    intro c hc
    unfold hashesOf at hc
    split at hc <;> revert c hc <;> decide)]
  rw [halveNl_seg (chTitleOf ch) _ (fun c hc => (titleChar_no (hct c hc)).2.2.2.2.2)]
  rw [show ((['\n', '\n'] : Str) ++ (blocksRaw (c1ScenesOf P ch) ++ t))
      = '\n' :: '\n' :: (blocksRaw (c1ScenesOf P ch) ++ t) from rfl]
  rw [halveNl_nl2]
  rw [halve_blocksL (c1ScenesOf P ch) hscs t]
  simp [chapInnerD, List.append_assoc, List.cons_append]

theorem chapInnerRaw_head (P : Novel) (ch : Chapter) (x : Str) :
    (chapInnerRaw P ch ++ x).head? = some '#' := by
  unfold chapInnerRaw hashesOf
  split <;> rfl

theorem halve_bodyTail (P : Novel) : ∀ (chs : List Chapter),
    (∀ ch ∈ chs, (∀ c ∈ chTitleOf ch, titleChar c = true) ∧
      ∀ sc ∈ c1ScenesOf P ch, ∀ c ∈ scTitleOf sc, titleChar c = true) →
    halveNl (chs.foldr (fun ch acc => chapterRaw P ch ++ acc) [])
      = bodyTailD (("<!---").data) (("--->").data) P chs := by
  intro chs
  induction chs with
  | nil => intro _; rfl
  | cons ch rest ih =>
    intro h
    obtain ⟨hct, hscs⟩ := h ch (List.mem_cons_self ch rest)
    rw [List.foldr_cons, chapterRaw_eq, List.cons_append]
    rw [halveNl_nl1 _ (by rw [chapInnerRaw_head]; decide)]
    rw [halve_chapInner P ch hct hscs _]
    rw [ih (fun x hx => h x (List.mem_cons_of_mem ch hx))]
    rfl

theorem halveNl_nl_sp (z : Str) :
    halveNl ('\n' :: ((("  ").data) ++ z)) = '\n' :: halveNl ((("  ").data) ++ z) :=
  halveNl_nl1 _ (by
    rw [show (((("  ").data) : Str) ++ z).head? = some ' ' from rfl]
    decide)

theorem halveNl_nl_lb (z : Str) :
    halveNl ('\n' :: ((("[i]").data) ++ z)) = '\n' :: halveNl ((("[i]").data) ++ z) :=
  halveNl_nl1 _ (by
    rw [show (((("[i]").data) : Str) ++ z).head? = some '[' from rfl]
    decide)

theorem halve_textI (P : Novel)
    (hT : ∀ c ∈ P.title.getD [], titleChar c = true)
    (hA : ∀ c ∈ P.author.getD [], titleChar c = true)
    (hne : c1Chapters P ≠ [])
    (hch : ∀ ch ∈ c1Chapters P, (∀ c ∈ chTitleOf ch, titleChar c = true) ∧
      ∀ sc ∈ c1ScenesOf P ch, ∀ c ∈ scTitleOf sc, titleChar c = true) :
    halveNl (textI P) = textD (("<!---").data) (("--->").data) P := by
  rcases hcs : c1Chapters P with _ | ⟨ch, rest⟩
  · exact absurd hcs hne
  obtain ⟨hct, hscs⟩ := hch ch (by rw [hcs]; exact List.mem_cons_self ch rest)
  rw [show textI P
      = ("[b]").data ++ (P.title.getD [] ++ ((("[/b]  ").data)
          ++ '\n' :: ((("  ").data) ++ '\n' :: ((("[i]").data)
            ++ (P.author.getD [] ++ ((("[/i]  ").data)
              ++ '\n' :: ((("  ").data) ++ '\n' :: bodyRaw P))))))) from by
    unfold textI
    simp [List.append_assoc, List.cons_append]]
  rw [halveNl_seg (("[b]").data) _ (by decide)]
  rw [halveNl_seg (P.title.getD []) _ (fun c hc => (titleChar_no (hT c hc)).2.2.2.2.2)]
  rw [halveNl_seg (("[/b]  ").data) _ (by decide)]
  rw [halveNl_nl_sp]
  rw [halveNl_seg (("  ").data) _ (by decide)]
  rw [halveNl_nl_lb]
  rw [halveNl_seg (("[i]").data) _ (by decide)]
  rw [halveNl_seg (P.author.getD []) _ (fun c hc => (titleChar_no (hA c hc)).2.2.2.2.2)]
  rw [halveNl_seg (("[/i]  ").data) _ (by decide)]
  rw [halveNl_nl_sp]
  rw [halveNl_seg (("  ").data) _ (by decide)]
  rw [show bodyRaw P
      = List.foldr (fun ch acc => chapterRaw P ch ++ acc) [] (ch :: rest) from by
    unfold bodyRaw
    rw [hcs]]
  rw [List.foldr_cons, chapterRaw_eq]
  rw [show (('\n' :: chapInnerRaw P ch)
        ++ List.foldr (fun c acc => chapterRaw P c ++ acc) [] rest)
      = '\n' :: (chapInnerRaw P ch
        ++ List.foldr (fun c acc => chapterRaw P c ++ acc) [] rest) from rfl]
  rw [halveNl_nl2]
  rw [halve_chapInner P ch hct hscs _]
  rw [halve_bodyTail P rest
    (fun x hx => hch x (by rw [hcs]; exact List.mem_cons_of_mem ch hx))]
  unfold textD
  rw [hcs]
  simp [bodyTailD, List.append_assoc, List.cons_append]

theorem pyReplaceP_ne (p0 : Char) (pt r : Str) (c : Char) (s : Str) (h : c ≠ p0) :
    pyReplaceP p0 pt r (c :: s) = c :: pyReplaceP p0 pt r s := by
  have := pyReplaceP_seg p0 pt r [c] s (by
    intro x hx
    simp only [List.mem_singleton] at hx
    subst hx
    exact h)
  simpa using this

/-! The first delimiter replacement: the comment opener becomes the text
markdown comment opener. -/

theorem m1_blockD (sc : Scene)
    (hT : ∀ c ∈ scTitleOf sc, titleChar c = true)
    (hC : ∀ c ∈ contentOf sc, contChar c = true) (t : Str) :
    pyReplaceP '<' (("!---").data) (("/*").data)
        (blockD (("<!---").data) (("--->").data) sc ++ t)
      = blockD (("/*").data) (("--->").data) sc
          ++ pyReplaceP '<' (("!---").data) (("/*").data) t := by
  unfold blockD
  simp only [List.append_assoc]
  rw [show ((("<!---").data : Str)
        ++ (scTitleOf sc ++ ((("--->").data) ++ (contentOf sc ++ (['\n'] ++ t)))))
      = ('<' :: (("!---").data))
        ++ (scTitleOf sc ++ ((("--->").data) ++ (contentOf sc ++ (['\n'] ++ t)))) from rfl]
  rw [pyReplaceP_hit]
  rw [pyReplaceP_seg _ _ _ (scTitleOf sc) _ (fun c hc => (titleChar_no (hT c hc)).2.2.1)]
  rw [pyReplaceP_seg _ _ _ (("--->").data) _ (by decide)]
  rw [pyReplaceP_seg _ _ _ (contentOf sc) _ (fun c hc => (contChar_no (hC c hc)).2.2.1)]
  rw [pyReplaceP_seg _ _ _ (['\n'] : Str) _ (by decide)]

theorem m1_blocksD : ∀ (scs : List Scene),
    (∀ sc ∈ scs, (∀ c ∈ scTitleOf sc, titleChar c = true) ∧
      ∀ c ∈ contentOf sc, contChar c = true) → ∀ t,
    pyReplaceP '<' (("!---").data) (("/*").data)
        (blocksD (("<!---").data) (("--->").data) scs ++ t)
      = blocksD (("/*").data) (("--->").data) scs
          ++ pyReplaceP '<' (("!---").data) (("/*").data) t := by
  intro scs
  induction scs with
  | nil => intro _ t; rfl
  | cons sc rest ih =>
    intro h t
    obtain ⟨hT, hC⟩ := h sc (List.mem_cons_self sc rest)
    cases rest with
    | nil => exact m1_blockD sc hT hC t
    | cons sc2 rest2 =>
      rw [show (blocksD (("<!---").data) (("--->").data) (sc :: sc2 :: rest2) ++ t)
          = blockD (("<!---").data) (("--->").data) sc
              ++ (('\n' :: (("* * *").data))
                ++ ((['\n'] : Str)
                  ++ (blocksD (("<!---").data) (("--->").data) (sc2 :: rest2) ++ t)))
          from by
        rw [show blocksD (("<!---").data) (("--->").data) (sc :: sc2 :: rest2)
            = blockD (("<!---").data) (("--->").data) sc ++ '\n' :: (("* * *").data)
                ++ '\n' :: blocksD (("<!---").data) (("--->").data) (sc2 :: rest2) from rfl]
        simp [List.append_assoc, List.cons_append, List.nil_append]]
      rw [m1_blockD sc hT hC _]
      rw [pyReplaceP_seg _ _ _ ('\n' :: (("* * *").data)) _ (by decide)]
      rw [pyReplaceP_seg _ _ _ (['\n'] : Str) _ (by decide)]
      rw [ih (fun x hx => h x (List.mem_cons_of_mem sc hx)) t]
      rw [show blocksD (("/*").data) (("--->").data) (sc :: sc2 :: rest2)
          = blockD (("/*").data) (("--->").data) sc ++ '\n' :: (("* * *").data)
              ++ '\n' :: blocksD (("/*").data) (("--->").data) (sc2 :: rest2) from rfl]
      simp [List.append_assoc, List.cons_append]

theorem m1_chapInnerD (P : Novel) (ch : Chapter)
    (hct : ∀ c ∈ chTitleOf ch, titleChar c = true)
    (hscs : ∀ sc ∈ c1ScenesOf P ch, (∀ c ∈ scTitleOf sc, titleChar c = true) ∧
      ∀ c ∈ contentOf sc, contChar c = true) (t : Str) :
    pyReplaceP '<' (("!---").data) (("/*").data)
        (chapInnerD (("<!---").data) (("--->").data) P ch ++ t)
      = chapInnerD (("/*").data) (("--->").data) P ch
          ++ pyReplaceP '<' (("!---").data) (("/*").data) t := by
  unfold chapInnerD
  simp only [List.append_assoc]
  rw [pyReplaceP_seg _ _ _ (hashesOf ch) _ (by
    intro c hc
    unfold hashesOf at hc
    split at hc <;> revert c hc <;> decide)]
  rw [pyReplaceP_seg _ _ _ (chTitleOf ch) _ (fun c hc => (titleChar_no (hct c hc)).2.2.1)]
  rw [show (('\n' :: blocksD (("<!---").data) (("--->").data) (c1ScenesOf P ch)) ++ t)
      = (['\n'] : Str) ++ (blocksD (("<!---").data) (("--->").data) (c1ScenesOf P ch) ++ t)
      from rfl]
  rw [pyReplaceP_seg _ _ _ (['\n'] : Str) _ (by decide)]
  rw [m1_blocksD (c1ScenesOf P ch) hscs t]
  simp [List.append_assoc, List.cons_append]

theorem m1_bodyTailD (P : Novel) : ∀ (chs : List Chapter),
    (∀ ch ∈ chs, (∀ c ∈ chTitleOf ch, titleChar c = true) ∧
      ∀ sc ∈ c1ScenesOf P ch, (∀ c ∈ scTitleOf sc, titleChar c = true) ∧
        ∀ c ∈ contentOf sc, contChar c = true) →
    pyReplaceP '<' (("!---").data) (("/*").data)
        (bodyTailD (("<!---").data) (("--->").data) P chs)
      = bodyTailD (("/*").data) (("--->").data) P chs := by
  intro chs
  induction chs with
  | nil => intro _; rfl
  | cons ch rest ih =>
    intro h
    obtain ⟨hct, hscs⟩ := h ch (List.mem_cons_self ch rest)
    rw [show bodyTailD (("<!---").data) (("--->").data) P (ch :: rest)
        = '\n' :: (chapInnerD (("<!---").data) (("--->").data) P ch
            ++ bodyTailD (("<!---").data) (("--->").data) P rest) from rfl]
    rw [pyReplaceP_ne _ _ _ '\n' _ (by decide)]
    rw [m1_chapInnerD P ch hct hscs _]
    rw [ih (fun x hx => h x (List.mem_cons_of_mem ch hx))]
    rfl

theorem m1_textD (P : Novel)
    (hT : ∀ c ∈ P.title.getD [], titleChar c = true)
    (hA : ∀ c ∈ P.author.getD [], titleChar c = true)
    (hch : ∀ ch ∈ c1Chapters P, (∀ c ∈ chTitleOf ch, titleChar c = true) ∧
      ∀ sc ∈ c1ScenesOf P ch, (∀ c ∈ scTitleOf sc, titleChar c = true) ∧
        ∀ c ∈ contentOf sc, contChar c = true) :
    pyReplaceP '<' (("!---").data) (("/*").data)
        (textD (("<!---").data) (("--->").data) P)
      = textD (("/*").data) (("--->").data) P := by
  unfold textD
  simp only [List.append_assoc]
  rw [pyReplaceP_seg _ _ _ (("[b]").data) _ (by decide)]
  rw [pyReplaceP_seg _ _ _ (P.title.getD []) _ (fun c hc => (titleChar_no (hT c hc)).2.2.1)]
  rw [pyReplaceP_seg _ _ _ (("[/b]  ").data) _ (by decide)]
  rw [pyReplaceP_seg _ _ _ ('\n' :: (("  ").data)) _ (by decide)]
  rw [pyReplaceP_seg _ _ _ ('\n' :: (("[i]").data)) _ (by decide)]
  rw [pyReplaceP_seg _ _ _ (P.author.getD []) _ (fun c hc => (titleChar_no (hA c hc)).2.2.1)]
  rw [pyReplaceP_seg _ _ _ (("[/i]  ").data) _ (by decide)]
  rw [pyReplaceP_seg _ _ _ ('\n' :: (("  ").data)) _ (by decide)]
  rw [m1_bodyTailD P (c1Chapters P) hch]

/-! The second delimiter replacement: the comment closer becomes the text
markdown comment closer. -/

theorem m2_blockD (sc : Scene)
    (hT : ∀ c ∈ scTitleOf sc, titleChar c = true)
    (hC : ∀ c ∈ contentOf sc, contChar c = true) (t : Str) :
    pyReplaceP '-' (("-->").data) (("*/").data)
        (blockD (("/*").data) (("--->").data) sc ++ t)
      = blockD (("/*").data) (("*/").data) sc
          ++ pyReplaceP '-' (("-->").data) (("*/").data) t := by
  unfold blockD
  simp only [List.append_assoc]
  rw [pyReplaceP_seg _ _ _ (("/*").data) _ (by decide)]
  rw [pyReplaceP_seg _ _ _ (scTitleOf sc) _ (fun c hc => (titleChar_no (hT c hc)).2.2.2.1)]
  rw [show ((("--->").data : Str) ++ (contentOf sc ++ (['\n'] ++ t)))
      = ('-' :: (("-->").data)) ++ (contentOf sc ++ (['\n'] ++ t)) from rfl]
  rw [pyReplaceP_hit]
  rw [pyReplaceP_seg _ _ _ (contentOf sc) _ (fun c hc => (contChar_no (hC c hc)).2.2.2.1)]
  rw [pyReplaceP_seg _ _ _ (['\n'] : Str) _ (by decide)]

theorem m2_blocksD : ∀ (scs : List Scene),
    (∀ sc ∈ scs, (∀ c ∈ scTitleOf sc, titleChar c = true) ∧
      ∀ c ∈ contentOf sc, contChar c = true) → ∀ t,
    pyReplaceP '-' (("-->").data) (("*/").data)
        (blocksD (("/*").data) (("--->").data) scs ++ t)
      = blocksD (("/*").data) (("*/").data) scs
          ++ pyReplaceP '-' (("-->").data) (("*/").data) t := by
  intro scs
  induction scs with
  | nil => intro _ t; rfl
  | cons sc rest ih =>
    intro h t
    obtain ⟨hT, hC⟩ := h sc (List.mem_cons_self sc rest)
    cases rest with
    | nil => exact m2_blockD sc hT hC t
    | cons sc2 rest2 =>
      rw [show (blocksD (("/*").data) (("--->").data) (sc :: sc2 :: rest2) ++ t)
          = blockD (("/*").data) (("--->").data) sc
              ++ (('\n' :: (("* * *").data))
                ++ ((['\n'] : Str)
                  ++ (blocksD (("/*").data) (("--->").data) (sc2 :: rest2) ++ t)))
          from by
        rw [show blocksD (("/*").data) (("--->").data) (sc :: sc2 :: rest2)
            = blockD (("/*").data) (("--->").data) sc ++ '\n' :: (("* * *").data)
                ++ '\n' :: blocksD (("/*").data) (("--->").data) (sc2 :: rest2) from rfl]
        simp [List.append_assoc, List.cons_append, List.nil_append]]
      rw [m2_blockD sc hT hC _]
      rw [pyReplaceP_seg _ _ _ ('\n' :: (("* * *").data)) _ (by decide)]
      rw [pyReplaceP_seg _ _ _ (['\n'] : Str) _ (by decide)]
      rw [ih (fun x hx => h x (List.mem_cons_of_mem sc hx)) t]
      rw [show blocksD (("/*").data) (("*/").data) (sc :: sc2 :: rest2)
          = blockD (("/*").data) (("*/").data) sc ++ '\n' :: (("* * *").data)
              ++ '\n' :: blocksD (("/*").data) (("*/").data) (sc2 :: rest2) from rfl]
      simp [List.append_assoc, List.cons_append]

theorem m2_chapInnerD (P : Novel) (ch : Chapter)
    (hct : ∀ c ∈ chTitleOf ch, titleChar c = true)
    (hscs : ∀ sc ∈ c1ScenesOf P ch, (∀ c ∈ scTitleOf sc, titleChar c = true) ∧
      ∀ c ∈ contentOf sc, contChar c = true) (t : Str) :
    pyReplaceP '-' (("-->").data) (("*/").data)
        (chapInnerD (("/*").data) (("--->").data) P ch ++ t)
      = chapInnerD (("/*").data) (("*/").data) P ch
          ++ pyReplaceP '-' (("-->").data) (("*/").data) t := by
  unfold chapInnerD
  simp only [List.append_assoc]
  rw [pyReplaceP_seg _ _ _ (hashesOf ch) _ (by
    intro c hc
    unfold hashesOf at hc
    split at hc <;> revert c hc <;> decide)]
  rw [pyReplaceP_seg _ _ _ (chTitleOf ch) _ (fun c hc => (titleChar_no (hct c hc)).2.2.2.1)]
  rw [show (('\n' :: blocksD (("/*").data) (("--->").data) (c1ScenesOf P ch)) ++ t)
      = (['\n'] : Str) ++ (blocksD (("/*").data) (("--->").data) (c1ScenesOf P ch) ++ t)
      from rfl]
  rw [pyReplaceP_seg _ _ _ (['\n'] : Str) _ (by decide)]
  rw [m2_blocksD (c1ScenesOf P ch) hscs t]
  simp [List.append_assoc, List.cons_append]

theorem m2_bodyTailD (P : Novel) : ∀ (chs : List Chapter),
    (∀ ch ∈ chs, (∀ c ∈ chTitleOf ch, titleChar c = true) ∧
      ∀ sc ∈ c1ScenesOf P ch, (∀ c ∈ scTitleOf sc, titleChar c = true) ∧
        ∀ c ∈ contentOf sc, contChar c = true) →
    pyReplaceP '-' (("-->").data) (("*/").data)
        (bodyTailD (("/*").data) (("--->").data) P chs)
      = bodyTailD (("/*").data) (("*/").data) P chs := by
  intro chs
  induction chs with
  | nil => intro _; rfl
  | cons ch rest ih =>
    intro h
    obtain ⟨hct, hscs⟩ := h ch (List.mem_cons_self ch rest)
    rw [show bodyTailD (("/*").data) (("--->").data) P (ch :: rest)
        = '\n' :: (chapInnerD (("/*").data) (("--->").data) P ch
            ++ bodyTailD (("/*").data) (("--->").data) P rest) from rfl]
    rw [pyReplaceP_ne _ _ _ '\n' _ (by decide)]
    rw [m2_chapInnerD P ch hct hscs _]
    rw [ih (fun x hx => h x (List.mem_cons_of_mem ch hx))]
    rfl

theorem m2_textD (P : Novel)
    (hT : ∀ c ∈ P.title.getD [], titleChar c = true)
    (hA : ∀ c ∈ P.author.getD [], titleChar c = true)
    (hch : ∀ ch ∈ c1Chapters P, (∀ c ∈ chTitleOf ch, titleChar c = true) ∧
      ∀ sc ∈ c1ScenesOf P ch, (∀ c ∈ scTitleOf sc, titleChar c = true) ∧
        ∀ c ∈ contentOf sc, contChar c = true) :
    pyReplaceP '-' (("-->").data) (("*/").data)
        (textD (("/*").data) (("--->").data) P)
      = textD (("/*").data) (("*/").data) P := by
  unfold textD
  simp only [List.append_assoc]
  rw [pyReplaceP_seg _ _ _ (("[b]").data) _ (by decide)]
  rw [pyReplaceP_seg _ _ _ (P.title.getD []) _
    (fun c hc => (titleChar_no (hT c hc)).2.2.2.1)]
  rw [pyReplaceP_seg _ _ _ (("[/b]  ").data) _ (by decide)]
  rw [pyReplaceP_seg _ _ _ ('\n' :: (("  ").data)) _ (by decide)]
  rw [pyReplaceP_seg _ _ _ ('\n' :: (("[i]").data)) _ (by decide)]
  rw [pyReplaceP_seg _ _ _ (P.author.getD []) _
    (fun c hc => (titleChar_no (hA c hc)).2.2.2.1)]
  rw [pyReplaceP_seg _ _ _ (("[/i]  ").data) _ (by decide)]
  rw [pyReplaceP_seg _ _ _ ('\n' :: (("  ").data)) _ (by decide)]
  rw [m2_bodyTailD P (c1Chapters P) hch]

/-! Splitting the final text on newlines recovers the exact line list the
scanner of MdFile.read receives. -/

theorem splitNl_cons_nl (b : Str) : splitNl ('\n' :: b) = [] :: splitNl b := by
  simp [splitNl]

theorem split_blockF (sc : Scene)
    (hT : ∀ c ∈ scTitleOf sc, titleChar c = true) (t : Str) :
    splitNl (blockD (("/*").data) (("*/").data) sc ++ t)
      = sceneLinesL sc ++ splitNl t := by
  unfold blockD
  rw [show (((("/*").data) ++ scTitleOf sc ++ (("*/").data) ++ contentOf sc ++ ['\n']) ++ t)
      = ((("/*").data) ++ scTitleOf sc ++ (("*/").data) ++ contentOf sc) ++ '\n' :: t from by
    simp [List.append_assoc]]
  rw [splitNl_append_nl]
  rw [show ((("/*").data) ++ scTitleOf sc ++ (("*/").data) ++ contentOf sc)
      = ((("/*").data) ++ scTitleOf sc ++ (("*/").data)) ++ contentOf sc from by
    simp [List.append_assoc]]
  rw [splitNl_front_nonl _ (contentOf sc) (by
    intro c hc
    simp only [List.append_assoc, List.mem_append] at hc
    rcases hc with hc | hc | hc
    · revert c
      decide
    · exact (titleChar_no (hT c hc)).2.2.2.2.2
    · revert c hc
      decide)]
  rfl

theorem split_blocksF : ∀ (scs : List Scene), scs ≠ [] →
    (∀ sc ∈ scs, ∀ c ∈ scTitleOf sc, titleChar c = true) →
    ∀ (t : Str) (L : List Str), splitNl t = [] :: L →
    splitNl (blocksD (("/*").data) (("*/").data) scs ++ t)
      = scenesLinesL scs ++ L := by
  intro scs
  induction scs with
  | nil => intro hne; exact absurd rfl hne
  | cons sc rest ih =>
    intro _ h t L ht
    cases rest with
    | nil =>
      rw [show blocksD (("/*").data) (("*/").data) [sc]
          = blockD (("/*").data) (("*/").data) sc from rfl]
      rw [split_blockF sc (h sc (List.mem_cons_self sc [])) t, ht]
      rw [show scenesLinesL [sc] = sceneLinesL sc ++ [[]] from rfl]
      simp
    | cons sc2 rest2 =>
      rw [show (blocksD (("/*").data) (("*/").data) (sc :: sc2 :: rest2) ++ t)
          = blockD (("/*").data) (("*/").data) sc
              ++ '\n' :: ((("* * *").data)
                ++ '\n' :: (blocksD (("/*").data) (("*/").data) (sc2 :: rest2) ++ t))
          from by
        rw [show blocksD (("/*").data) (("*/").data) (sc :: sc2 :: rest2)
            = blockD (("/*").data) (("*/").data) sc ++ '\n' :: (("* * *").data)
                ++ '\n' :: blocksD (("/*").data) (("*/").data) (sc2 :: rest2) from rfl]
        simp [List.append_assoc, List.cons_append]]
      rw [split_blockF sc (h sc (List.mem_cons_self sc _)) _]
      rw [splitNl_cons_nl]
      rw [splitNl_append_nl]
      rw [splitNl_nonl (("* * *").data) (by decide)]
      rw [ih (by simp) (fun x hx => h x (List.mem_cons_of_mem sc hx)) t L ht]
      rw [show scenesLinesL (sc :: sc2 :: rest2)
          = sceneLinesL sc ++ [[]] ++ (("* * *").data) :: scenesLinesL (sc2 :: rest2)
          from rfl]
      simp

theorem hashesOf_no_nl (ch : Chapter) : ∀ c ∈ hashesOf ch, c ≠ '\n' := by
  intro c hc
  unfold hashesOf at hc
  split at hc <;> revert c hc <;> decide

theorem split_chapInnerF (P : Novel) (ch : Chapter)
    (hct : ∀ c ∈ chTitleOf ch, titleChar c = true)
    (hne : c1ScenesOf P ch ≠ [])
    (hscs : ∀ sc ∈ c1ScenesOf P ch, ∀ c ∈ scTitleOf sc, titleChar c = true)
    (t : Str) (L : List Str) (ht : splitNl t = [] :: L) :
    splitNl (chapInnerD (("/*").data) (("*/").data) P ch ++ t)
      = chapterLinesL P ch ++ L := by
  unfold chapInnerD
  rw [show ((hashesOf ch ++ chTitleOf ch
        ++ '\n' :: blocksD (("/*").data) (("*/").data) (c1ScenesOf P ch)) ++ t)
      = (hashesOf ch ++ chTitleOf ch)
          ++ '\n' :: (blocksD (("/*").data) (("*/").data) (c1ScenesOf P ch) ++ t) from by
    simp [List.append_assoc]]
  rw [splitNl_append_nl]
  rw [splitNl_nonl (hashesOf ch ++ chTitleOf ch) (by
    intro c hc
    rcases List.mem_append.mp hc with h1 | h1
    · exact hashesOf_no_nl ch c h1
    · exact (titleChar_no (hct c h1)).2.2.2.2.2)]
  rw [split_blocksF (c1ScenesOf P ch) hne hscs t L ht]
  rfl

theorem split_bodyTailF (P : Novel) : ∀ (chs : List Chapter),
    (∀ ch ∈ chs, (∀ c ∈ chTitleOf ch, titleChar c = true) ∧
      c1ScenesOf P ch ≠ [] ∧
      ∀ sc ∈ c1ScenesOf P ch, ∀ c ∈ scTitleOf sc, titleChar c = true) →
    splitNl (bodyTailD (("/*").data) (("*/").data) P chs)
      = [] :: chs.foldr (fun ch acc => chapterLinesL P ch ++ acc) [] := by
  intro chs
  induction chs with
  | nil => intro _; rfl
  | cons ch rest ih =>
    intro h
    obtain ⟨hct, hne, hscs⟩ := h ch (List.mem_cons_self ch rest)
    rw [show bodyTailD (("/*").data) (("*/").data) P (ch :: rest)
        = '\n' :: (chapInnerD (("/*").data) (("*/").data) P ch
            ++ bodyTailD (("/*").data) (("*/").data) P rest) from rfl]
    rw [splitNl_cons_nl]
    rw [split_chapInnerF P ch hct hne hscs _ _
      (ih (fun x hx => h x (List.mem_cons_of_mem ch hx)))]
    rfl

theorem split_textF (P : Novel)
    (hT : ∀ c ∈ P.title.getD [], titleChar c = true)
    (hA : ∀ c ∈ P.author.getD [], titleChar c = true)
    (hch : ∀ ch ∈ c1Chapters P, (∀ c ∈ chTitleOf ch, titleChar c = true) ∧
      c1ScenesOf P ch ≠ [] ∧
      ∀ sc ∈ c1ScenesOf P ch, ∀ c ∈ scTitleOf sc, titleChar c = true) :
    splitNl (textD (("/*").data) (("*/").data) P) = c1Lines P := by
  have hsh : textD (("/*").data) (("*/").data) P
      = ((("[b]").data) ++ P.title.getD [] ++ (("[/b]  ").data))
          ++ '\n' :: (((("  ").data) : Str)
            ++ '\n' :: (((("[i]").data) ++ P.author.getD [] ++ (("[/i]  ").data))
              ++ '\n' :: (((("  ").data) : Str)
                ++ bodyTailD (("/*").data) (("*/").data) P (c1Chapters P)))) := by
    unfold textD
    simp [List.append_assoc]
  rw [hsh]
  rw [splitNl_append_nl, splitNl_append_nl, splitNl_append_nl]
  rw [splitNl_nonl ((("[b]").data) ++ P.title.getD [] ++ (("[/b]  ").data)) (by
    intro c hc
    simp only [List.append_assoc, List.mem_append] at hc
    rcases hc with hc | hc | hc
    · revert c
      decide
    · exact (titleChar_no (hT c hc)).2.2.2.2.2
    · revert c hc
      decide)]
  rw [splitNl_nonl (("  ").data) (by decide)]
  rw [splitNl_nonl ((("[i]").data) ++ P.author.getD [] ++ (("[/i]  ").data)) (by
    intro c hc
    simp only [List.append_assoc, List.mem_append] at hc
    rcases hc with hc | hc | hc
    · revert c
      decide
    · exact (titleChar_no (hA c hc)).2.2.2.2.2
    · revert c hc
      decide)]
  rw [splitNl_front_nonl (("  ").data) _ (by decide)]
  rw [split_bodyTailF P (c1Chapters P) hch]
  unfold c1Lines
  simp [strConsHead]

theorem c1wf_facts (P : Novel) (h : C1WF P) :
    P.title.getD [] ≠ [] ∧ (∀ c ∈ P.title.getD [], titleChar c = true) ∧
    P.author.getD [] ≠ [] ∧ (∀ c ∈ P.author.getD [], titleChar c = true) ∧
    3 ≤ (P.author.getD []).length ∧ (P.author.getD []).head? ≠ some ' ' ∧
    (P.author.getD []).getLast? ≠ some ' ' ∧ c1Chapters P ≠ [] ∧
    ∀ ch ∈ c1Chapters P, (∀ c ∈ chTitleOf ch, titleChar c = true) ∧
      c1ScenesOf P ch ≠ [] ∧
      ∀ sc ∈ c1ScenesOf P ch, (∀ c ∈ scTitleOf sc, titleChar c = true) ∧
        ∀ c ∈ contentOf sc, contChar c = true := by
  obtain ⟨⟨T, hTs, hTne, hTall⟩, ⟨A, hAs, hAall, hAlen, hAhd, hAlast⟩, hCne, hCh, -, -, -⟩ := h
  have hTg : P.title.getD [] = T := by rw [hTs]; rfl
  have hAg : P.author.getD [] = A := by rw [hAs]; rfl
  refine ⟨by rw [hTg]; exact hTne,
    by rw [hTg]; exact fun c hc => List.all_eq_true.mp hTall c hc,
    by rw [hAg]; intro hq; rw [hq] at hAlen; simp at hAlen,
    by rw [hAg]; exact fun c hc => List.all_eq_true.mp hAall c hc,
    by rw [hAg]; exact hAlen,
    by rw [hAg]; exact hAhd,
    by rw [hAg]; exact hAlast,
    by
      unfold c1Chapters
      intro hq
      rw [List.map_eq_nil] at hq
      exact hCne hq,
    ?_⟩
  intro ch hch
  unfold c1Chapters at hch
  obtain ⟨cid, hcid, hcheq⟩ := List.mem_map.mp hch
  obtain ⟨chw, hlk, hwf⟩ := hCh cid hcid
  have hce : ch = chw := by
    rw [← hcheq]
    unfold c1ChapOf
    rw [hlk]
    rfl
  subst hce
  obtain ⟨⟨CT, hCTs, hCTall⟩, -, -, -, -, ⟨l, hls, hlne, hlsc⟩⟩ := hwf
  have hscse : c1ScenesOf P ch = l.map (fun sid => (lookupA P.scenes sid).getD {}) := by
    unfold c1ScenesOf
    rw [hls]
    rfl
  refine ⟨by
      unfold chTitleOf
      rw [hCTs]
      exact fun c hc => List.all_eq_true.mp hCTall c hc,
    by
      rw [hscse]
      intro hq
      rw [List.map_eq_nil] at hq
      exact hlne hq,
    ?_⟩
  intro sc hsc
  rw [hscse] at hsc
  obtain ⟨sid, hsid, hsceq⟩ := List.mem_map.mp hsc
  obtain ⟨scw, hslk, hswf⟩ := hlsc sid hsid
  have hsce : sc = scw := by
    rw [← hsceq, hslk]
    rfl
  subst hsce
  obtain ⟨⟨S, hSs, hSall⟩, ⟨C, hCs, hCall, -⟩, -⟩ := hswf
  refine ⟨by
      unfold scTitleOf
      rw [hSs]
      exact fun c hc => List.all_eq_true.mp hSall c hc,
    by
      unfold contentOf
      rw [hCs]
      exact fun c hc => List.all_eq_true.mp hCall c hc⟩

/-- On a well-formed project the whole non-native conversion pipeline of
MdFile.read turns the exported document into exactly the structural line
list: four header lines, then for every chapter a heading line followed by
its scene blocks and separators. -/
theorem c1_lines_pipeline (P : Novel) (h : C1WF P) :
    splitNl (convToYwText false (exportRaw P)) = c1Lines P := by
  obtain ⟨hTne, hT, hAne, hA, hAlen, hAhd, hAlast, hCne, hchf⟩ := c1wf_facts P h
  have hchB : ∀ ch ∈ c1Chapters P, chOkB P ch := by
    intro ch hc
    obtain ⟨hct, hne, hscs⟩ := hchf ch hc
    exact ⟨hct, hscs⟩
  have hchHalve : ∀ ch ∈ c1Chapters P, (∀ c ∈ chTitleOf ch, titleChar c = true) ∧
      ∀ sc ∈ c1ScenesOf P ch, ∀ c ∈ scTitleOf sc, titleChar c = true := by
    intro ch hc
    obtain ⟨hct, hne, hscs⟩ := hchf ch hc
    exact ⟨hct, fun sc hsc => (hscs sc hsc).1⟩
  have hchM : ∀ ch ∈ c1Chapters P, (∀ c ∈ chTitleOf ch, titleChar c = true) ∧
      ∀ sc ∈ c1ScenesOf P ch, (∀ c ∈ scTitleOf sc, titleChar c = true) ∧
        ∀ c ∈ contentOf sc, contChar c = true := by
    intro ch hc
    obtain ⟨hct, hne, hscs⟩ := hchf ch hc
    exact ⟨hct, hscs⟩
  have hchS : ∀ ch ∈ c1Chapters P, (∀ c ∈ chTitleOf ch, titleChar c = true) ∧
      c1ScenesOf P ch ≠ [] ∧
      ∀ sc ∈ c1ScenesOf P ch, ∀ c ∈ scTitleOf sc, titleChar c = true := by
    intro ch hc
    obtain ⟨hct, hne, hscs⟩ := hchf ch hc
    exact ⟨hct, hne, fun sc hsc => (hscs sc hsc).1⟩
  rw [show convToYwText false (exportRaw P)
      = pyReplaceP '-' (("-->").data) (("*/").data)
          (pyReplaceP '<' (("!---").data) (("/*").data)
            (halveNl (italicSub (boldSub (exportRaw P))))) from rfl]
  rw [boldSub_export P hTne hT hAne hA hchB]
  rw [italicSub_textB P hT hA hAlen hAhd hAlast hchB]
  rw [halve_textI P hT hA hCne hchHalve]
  rw [m1_textD P hT hA hchM]
  rw [m2_textD P hT hA hchM]
  exact split_textF P hT hA hchS

/-! ## Claim C1, scanner stage: helper lemmas -/

theorem lookupA_append_none {α : Type} {a : List (Str × α)} (b : List (Str × α)) (k : Str)
    (h : lookupA a k = none) : lookupA (a ++ b) k = lookupA b k := by
  induction a with
  | nil => rfl
  | cons p rest ih =>
    simp only [lookupA] at h ⊢
    split at h
    · cases h
    · next hne =>
      rw [if_neg hne]
      exact ih h

theorem lookupA_append_some {α : Type} {a : List (Str × α)} (b : List (Str × α)) {k : Str}
    {v : α} (h : lookupA a k = some v) : lookupA (a ++ b) k = some v := by
  induction a with
  | nil => cases h
  | cons p rest ih =>
    simp only [lookupA] at h ⊢
    split at h
    · next he =>
      rw [if_pos he]
      exact h
    · next hne =>
      rw [if_neg hne]
      exact ih h

theorem isSubstr_infix {p : Str} : ∀ {s : Str}, isSubstr p s = true →
    ∃ u v, s = u ++ p ++ v := by
  intro s
  induction s with
  | nil =>
    intro h
    simp only [isSubstr, decide_eq_true_eq] at h
    exact ⟨[], [], by simp [h]⟩
  | cons c rest ih =>
    intro h
    simp only [isSubstr, Bool.or_eq_true] at h
    rcases h with h | h
    · obtain ⟨v, hv⟩ := List.isPrefixOf_iff_prefix.mp h
      exact ⟨[], v, by rw [← hv]; simp⟩
    · obtain ⟨u, v, huv⟩ := ih h
      exact ⟨c :: u, v, by rw [huv]; simp⟩

theorem divider_not_substr {l : Str} (h : l.count '*' < 3) :
    isSubstr (("* * *").data) l = false := by
  rcases hq : isSubstr (("* * *").data) l with _ | _
  · rfl
  · obtain ⟨u, v, huv⟩ := isSubstr_infix hq
    rw [huv, List.count_append, List.count_append] at h
    have h3 : ((("* * *").data).count '*') = 3 := by decide
    rw [h3] at h
    omega

theorem count_star_zero {l : Str} (h : ∀ c ∈ l, c ≠ '*') : l.count '*' = 0 :=
  List.count_eq_zero.mpr (fun hm => h '*' hm rfl)

theorem bufferable_contChar {l : Str} (h : ∀ c ∈ l, contChar c = true) :
    l.head? ≠ some '#' ∧ isSubstr (("* * *").data) l = false := by
  constructor
  · cases l with
    | nil => simp
    | cons a r =>
      simp only [List.head?_cons, ne_eq, Option.some.injEq]
      intro hq
      exact (contChar_no (h a (List.mem_cons_self a r))).2.1 hq
  · refine divider_not_substr ?_
    rw [count_star_zero (fun c hc => (contChar_no (h c hc)).1)]
    omega

theorem pySplitP_nohead (p0 : Char) (pt : Str) : ∀ s : Str, (∀ c ∈ s, c ≠ p0) →
    pySplitP p0 pt s = [s] := by
  intro s
  induction s with
  | nil => intro _; rfl
  | cons c rest ih =>
    intro h
    rw [pySplitP_cons]
    rw [if_neg ?_]
    · rw [ih (fun x hx => h x (List.mem_cons_of_mem c hx))]
      rfl
    · simp only [List.isPrefixOf, Bool.and_eq_true, beq_iff_eq]
      intro hq
      exact h c (List.mem_cons_self c rest) hq.1.symm

theorem pySplitP_h1 (CT : Str) (h : ∀ c ∈ CT, c ≠ '#') :
    pySplitP '#' [' '] (('#' :: ' ' :: CT)) = [[], CT] := by
  rw [pySplitP_cons]
  rw [if_pos (by simp [List.isPrefixOf])]
  rw [show ((' ' :: CT).drop [' '].length) = CT from rfl]
  rw [pySplitP_nohead '#' [' '] CT h]

theorem pySplitP_h2 (CT : Str) (h : ∀ c ∈ CT, c ≠ '#') :
    pySplitP '#' [' '] (('#' :: '#' :: ' ' :: CT)) = [['#'], CT] := by
  rw [pySplitP_cons]
  rw [if_neg (by simp [List.isPrefixOf])]
  rw [pySplitP_h1 CT h]
  rfl

theorem pySplit1P_star_ne (d : Char) (rest : Str) (h : d ≠ '/') :
    pySplit1P '*' ['/'] ('*' :: d :: rest) = consHead '*' (pySplit1P '*' ['/'] (d :: rest)) := by
  simp only [pySplit1P]
  rw [if_neg ?_]
  simp only [List.isPrefixOf, Bool.and_eq_true, beq_iff_eq]
  intro hq
  exact h hq.2.1.symm

theorem pySplit1P_ne_nil : ∀ s : Str, pySplit1P '*' ['/'] s ≠ [] := by
  intro s
  cases s with
  | nil => simp [pySplit1P]
  | cons c rest =>
    simp only [pySplit1P]
    split
    · simp
    · exact consHead_ne_nil c _

theorem pySplit1P_seg : ∀ (a : Str), (∀ c ∈ a, c ≠ '*') → ∀ b,
    pySplit1P '*' ['/'] (a ++ b) = strConsHead a (pySplit1P '*' ['/'] b) := by
  intro a
  induction a with
  | nil =>
    intro _ b
    rw [List.nil_append, strConsHead_nil _ (pySplit1P_ne_nil b)]
  | cons c a2 ih =>
    intro h b
    rw [List.cons_append]
    rw [show pySplit1P '*' ['/'] (c :: (a2 ++ b))
        = consHead c (pySplit1P '*' ['/'] (a2 ++ b)) from by
      simp only [pySplit1P]
      rw [if_neg ?_]
      simp only [List.isPrefixOf, Bool.and_eq_true, beq_iff_eq]
      intro hq
      exact h c (List.mem_cons_self c a2) hq.1.symm]
    rw [ih (fun x hx => h x (List.mem_cons_of_mem c hx)) b]
    exact consHead_strConsHead c a2 _

theorem pySplit1P_hit (c0 : Str) :
    pySplit1P '*' ['/'] ('*' :: '/' :: c0) = [[], c0] := by
  simp only [pySplit1P]
  rw [if_pos (by simp [List.isPrefixOf])]
  rfl

theorem pySplit1_scene (ST c0 : Str) (hST : ∀ c ∈ ST, c ≠ '*' ∧ c ≠ '/') :
    pySplit1P '*' ['/'] ('/' :: '*' :: (ST ++ '*' :: '/' :: c0))
      = ['/' :: '*' :: ST, c0] := by
  rw [show pySplit1P '*' ['/'] ('/' :: '*' :: (ST ++ '*' :: '/' :: c0))
      = consHead '/' (pySplit1P '*' ['/'] ('*' :: (ST ++ '*' :: '/' :: c0))) from by
    simp only [pySplit1P]
    rw [if_neg (by simp [List.isPrefixOf])]]
  cases hS : ST with
  | nil =>
    rw [show ('*' :: (([] : Str) ++ '*' :: '/' :: c0)) = '*' :: '*' :: '/' :: c0 from rfl]
    rw [pySplit1P_star_ne '*' ('/' :: c0) (by decide)]
    rw [pySplit1P_hit]
    rfl
  | cons a ST2 =>
    have hmem : ∀ c ∈ a :: ST2, c ≠ '*' ∧ c ≠ '/' := by
      intro c hc
      rw [← hS] at hc
      exact hST c hc
    rw [List.cons_append]
    rw [pySplit1P_star_ne a (ST2 ++ '*' :: '/' :: c0)
      (hmem a (List.mem_cons_self a ST2)).2]
    rw [show (a :: (ST2 ++ '*' :: '/' :: c0)) = (a :: ST2) ++ ('*' :: '/' :: c0) from rfl]
    rw [pySplit1P_seg (a :: ST2) (fun x hx => (hmem x hx).1) _]
    rw [pySplit1P_hit]
    simp [strConsHead, consHead]

theorem pyLstrip_scene (ST : Str) (hST : ∀ c ∈ ST, c ≠ '*' ∧ c ≠ '/') :
    pyLstrip (("/*").data) ('/' :: '*' :: ST) = ST := by
  unfold pyLstrip
  rw [show ('/' :: '*' :: ST).dropWhile (fun c => decide (c ∈ (("/*").data)))
      = ST.dropWhile (fun c => decide (c ∈ (("/*").data))) from by
    simp [List.dropWhile]]
  cases hS : ST with
  | nil => rfl
  | cons a ST2 =>
    have ha := hST a (by rw [hS]; exact List.mem_cons_self a ST2)
    rw [List.dropWhile_cons]
    rw [if_neg ?_]
    simp only [decide_eq_true_eq]
    intro hq
    rcases List.mem_cons.mp hq with hq | hq
    · exact ha.2 hq
    rcases List.mem_cons.mp hq with hq | hq
    · exact ha.1 hq
    exact absurd hq (List.not_mem_nil a)

/-- The record write_scene_content stores for an open scene. -/
def flushRec (sc : Scene) (content : Str) : Scene :=
  let sc1 := setSceneContent sc content
  { sc1 with status := some (Sum.inr (if sc1.wordCount < 10 then 1 else 2)) }

theorem flushRec_parsed (sc : Scene) :
    flushRec (parsedScene sc) (contentOf sc ++ ['\n']) = flushedScene sc := rfl

theorem flushScene_none {st : MdState} (h : st.scId = none) : flushScene st = .ok st := by
  unfold flushScene
  rw [h]
  rfl

theorem flushScene_some {st : MdState} {id : Str} {scR : Scene}
    (h : st.scId = some id) (hlk : lookupA st.scenes id = some scR) :
    flushScene st
      = .ok { st with scenes := insertA st.scenes id (flushRec scR (joinNl st.buf)) } := by
  unfold flushScene
  rw [h]
  dsimp only
  rw [hlk]
  rfl

theorem mdStep_skip (st : MdState) (l : Str)
    (h1 : l.head? ≠ some '#') (h2 : isSubstr (("* * *").data) l = false)
    (h3 : st.scId = none) (h4 : st.chId = none) :
    mdStep false false st l = .ok st := by
  unfold mdStep
  rw [if_neg h1]
  rw [if_neg (by rw [h2]; simp)]
  rw [if_neg (by rw [h3]; simp)]
  rw [h4]
  rfl

theorem mdStep_buffer (st : MdState) (l : Str)
    (h1 : l.head? ≠ some '#') (h2 : isSubstr (("* * *").data) l = false)
    (h3 : st.scId.isSome = true) :
    mdStep false false st l = .ok { st with buf := st.buf ++ [l] } := by
  unfold mdStep
  rw [if_neg h1]
  rw [if_neg (by rw [h2]; simp)]
  rw [if_pos h3]
  rfl

theorem mdStep_divider (st : MdState) (id : Str) (scR : Scene)
    (hsc : st.scId = some id) (hlk : lookupA st.scenes id = some scR) :
    mdStep false false st (("* * *").data)
      = .ok { st with
          scenes := insertA st.scenes id (flushRec scR (joinNl st.buf))
          scId := none } := by
  unfold mdStep
  rw [if_neg (by decide)]
  rw [if_pos (by decide)]
  rw [show (bind (flushScene st) (fun st => pure { st with scId := none })
        : Except PyErr MdState)
      = bind (flushScene st) (fun st => pure { st with scId := none }) from rfl]
  rw [flushScene_some hsc hlk]
  rfl

theorem hashes_head (ch : Chapter) (x : Str) :
    ((hashesOf ch ++ x)).head? = some '#' := by
  unfold hashesOf
  split <;> rfl

theorem heading_count_star (ch : Chapter)
    (hCT : ∀ c ∈ chTitleOf ch, titleChar c = true) :
    (hashesOf ch ++ chTitleOf ch).count '*' = 0 := by
  rw [List.count_append]
  rw [count_star_zero (fun c hc => (titleChar_no (hCT c hc)).1)]
  rw [show (hashesOf ch).count '*' = 0 from by
    unfold hashesOf
    split <;> decide]

theorem mdStep_heading_core (st stf : MdState) (ch : Chapter) (k : Nat)
    (hCT : ∀ c ∈ chTitleOf ch, titleChar c = true)
    (hflush : flushScene st = .ok stf) :
    mdStep false false st (hashesOf ch ++ chTitleOf ch) = .ok { stf with
      scId := none
      chCount := stf.chCount + 1
      chId := some (natId (stf.chCount + 1))
      chapters := insertA stf.chapters (natId (stf.chCount + 1)) (parsedChapter ch k 0)
      srtChapters := stf.srtChapters ++ [natId (stf.chCount + 1)] } := by
  unfold mdStep
  rw [if_pos (hashes_head ch (chTitleOf ch))]
  rw [hflush]
  simp only [bind, Except.bind]
  by_cases hl : ch.chLevel = some 1
  · rw [show hashesOf ch = ("# ").data from by simp [hashesOf, hl]]
    rw [show ((("# ").data : Str) ++ chTitleOf ch) = '#' :: ' ' :: chTitleOf ch from rfl]
    rw [pySplitP_h1 _ (fun c hc => (titleChar_no (hCT c hc)).2.1)]
    rw [show (([[], chTitleOf ch] : List Str).get? 1) = some (chTitleOf ch) from rfl]
    dsimp only
    rw [show (((('#' :: [' ']) : Str).isPrefixOf ('#' :: ' ' :: chTitleOf ch)))
        = true from by simp [List.isPrefixOf]]
    rw [show parsedChapter ch k 0
        = { title := some (chTitleOf ch),
            oldType := some (Sum.inl (("0").data)),
            chLevel := some 1,
            srtScenes := some [] } from by
      simp [parsedChapter, hl]]
    rfl
  · rw [show hashesOf ch = ("## ").data from by simp [hashesOf, hl]]
    rw [show ((("## ").data : Str) ++ chTitleOf ch)
        = '#' :: '#' :: ' ' :: chTitleOf ch from rfl]
    rw [pySplitP_h2 _ (fun c hc => (titleChar_no (hCT c hc)).2.1)]
    rw [show (([['#'], chTitleOf ch] : List Str).get? 1) = some (chTitleOf ch) from rfl]
    dsimp only
    rw [show (((('#' :: [' ']) : Str).isPrefixOf ('#' :: '#' :: ' ' :: chTitleOf ch)))
        = false from by simp [List.isPrefixOf]]
    rw [show parsedChapter ch k 0
        = { title := some (chTitleOf ch),
            oldType := some (Sum.inl (("0").data)),
            chLevel := some 0,
            srtScenes := some [] } from by
      simp [parsedChapter, hl]]
    rfl

theorem mdStep_heading_none (st : MdState) (ch : Chapter) (k : Nat)
    (hCT : ∀ c ∈ chTitleOf ch, titleChar c = true)
    (hsc : st.scId = none) :
    mdStep false false st (hashesOf ch ++ chTitleOf ch) = .ok { st with
      scId := none
      chCount := st.chCount + 1
      chId := some (natId (st.chCount + 1))
      chapters := insertA st.chapters (natId (st.chCount + 1)) (parsedChapter ch k 0)
      srtChapters := st.srtChapters ++ [natId (st.chCount + 1)] } :=
  mdStep_heading_core st st ch k hCT (flushScene_none hsc)

theorem mdStep_heading_flush (st : MdState) (ch : Chapter) (k : Nat) (id : Str) (scR : Scene)
    (hCT : ∀ c ∈ chTitleOf ch, titleChar c = true)
    (hsc : st.scId = some id) (hlk : lookupA st.scenes id = some scR) :
    mdStep false false st (hashesOf ch ++ chTitleOf ch) = .ok { st with
      scenes := insertA st.scenes id (flushRec scR (joinNl st.buf))
      scId := none
      chCount := st.chCount + 1
      chId := some (natId (st.chCount + 1))
      chapters := insertA st.chapters (natId (st.chCount + 1)) (parsedChapter ch k 0)
      srtChapters := st.srtChapters ++ [natId (st.chCount + 1)] } :=
  mdStep_heading_core st
    { st with scenes := insertA st.scenes id (flushRec scR (joinNl st.buf)) }
    ch k hCT (flushScene_some hsc hlk)

theorem mdStep_open (st : MdState) (cid : Str) (chR : Chapter) (l0 : List Str)
    (ST c0 : Str)
    (hsc : st.scId = none) (hch : st.chId = some cid)
    (hlk : lookupA st.chapters cid = some chR) (hsrt : chR.srtScenes = some l0)
    (hST : ∀ c ∈ ST, titleChar c = true) (hc0 : ∀ c ∈ c0, contChar c = true) :
    mdStep false false st ('/' :: '*' :: (ST ++ '*' :: '/' :: c0)) = .ok { st with
      scCount := st.scCount + 1
      scId := some (natId (st.scCount + 1))
      scenes := insertA st.scenes (natId (st.scCount + 1))
        { status := some (Sum.inl (("1").data)), title := some ST }
      chapters := insertA st.chapters cid
        { chR with srtScenes := some (l0 ++ [natId (st.scCount + 1)]) }
      buf := [c0] } := by
  unfold mdStep
  rw [if_neg (by simp)]
  rw [if_neg ?_]
  · rw [if_neg (by rw [hsc]; simp)]
    rw [hch]
    dsimp only
    rw [if_neg (by simp)]
    rw [hlk]
    dsimp only
    rw [hsrt]
    dsimp only
    rw [if_pos ?_]
    · rw [show pySplit1 (if (false : Bool) = true then (("--->").data) else (("*/").data))
            ('/' :: '*' :: (ST ++ '*' :: '/' :: c0))
          = pySplit1P '*' ['/'] ('/' :: '*' :: (ST ++ '*' :: '/' :: c0)) from rfl]
      rw [pySplit1_scene ST c0
        (fun c hc => ⟨(titleChar_no (hST c hc)).1, (titleChar_no (hST c hc)).2.2.2.2.1⟩)]
      dsimp only
      rw [show pyLstrip (if (false : Bool) = true then (("<!---").data) else (("/*").data))
            ('/' :: '*' :: ST)
          = pyLstrip (("/*").data) ('/' :: '*' :: ST) from rfl]
      rw [pyLstrip_scene ST
        (fun c hc => ⟨(titleChar_no (hST c hc)).1, (titleChar_no (hST c hc)).2.2.2.2.1⟩)]
      rfl
    · refine ⟨by simp, ?_⟩
      rw [show ((if (false : Bool) = true then (("<!---").data) else (("/*").data))
            : Str) = ("/*").data from rfl]
      simp [List.isPrefixOf]
  · intro hq
    have h2 : isSubstr (("* * *").data) ('/' :: '*' :: (ST ++ '*' :: '/' :: c0)) = false := by
      refine divider_not_substr ?_
      simp only [List.count_cons, List.count_append]
      rw [count_star_zero (fun c hc => (titleChar_no (hST c hc)).1),
          count_star_zero (fun c hc => (contChar_no (hc0 c hc)).1)]
      decide
    rw [h2] at hq
    cases hq

/-- The flushed-scene registry segment: every scene of the list closed by
a later heading or divider. -/
def c1SceneListF : List Scene → Nat → List (Str × Scene)
  | [], _ => []
  | sc :: rest, k => (natId (k + 1), flushedScene sc) :: c1SceneListF rest (k + 1)

theorem c1SceneListF_append : ∀ (scs : List Scene) (sc : Scene) (k : Nat),
    c1SceneListF (scs ++ [sc]) k
      = c1SceneListF scs k ++ [(natId (k + scs.length + 1), flushedScene sc)] := by
  intro scs
  induction scs with
  | nil => intro sc k; rfl
  | cons x rest ih =>
    intro sc k
    rw [List.cons_append]
    rw [show c1SceneListF (x :: (rest ++ [sc])) k
        = (natId (k + 1), flushedScene x) :: c1SceneListF (rest ++ [sc]) (k + 1) from rfl]
    rw [ih sc (k + 1)]
    rw [show c1SceneListF (x :: rest) k
        = (natId (k + 1), flushedScene x) :: c1SceneListF rest (k + 1) from rfl]
    rw [List.cons_append]
    rw [show k + 1 + rest.length + 1 = k + (x :: rest).length + 1 from by
      simp [List.length_cons]; omega]

theorem c1SceneList_split : ∀ (scs : List Scene) (ys : List Scene) (k : Nat), ys ≠ [] →
    c1SceneList (scs ++ ys) k = c1SceneListF scs k ++ c1SceneList ys (k + scs.length) := by
  intro scs
  induction scs with
  | nil =>
    intro ys k _
    rw [List.nil_append]
    rfl
  | cons x rest ih =>
    intro ys k hne
    rw [List.cons_append]
    rcases hq : rest ++ ys with _ | ⟨y, ys2⟩
    · exact absurd (List.append_eq_nil.mp hq).2 hne
    · rw [show c1SceneList (x :: y :: ys2) k
          = (natId (k + 1), flushedScene x) :: c1SceneList (y :: ys2) (k + 1) from rfl]
      rw [← hq]
      rw [ih ys (k + 1) hne]
      rw [show c1SceneListF (x :: rest) k
          = (natId (k + 1), flushedScene x) :: c1SceneListF rest (k + 1) from rfl]
      rw [List.cons_append]
      rw [show k + 1 + rest.length = k + (x :: rest).length from by
        simp [List.length_cons]; omega]

theorem c1SceneList_last (scs : List Scene) (sc : Scene) (k : Nat) :
    c1SceneList (scs ++ [sc]) k
      = c1SceneListF scs k ++ [(natId (k + scs.length + 1), parsedScene sc)] := by
  rw [c1SceneList_split scs [sc] k (by simp)]
  rfl

theorem c1SceneListF_lookup_gt : ∀ (scs : List Scene) (k0 q : Nat),
    k0 + scs.length < q → lookupA (c1SceneListF scs k0) (natId q) = none := by
  intro scs
  induction scs with
  | nil => intro k0 q _; rfl
  | cons sc rest ih =>
    intro k0 q h
    rw [show c1SceneListF (sc :: rest) k0
        = (natId (k0 + 1), flushedScene sc) :: c1SceneListF rest (k0 + 1) from rfl]
    simp only [lookupA]
    rw [if_neg ?_]
    · refine ih (k0 + 1) q ?_
      simp only [List.length_cons] at h
      omega
    · intro hq
      have := natId_inj hq
      simp only [List.length_cons] at h
      omega

theorem c1ChapList_lookup_gt (P : Novel) : ∀ (chs : List Chapter) (i0 k0 q : Nat),
    i0 + chs.length < q → lookupA (c1ChapList P chs i0 k0) (natId q) = none := by
  intro chs
  induction chs with
  | nil => intro i0 k0 q _; rfl
  | cons ch rest ih =>
    intro i0 k0 q h
    rw [show c1ChapList P (ch :: rest) i0 k0
        = (natId (i0 + 1), parsedChapter ch k0 (c1ScenesOf P ch).length)
            :: c1ChapList P rest (i0 + 1) (k0 + (c1ScenesOf P ch).length) from rfl]
    simp only [lookupA]
    rw [if_neg ?_]
    · refine ih (i0 + 1) _ q ?_
      simp only [List.length_cons] at h
      omega
    · intro hq
      have := natId_inj hq
      simp only [List.length_cons] at h
      omega

theorem mdRun_append (mm nst : Bool) : ∀ (xs ys : List Str) (st : MdState),
    mdRun mm nst st (xs ++ ys)
      = bind (mdRun mm nst st xs) (fun st2 => mdRun mm nst st2 ys) := by
  intro xs
  induction xs with
  | nil =>
    intro ys st
    rfl
  | cons l ls ih =>
    intro ys st
    rw [List.cons_append]
    rw [show mdRun mm nst st (l :: (ls ++ ys))
        = bind (mdStep mm nst st l) (fun st2 => mdRun mm nst st2 (ls ++ ys)) from rfl]
    rw [show mdRun mm nst st (l :: ls)
        = bind (mdStep mm nst st l) (fun st2 => mdRun mm nst st2 ls) from rfl]
    cases hq : mdStep mm nst st l with
    | error e => rfl
    | ok st2 =>
      simp only [bind, Except.bind]
      exact ih ys st2

theorem mdRun_buffer : ∀ (ls : List Str) (st : MdState),
    st.scId.isSome = true →
    (∀ l ∈ ls, l.head? ≠ some '#' ∧ isSubstr (("* * *").data) l = false) →
    mdRun false false st ls = .ok { st with buf := st.buf ++ ls } := by
  intro ls
  induction ls with
  | nil =>
    intro st _ _
    rw [show ({ st with buf := st.buf ++ [] } : MdState) = st from by
      rw [List.append_nil]]
    rfl
  | cons l ls2 ih =>
    intro st hsc h
    obtain ⟨h1, h2⟩ := h l (List.mem_cons_self l ls2)
    rw [show mdRun false false st (l :: ls2)
        = bind (mdStep false false st l) (fun st2 => mdRun false false st2 ls2) from rfl]
    rw [mdStep_buffer st l h1 h2 hsc]
    simp only [bind, Except.bind]
    rw [ih { st with buf := st.buf ++ [l] } (by simp only [MdState.scId]; exact hsc)
      (fun x hx => h x (List.mem_cons_of_mem l hx))]
    rw [show (st.buf ++ [l]) ++ ls2 = st.buf ++ (l :: ls2) from by
      rw [List.append_assoc, List.singleton_append]]

theorem splitNl_mem : ∀ (s l : Str), l ∈ splitNl s → ∀ c ∈ l, c ∈ s := by
  intro s
  induction s with
  | nil =>
    intro l hl c hc
    simp only [splitNl, List.mem_singleton] at hl
    subst hl
    exact absurd hc (List.not_mem_nil c)
  | cons a rest ih =>
    intro l hl c hc
    by_cases ha : a = '\n'
    · rw [show splitNl (a :: rest) = [] :: splitNl rest from by
        simp [splitNl, ha]] at hl
      rcases List.mem_cons.mp hl with hl | hl
      · subst hl
        exact absurd hc (List.not_mem_nil c)
      · exact List.mem_cons_of_mem a (ih l hl c hc)
    · rw [show splitNl (a :: rest) = consHead a (splitNl rest) from by
        simp [splitNl, ha]] at hl
      rcases hq : splitNl rest with _ | ⟨h0, t⟩
      · exact absurd hq (splitNl_ne_nil rest)
      · rw [hq] at hl
        rcases List.mem_cons.mp hl with hl | hl
        · subst hl
          rcases List.mem_cons.mp hc with hc | hc
          · subst hc
            exact List.mem_cons_self c rest
          · refine List.mem_cons_of_mem a (ih h0 ?_ c hc)
            rw [hq]
            exact List.mem_cons_self h0 t
        · refine List.mem_cons_of_mem a (ih l ?_ c hc)
          rw [hq]
          exact List.mem_cons_of_mem h0 hl

theorem lookupA_single_ne {α : Type} (a q : Nat) (v : α) (h : a ≠ q) :
    lookupA [(natId a, v)] (natId q) = none := by
  simp only [lookupA]
  rw [if_neg (fun hq => h (natId_inj hq))]

theorem range_map_natId (k n : Nat) :
    (List.range (n + 1)).map (fun j => natId (k + j + 1))
      = natId (k + 1) :: (List.range n).map (fun j => natId (k + 1 + j + 1)) := by
  rw [List.range_succ_eq_map, List.map_cons, List.map_map]
  refine congrArg₂ _ ?_ ?_
  · rw [show k + 0 + 1 = k + 1 from by omega]
  · refine congrArg (fun f => List.map f (List.range n)) ?_
    funext j
    simp only [Function.comp]
    exact congrArg natId (by omega)

theorem mdRun_scene (st : MdState) (cid : Str) (chR : Chapter) (l0 : List Str) (sc : Scene)
    (hsc : st.scId = none) (hch : st.chId = some cid)
    (hlk : lookupA st.chapters cid = some chR) (hsrt : chR.srtScenes = some l0)
    (hok : scOkB sc) :
    mdRun false false st (sceneLinesL sc) = .ok { st with
      scCount := st.scCount + 1
      scId := some (natId (st.scCount + 1))
      scenes := insertA st.scenes (natId (st.scCount + 1)) (parsedScene sc)
      chapters := insertA st.chapters cid
        { chR with srtScenes := some (l0 ++ [natId (st.scCount + 1)]) }
      buf := splitNl (contentOf sc) } := by
  rcases hsp : splitNl (contentOf sc) with _ | ⟨c0, crest⟩
  · exact absurd hsp (splitNl_ne_nil _)
  · rw [show sceneLinesL sc
        = ((("/*").data) ++ scTitleOf sc ++ (("*/").data) ++ c0) :: crest from by
      unfold sceneLinesL
      rw [hsp]
      rfl]
    rw [show ((("/*").data) ++ scTitleOf sc ++ (("*/").data) ++ c0)
        = '/' :: '*' :: (scTitleOf sc ++ '*' :: '/' :: c0) from by
      simp [List.append_assoc, List.cons_append, List.nil_append]]
    rw [show mdRun false false st (('/' :: '*' :: (scTitleOf sc ++ '*' :: '/' :: c0)) :: crest)
        = bind (mdStep false false st ('/' :: '*' :: (scTitleOf sc ++ '*' :: '/' :: c0)))
            (fun st2 => mdRun false false st2 crest) from rfl]
    have hc0 : ∀ c ∈ c0, contChar c = true := by
      intro c hc
      refine hok.2 c (splitNl_mem (contentOf sc) c0 ?_ c hc)
      rw [hsp]
      exact List.mem_cons_self c0 crest
    rw [mdStep_open st cid chR l0 (scTitleOf sc) c0 hsc hch hlk hsrt hok.1 hc0]
    simp only [bind, Except.bind]
    rw [mdRun_buffer crest _ (by simp only [MdState.scId]; rfl) ?_]
    · rw [show ([c0] ++ crest : List Str) = c0 :: crest from rfl]
      rw [← hsp]
      rfl
    · intro l hl
      refine bufferable_contChar ?_
      intro c hc
      refine hok.2 c (splitNl_mem (contentOf sc) l ?_ c hc)
      rw [hsp]
      exact List.mem_cons_of_mem c0 hl

theorem mdRun_scenes_loop :
    ∀ (front : List Scene) (lastsc : Scene), (∀ sc ∈ front ++ [lastsc], scOkB sc) →
    ∀ (i k : Nat) (CP : List (Str × Chapter)) (cid : Str) (chR : Chapter) (l0 : List Str)
      (SR : List Str) (SB : List (Str × Scene)) (B : List Str),
    lookupA CP cid = none →
    (∀ q, k < q → lookupA SB (natId q) = none) →
    chR.srtScenes = some l0 →
    mdRun false false
      { chCount := i, scCount := k, chapters := CP ++ [(cid, chR)],
        srtChapters := SR, scenes := SB, chId := some cid, scId := none, buf := B }
      (scenesLinesL (front ++ [lastsc]))
      = .ok
        { chCount := i, scCount := k + front.length + 1,
          chapters := CP ++ [(cid, { chR with srtScenes := some (l0 ++
            (List.range (front.length + 1)).map (fun j => natId (k + j + 1))) })],
          srtChapters := SR,
          scenes := SB ++ c1SceneListF front k
            ++ [(natId (k + front.length + 1), parsedScene lastsc)],
          chId := some cid,
          scId := some (natId (k + front.length + 1)),
          buf := splitNl (contentOf lastsc) ++ [[]] } := by
  intro front
  induction front with
  | nil =>
    intro lastsc hok i k CP cid chR l0 SR SB B hCP hSB hsrt
    rw [show scenesLinesL (([] : List Scene) ++ [lastsc])
        = sceneLinesL lastsc ++ [[]] from rfl]
    rw [mdRun_append]
    rw [mdRun_scene _ cid chR l0 lastsc rfl rfl
      (by
        rw [lookupA_append_none _ cid hCP]
        simp [lookupA])
      hsrt (hok lastsc (by simp))]
    simp only [bind, Except.bind]
    rw [mdRun_buffer [[]] _ (by rfl) (by intro l hl; simp at hl; subst hl; exact ⟨by simp, by decide⟩)]
    rw [show insertA SB (natId (k + 1)) (parsedScene lastsc)
        = SB ++ [(natId (k + 1), parsedScene lastsc)] from
      insertA_fresh SB _ _ (hSB (k + 1) (by omega))]
    rw [show insertA (CP ++ [(cid, chR)]) cid
          { chR with srtScenes := some (l0 ++ [natId (k + 1)]) }
        = CP ++ [(cid, { chR with srtScenes := some (l0 ++ [natId (k + 1)]) })] from
      insertA_last_replace CP cid _ _ hCP]
    simp only [MdState.buf]
    refine congrArg Except.ok ?_
    simp [c1SceneListF, show List.range 1 = [0] from rfl]
  | cons sc front2 ih =>
    intro lastsc hok i k CP cid chR l0 SR SB B hCP hSB hsrt
    rcases hq : front2 ++ [lastsc] with _ | ⟨y, ys⟩
    · exact absurd (List.append_eq_nil.mp hq).2 (by simp)
    rw [show scenesLinesL ((sc :: front2) ++ [lastsc])
        = sceneLinesL sc ++ [[]]
            ++ (("* * *").data) :: scenesLinesL (front2 ++ [lastsc]) from by
      rw [List.cons_append, hq]
      rfl]
    rw [List.append_assoc]
    rw [mdRun_append]
    rw [mdRun_scene _ cid chR l0 sc rfl rfl
      (by
        rw [lookupA_append_none _ cid hCP]
        simp [lookupA])
      hsrt (hok sc (by simp))]
    simp only [bind, Except.bind]
    rw [show ([[]] ++ (("* * *").data) :: scenesLinesL (front2 ++ [lastsc]) : List Str)
        = [] :: (("* * *").data) :: scenesLinesL (front2 ++ [lastsc]) from rfl]
    rw [show ∀ (st2 : MdState) (ls : List Str), mdRun false false st2 ([] :: ls)
        = bind (mdStep false false st2 []) (fun st3 => mdRun false false st3 ls) from
      fun _ _ => rfl]
    rw [mdStep_buffer _ [] (by simp) (by decide) (by rfl)]
    simp only [bind, Except.bind]
    rw [show ∀ (st2 : MdState) (ls : List Str),
        mdRun false false st2 ((("* * *").data) :: ls)
        = bind (mdStep false false st2 (("* * *").data))
            (fun st3 => mdRun false false st3 ls) from fun _ _ => rfl]
    rw [mdStep_divider _ (natId (k + 1)) (parsedScene sc) rfl
      (by
        rw [show insertA SB (natId (k + 1)) (parsedScene sc)
            = SB ++ [(natId (k + 1), parsedScene sc)] from
          insertA_fresh SB _ _ (hSB (k + 1) (by omega))]
        rw [lookupA_append_none _ _ (hSB (k + 1) (by omega))]
        simp [lookupA])]
    simp only [bind, Except.bind]
    rw [show insertA SB (natId (k + 1)) (parsedScene sc)
        = SB ++ [(natId (k + 1), parsedScene sc)] from
      insertA_fresh SB _ _ (hSB (k + 1) (by omega))]
    rw [show joinNl (splitNl (contentOf sc) ++ [[]]) = contentOf sc ++ ['\n'] from by
      rw [joinNl_append_empty _ (splitNl_ne_nil _), joinNl_splitNl]]
    rw [flushRec_parsed]
    rw [show insertA (SB ++ [(natId (k + 1), parsedScene sc)]) (natId (k + 1))
          (flushedScene sc)
        = SB ++ [(natId (k + 1), flushedScene sc)] from
      insertA_last_replace SB _ _ _ (hSB (k + 1) (by omega))]
    rw [show insertA (CP ++ [(cid, chR)]) cid
          { chR with srtScenes := some (l0 ++ [natId (k + 1)]) }
        = CP ++ [(cid, { chR with srtScenes := some (l0 ++ [natId (k + 1)]) })] from
      insertA_last_replace CP cid _ _ hCP]
    rw [show k + (sc :: front2).length + 1 = k + 1 + front2.length + 1 from by
      simp only [List.length_cons]
      omega]
    rw [show ((sc :: front2).length + 1) = front2.length + 1 + 1 from by
      simp only [List.length_cons]]
    rw [range_map_natId k (front2.length + 1)]
    rw [show c1SceneListF (sc :: front2) k
        = (natId (k + 1), flushedScene sc) :: c1SceneListF front2 (k + 1) from rfl]
    have H := ih lastsc
      (fun x hx => hok x (List.mem_cons_of_mem sc hx))
      i (k + 1) CP cid
      { chR with srtScenes := some (l0 ++ [natId (k + 1)]) }
      (l0 ++ [natId (k + 1)]) SR
      (SB ++ [(natId (k + 1), flushedScene sc)])
      (splitNl (contentOf sc) ++ [[]])
      hCP
      (fun q hq2 => by
        rw [lookupA_append_none _ _ (hSB q (by omega))]
        exact lookupA_single_ne (k + 1) q _ (by omega))
      rfl
    simp only [List.append_assoc, List.cons_append, List.singleton_append] at H ⊢
    exact H

def scenesOf (P : Novel) (chs : List Chapter) : List Scene :=
  chs.foldr (fun c acc => c1ScenesOf P c ++ acc) []

theorem range_map_natId2 (i n : Nat) :
    (List.range (n + 1)).map (fun j => natId (i + j + 2))
      = natId (i + 2) :: (List.range n).map (fun j => natId (i + 1 + j + 2)) := by
  rw [List.range_succ_eq_map, List.map_cons, List.map_map]
  refine congrArg₂ _ ?_ ?_
  · rw [show i + 0 + 2 = i + 2 from by omega]
  · refine congrArg (fun f => List.map f (List.range n)) ?_
    funext j
    simp only [Function.comp]
    exact congrArg natId (by omega)

theorem parsedChapter_fill (ch : Chapter) (k m : Nat) :
    { parsedChapter ch k 0 with
      srtScenes := some (([] : List Str)
        ++ (List.range m).map (fun j => natId (k + j + 1))) }
      = parsedChapter ch k m := by
  simp [parsedChapter]

theorem mdRun_chap_loop (P : Novel) : ∀ (rest : List Chapter) (ch : Chapter),
    (∀ c ∈ ch :: rest, (∀ x ∈ chTitleOf c, titleChar x = true) ∧
      c1ScenesOf P c ≠ [] ∧ ∀ sc ∈ c1ScenesOf P c, scOkB sc) →
    ∀ (i k : Nat) (CP : List (Str × Chapter)) (SR : List Str)
      (SB : List (Str × Scene)) (B : List Str),
    (∀ q, i < q → lookupA CP (natId q) = none) →
    (∀ q, k < q → lookupA SB (natId q) = none) →
    mdRun false false
      { chCount := i + 1, scCount := k,
        chapters := CP ++ [(natId (i + 1), parsedChapter ch k 0)],
        srtChapters := SR, scenes := SB, chId := some (natId (i + 1)),
        scId := none, buf := B }
      (scenesLinesL (c1ScenesOf P ch)
        ++ rest.foldr (fun c acc => chapterLinesL P c ++ acc) [])
      = .ok
        { chCount := i + 1 + rest.length,
          scCount := k + (scenesOf P (ch :: rest)).length,
          chapters := CP ++ c1ChapList P (ch :: rest) i k,
          srtChapters := SR ++ (List.range rest.length).map (fun j => natId (i + j + 2)),
          scenes := SB ++ c1SceneList (scenesOf P (ch :: rest)) k,
          chId := some (natId (i + 1 + rest.length)),
          scId := some (natId (k + (scenesOf P (ch :: rest)).length)),
          buf := splitNl (contentOf ((scenesOf P (ch :: rest)).getLast?.getD {})) ++ [[]] } := by
  intro rest
  induction rest with
  | nil =>
    intro ch hfacts i k CP SR SB B hCP hSB
    obtain ⟨hct, hne, hsok⟩ := hfacts ch (List.mem_cons_self ch [])
    rcases List.eq_nil_or_concat (c1ScenesOf P ch) with hq | ⟨front, lastsc, hfl⟩
    · exact absurd hq hne
    rw [List.concat_eq_append] at hfl
    rw [List.foldr_nil, List.append_nil]
    rw [hfl]
    have H := mdRun_scenes_loop front lastsc
      (by rw [← hfl]; exact hsok)
      (i + 1) k CP (natId (i + 1)) (parsedChapter ch k 0) [] SR SB B
      (hCP (i + 1) (by omega)) hSB rfl
    rw [H]
    refine congrArg Except.ok ?_
    rw [show scenesOf P [ch] = c1ScenesOf P ch ++ [] from rfl]
    rw [List.append_nil, hfl]
    rw [show c1ChapList P [ch] i k
        = [(natId (i + 1), parsedChapter ch k (c1ScenesOf P ch).length)] from rfl]
    rw [hfl]
    rw [show ((front ++ [lastsc] : List Scene)).length = front.length + 1 from by
      rw [List.length_append, List.length_cons, List.length_nil]]
    rw [parsedChapter_fill ch k (front.length + 1)]
    rw [c1SceneList_last front lastsc k]
    rw [show ((front ++ [lastsc] : List Scene)).getLast?.getD {} = lastsc from by
      rw [List.getLast?_concat]
      rfl]
    simp [List.append_assoc]
    exact ⟨by omega, congrArg natId (by omega)⟩
  | cons ch2 rest2 ih =>
    intro ch hfacts i k CP SR SB B hCP hSB
    obtain ⟨hct, hne, hsok⟩ := hfacts ch (List.mem_cons_self ch _)
    obtain ⟨hct2, hne2, hsok2⟩ := hfacts ch2
      (List.mem_cons_of_mem ch (List.mem_cons_self ch2 rest2))
    rcases List.eq_nil_or_concat (c1ScenesOf P ch) with hq | ⟨front1, last1, hfl1⟩
    · exact absurd hq hne
    rw [List.concat_eq_append] at hfl1
    rw [List.foldr_cons]
    rw [show chapterLinesL P ch2
        = (hashesOf ch2 ++ chTitleOf ch2) :: scenesLinesL (c1ScenesOf P ch2) from rfl]
    rw [show (((hashesOf ch2 ++ chTitleOf ch2) :: scenesLinesL (c1ScenesOf P ch2))
          ++ List.foldr (fun c acc => chapterLinesL P c ++ acc) [] rest2 : List Str)
        = (hashesOf ch2 ++ chTitleOf ch2)
            :: (scenesLinesL (c1ScenesOf P ch2)
              ++ List.foldr (fun c acc => chapterLinesL P c ++ acc) [] rest2) from rfl]
    rw [hfl1]
    rw [mdRun_append]
    rw [mdRun_scenes_loop front1 last1 (by rw [← hfl1]; exact hsok)
      (i + 1) k CP (natId (i + 1)) (parsedChapter ch k 0) [] SR SB B
      (hCP (i + 1) (by omega)) hSB rfl]
    simp only [bind, Except.bind]
    rw [show ∀ (st2 : MdState) (l : Str) (ls : List Str),
        mdRun false false st2 (l :: ls)
          = bind (mdStep false false st2 l) (fun st3 => mdRun false false st3 ls) from
      fun _ _ _ => rfl]
    rw [mdStep_heading_flush _ ch2 (k + front1.length + 1)
      (natId (k + front1.length + 1)) (parsedScene last1) hct2 rfl
      (by
        rw [lookupA_append_none _ _ (by
          rw [lookupA_append_none _ _ (hSB _ (by omega))]
          exact c1SceneListF_lookup_gt front1 k _ (by omega))]
        simp [lookupA])]
    simp only [bind, Except.bind]
    rw [show joinNl (splitNl (contentOf last1) ++ [[]]) = contentOf last1 ++ ['\n'] from by
      rw [joinNl_append_empty _ (splitNl_ne_nil _), joinNl_splitNl]]
    rw [flushRec_parsed]
    rw [show insertA (SB ++ c1SceneListF front1 k
          ++ [(natId (k + front1.length + 1), parsedScene last1)])
          (natId (k + front1.length + 1)) (flushedScene last1)
        = SB ++ c1SceneListF front1 k
            ++ [(natId (k + front1.length + 1), flushedScene last1)] from
      insertA_last_replace _ _ _ _ (by
        rw [lookupA_append_none _ _ (hSB _ (by omega))]
        exact c1SceneListF_lookup_gt front1 k _ (by omega))]
    rw [List.append_assoc SB (c1SceneListF front1 k)]
    rw [← c1SceneListF_append front1 last1 k]
    rw [← hfl1]
    rw [parsedChapter_fill ch k (front1.length + 1)]
    rw [show insertA (CP ++ [(natId (i + 1), parsedChapter ch k (front1.length + 1))])
          (natId (i + 1 + 1)) (parsedChapter ch2 (k + front1.length + 1) 0)
        = (CP ++ [(natId (i + 1), parsedChapter ch k (front1.length + 1))])
            ++ [(natId (i + 1 + 1), parsedChapter ch2 (k + front1.length + 1) 0)] from
      insertA_fresh _ _ _ (by
        rw [lookupA_append_none _ _ (hCP _ (by omega))]
        exact lookupA_single_ne (i + 1) (i + 1 + 1) _ (by omega))]
    rw [ih ch2 (fun c hc => hfacts c (List.mem_cons_of_mem ch hc))
      (i + 1) (k + front1.length + 1)
      (CP ++ [(natId (i + 1), parsedChapter ch k (front1.length + 1))])
      (SR ++ [natId (i + 1 + 1)])
      (SB ++ c1SceneListF (c1ScenesOf P ch) k)
      (splitNl (contentOf last1) ++ [[]])
      (fun q hq2 => by
        rw [lookupA_append_none _ _ (hCP q (by omega))]
        exact lookupA_single_ne (i + 1) q _ (by omega))
      (fun q hq2 => by
        rw [lookupA_append_none _ _ (hSB q (by omega))]
        refine c1SceneListF_lookup_gt _ _ _ ?_
        rw [hfl1, List.length_append, List.length_cons, List.length_nil]
        omega)]
    refine congrArg Except.ok ?_
    rw [show scenesOf P (ch :: ch2 :: rest2)
        = c1ScenesOf P ch ++ scenesOf P (ch2 :: rest2) from rfl]
    have hW : scenesOf P (ch2 :: rest2) ≠ [] := by
      intro hnil
      exact hne2 (List.append_eq_nil.mp hnil).1
    rw [c1SceneList_split (c1ScenesOf P ch) (scenesOf P (ch2 :: rest2)) k hW]
    rw [show c1ChapList P (ch :: ch2 :: rest2) i k
        = (natId (i + 1), parsedChapter ch k (c1ScenesOf P ch).length)
            :: c1ChapList P (ch2 :: rest2) (i + 1) (k + (c1ScenesOf P ch).length) from rfl]
    rw [show ((ch2 :: rest2).length : Nat) = rest2.length + 1 from rfl]
    rw [range_map_natId2 i rest2.length]
    rw [List.length_append]
    rw [show (c1ScenesOf P ch).length = front1.length + 1 from by
      rw [hfl1, List.length_append, List.length_cons, List.length_nil]]
    rw [show (List.getLast? (c1ScenesOf P ch ++ scenesOf P (ch2 :: rest2)))
        = List.getLast? (scenesOf P (ch2 :: rest2)) from by
      rcases List.eq_nil_or_concat (scenesOf P (ch2 :: rest2)) with hq2 | ⟨w, z, hwz⟩
      · exact absurd hq2 hW
      · rw [hwz, List.concat_eq_append, ← List.append_assoc]
        rw [List.getLast?_concat, List.getLast?_concat]]
    simp only [MdState.mk.injEq, List.append_assoc, List.cons_append,
      List.singleton_append]
    refine ⟨by omega, by omega, ?_, ?_, ?_, ?_, ?_, ?_⟩ <;>
      first
        | trivial
        | exact congrArg (fun n => some (natId n)) (by omega)

theorem range_map_natId0 (n : Nat) :
    (List.range (n + 1)).map (fun i => natId (i + 1))
      = natId 1 :: (List.range n).map (fun j => natId (0 + j + 2)) := by
  rw [List.range_succ_eq_map, List.map_cons, List.map_map]
  refine congrArg₂ _ rfl ?_
  refine congrArg (fun f => List.map f (List.range n)) ?_
  funext j
  simp only [Function.comp]
  exact congrArg natId (by omega)

theorem mdRun_c1Lines (P : Novel) (h : C1WF P) :
    mdRun false false {} (c1Lines P) = .ok (c1Final P) := by
  obtain ⟨hTne, hT, hAne, hA, hAlen, hAhd, hAlast, hCne, hchf⟩ := c1wf_facts P h
  rcases hcs : c1Chapters P with _ | ⟨ch1, rest⟩
  · exact absurd hcs hCne
  have hskip1 : mdStep false false {}
      ((("[b]").data) ++ P.title.getD [] ++ (("[/b]  ").data)) = .ok {} := by
    refine mdStep_skip {} _ ?_ ?_ rfl rfl
    · rw [show ((("[b]").data) ++ P.title.getD [] ++ (("[/b]  ").data)).head?
          = some '[' from rfl]
      decide
    · refine divider_not_substr ?_
      rw [List.count_append, List.count_append]
      rw [count_star_zero (fun c hc => (titleChar_no (hT c hc)).1)]
      decide
  have hskip3 : mdStep false false {}
      ((("[i]").data) ++ P.author.getD [] ++ (("[/i]  ").data)) = .ok {} := by
    refine mdStep_skip {} _ ?_ ?_ rfl rfl
    · rw [show ((("[i]").data) ++ P.author.getD [] ++ (("[/i]  ").data)).head?
          = some '[' from rfl]
      decide
    · refine divider_not_substr ?_
      rw [List.count_append, List.count_append]
      rw [count_star_zero (fun c hc => (titleChar_no (hA c hc)).1)]
      decide
  have hskip2 : mdStep false false {} (("  ").data) = .ok {} :=
    mdStep_skip {} _ (by decide) (by decide) rfl rfl
  rw [show c1Lines P
      = ((("[b]").data) ++ P.title.getD [] ++ (("[/b]  ").data))
          :: (("  ").data)
          :: ((("[i]").data) ++ P.author.getD [] ++ (("[/i]  ").data))
          :: (("  ").data)
          :: (c1Chapters P).foldr (fun ch acc => chapterLinesL P ch ++ acc) [] from rfl]
  rw [show ∀ (l : Str) (ls : List Str), mdRun false false {} (l :: ls)
      = bind (mdStep false false {} l) (fun st2 => mdRun false false st2 ls) from
    fun _ _ => rfl]
  rw [hskip1]
  simp only [bind, Except.bind]
  rw [show ∀ (l : Str) (ls : List Str), mdRun false false {} (l :: ls)
      = bind (mdStep false false {} l) (fun st2 => mdRun false false st2 ls) from
    fun _ _ => rfl]
  rw [hskip2]
  simp only [bind, Except.bind]
  rw [show ∀ (l : Str) (ls : List Str), mdRun false false {} (l :: ls)
      = bind (mdStep false false {} l) (fun st2 => mdRun false false st2 ls) from
    fun _ _ => rfl]
  rw [hskip3]
  simp only [bind, Except.bind]
  rw [show ∀ (l : Str) (ls : List Str), mdRun false false {} (l :: ls)
      = bind (mdStep false false {} l) (fun st2 => mdRun false false st2 ls) from
    fun _ _ => rfl]
  rw [hskip2]
  simp only [bind, Except.bind]
  rw [hcs, List.foldr_cons]
  rw [show chapterLinesL P ch1
      = (hashesOf ch1 ++ chTitleOf ch1) :: scenesLinesL (c1ScenesOf P ch1) from rfl]
  rw [show (((hashesOf ch1 ++ chTitleOf ch1) :: scenesLinesL (c1ScenesOf P ch1))
        ++ List.foldr (fun c acc => chapterLinesL P c ++ acc) [] rest : List Str)
      = (hashesOf ch1 ++ chTitleOf ch1)
          :: (scenesLinesL (c1ScenesOf P ch1)
            ++ List.foldr (fun c acc => chapterLinesL P c ++ acc) [] rest) from rfl]
  rw [show ∀ (l : Str) (ls : List Str), mdRun false false {} (l :: ls)
      = bind (mdStep false false {} l) (fun st2 => mdRun false false st2 ls) from
    fun _ _ => rfl]
  have hch1 := hchf ch1 (by rw [hcs]; exact List.mem_cons_self ch1 rest)
  rw [mdStep_heading_none {} ch1 0 hch1.1 rfl]
  simp only [bind, Except.bind]
  have hfacts : ∀ c ∈ ch1 :: rest, (∀ x ∈ chTitleOf c, titleChar x = true) ∧
      c1ScenesOf P c ≠ [] ∧ ∀ sc ∈ c1ScenesOf P c, scOkB sc := by
    intro c hc
    obtain ⟨h1, h2, h3⟩ := hchf c (by rw [hcs]; exact hc)
    exact ⟨h1, h2, fun sc hsc => h3 sc hsc⟩
  refine Eq.trans (mdRun_chap_loop P rest ch1 hfacts 0 0 [] ([] ++ [natId (0 + 1)]) [] []
    (fun q _ => rfl) (fun q _ => rfl)) ?_
  refine congrArg Except.ok ?_
  unfold c1Final
  rw [show c1Scenes P = scenesOf P (ch1 :: rest) from by
    unfold c1Scenes scenesOf
    rw [hcs]]
  rw [hcs]
  rw [show ((ch1 :: rest).length : Nat) = rest.length + 1 from rfl]
  rw [range_map_natId0 rest.length]
  simp only [MdState.mk.injEq, List.nil_append, List.singleton_append, Nat.zero_add,
    List.cons_append]
  refine ⟨?_, ?_, ?_, ?_, ?_, ?_, ?_, ?_⟩ <;>
    first
      | trivial
      | omega
      | exact congrArg natId (by omega)
      | exact congrArg (fun n => some (natId n)) (by omega)

/-- MdFile.read applied to the exported text of a well-formed project:
the non-native conversion, the split into lines and the scan produce
exactly the final scanner state. -/
theorem mdRead_export (P : Novel) (h : C1WF P) :
    mdRead false false (exportRaw P) = .ok (c1Final P) := by
  unfold mdRead
  rw [c1_lines_pipeline P h]
  exact mdRun_c1Lines P h

theorem flushedScene_title (sc : Scene) :
    (flushedScene sc).title = some (scTitleOf sc) := rfl

theorem flushedScene_content (sc : Scene) :
    (flushedScene sc).sceneContent = some (contentOf sc ++ ['\n']) := rfl

theorem c1SceneListF_lookup : ∀ (scs : List Scene) (k0 j : Nat), j < scs.length →
    lookupA (c1SceneListF scs k0) (natId (k0 + j + 1))
      = some (flushedScene (scs.getD j {})) := by
  intro scs
  induction scs with
  | nil =>
    intro k0 j hj
    simp at hj
  | cons sc rest ih =>
    intro k0 j hj
    rw [show c1SceneListF (sc :: rest) k0
        = (natId (k0 + 1), flushedScene sc) :: c1SceneListF rest (k0 + 1) from rfl]
    cases j with
    | zero =>
      simp [lookupA]
    | succ j2 =>
      simp only [lookupA]
      rw [if_neg (fun hq => by have := natId_inj hq; omega)]
      rw [show k0 + (j2 + 1) + 1 = (k0 + 1) + j2 + 1 from by omega]
      rw [ih (k0 + 1) j2 (by simp only [List.length_cons] at hj; omega)]
      rfl

theorem c1ChapList_lookup_title (P : Novel) : ∀ (chs : List Chapter) (i0 k0 j : Nat),
    j < chs.length →
    ∃ chR, lookupA (c1ChapList P chs i0 k0) (natId (i0 + j + 1)) = some chR ∧
      chR.title = some (chTitleOf (chs.getD j {})) := by
  intro chs
  induction chs with
  | nil =>
    intro i0 k0 j hj
    simp at hj
  | cons ch rest ih =>
    intro i0 k0 j hj
    rw [show c1ChapList P (ch :: rest) i0 k0
        = (natId (i0 + 1), parsedChapter ch k0 (c1ScenesOf P ch).length)
            :: c1ChapList P rest (i0 + 1) (k0 + (c1ScenesOf P ch).length) from rfl]
    cases j with
    | zero =>
      refine ⟨parsedChapter ch k0 (c1ScenesOf P ch).length, by simp [lookupA], rfl⟩
    | succ j2 =>
      rw [show lookupA ((natId (i0 + 1), parsedChapter ch k0 (c1ScenesOf P ch).length)
            :: c1ChapList P rest (i0 + 1) (k0 + (c1ScenesOf P ch).length))
            (natId (i0 + (j2 + 1) + 1))
          = lookupA (c1ChapList P rest (i0 + 1) (k0 + (c1ScenesOf P ch).length))
              (natId (i0 + (j2 + 1) + 1)) from by
        simp only [lookupA]
        rw [if_neg (fun hq => by have := natId_inj hq; omega)]]
      rw [show i0 + (j2 + 1) + 1 = (i0 + 1) + j2 + 1 from by omega]
      obtain ⟨chR, hlk, hti⟩ := ih (i0 + 1) (k0 + (c1ScenesOf P ch).length) j2
        (by simp only [List.length_cons] at hj; omega)
      exact ⟨chR, hlk, hti⟩

theorem getD_append_left {α : Type} (d : α) :
    ∀ (l l2 : List α) (j : Nat), j < l.length → (l ++ l2).getD j d = l.getD j d := by
  intro l
  induction l with
  | nil =>
    intro l2 j hj
    simp at hj
  | cons x rest ih =>
    intro l2 j hj
    cases j with
    | zero => rfl
    | succ j2 =>
      rw [List.cons_append]
      rw [show ((x :: (rest ++ l2)).getD (j2 + 1) d) = (rest ++ l2).getD j2 d from rfl]
      rw [show ((x :: rest).getD (j2 + 1) d) = rest.getD j2 d from rfl]
      exact ih l2 j2 (by simp only [List.length_cons] at hj; omega)

theorem getD_concat_last {α : Type} (d a : α) :
    ∀ (l : List α), (l ++ [a]).getD l.length d = a := by
  intro l
  induction l with
  | nil => rfl
  | cons x rest ih =>
    rw [List.cons_append]
    rw [show ((x :: rest).length : Nat) = rest.length + 1 from rfl]
    rw [show ((x :: (rest ++ [a])).getD (rest.length + 1) d)
        = (rest ++ [a]).getD rest.length d from rfl]
    exact ih

/-- C1 (amended): for every well-formed project, exporting and re-reading
in non-native mode succeeds and reconstructs the chapter count, the scene
count, every chapter title and every scene title; every scene except the
last in document order gets content equal to the original followed by one
newline, while the last scene of the document is still open when the line
loop ends and keeps an unset content. -/
theorem c1_amended (P : Novel) (h : C1WF P) :
    mdGetText P = .ok (exportRaw P) ∧
    mdRead false false (exportRaw P) = .ok (c1Final P) ∧
    (c1Final P).chCount = (c1Chapters P).length ∧
    (c1Final P).scCount = (c1Scenes P).length ∧
    (∀ j, j < (c1Chapters P).length → ∃ chR,
      lookupA (c1Final P).chapters (natId (j + 1)) = some chR ∧
      chR.title = some (chTitleOf ((c1Chapters P).getD j {}))) ∧
    (∀ j, j + 1 < (c1Scenes P).length → ∃ scR,
      lookupA (c1Final P).scenes (natId (j + 1)) = some scR ∧
      scR.title = some (scTitleOf ((c1Scenes P).getD j {})) ∧
      scR.sceneContent = some (contentOf ((c1Scenes P).getD j {}) ++ ['\n'])) ∧
    (∃ scR, lookupA (c1Final P).scenes (natId (c1Scenes P).length) = some scR ∧
      scR.title = some (scTitleOf ((c1Scenes P).getD ((c1Scenes P).length - 1) {})) ∧
      scR.sceneContent = none) := by
  have hSne : c1Scenes P ≠ [] := by
    obtain ⟨-, -, -, -, -, -, -, hCne, hchf⟩ := c1wf_facts P h
    rcases hcs : c1Chapters P with _ | ⟨ch1, rest⟩
    · exact absurd hcs hCne
    have h1 := (hchf ch1 (by rw [hcs]; exact List.mem_cons_self ch1 rest)).2.1
    intro hnil
    rw [show c1Scenes P
        = c1ScenesOf P ch1 ++ rest.foldr (fun c acc => c1ScenesOf P c ++ acc) [] from by
      unfold c1Scenes
      rw [hcs]
      rfl] at hnil
    exact h1 (List.append_eq_nil.mp hnil).1
  rcases List.eq_nil_or_concat (c1Scenes P) with hq | ⟨front, lastsc, hfl⟩
  · exact absurd hq hSne
  rw [List.concat_eq_append] at hfl
  refine ⟨mdGetText_wf P h, mdRead_export P h, rfl, rfl, ?_, ?_, ?_⟩
  · intro j hj
    obtain ⟨chR, hlk, hti⟩ := c1ChapList_lookup_title P (c1Chapters P) 0 0 j hj
    refine ⟨chR, ?_, hti⟩
    rw [show j + 1 = 0 + j + 1 from by omega]
    exact hlk
  · intro j hj
    have hjf : j < front.length := by
      rw [hfl, List.length_append, List.length_cons, List.length_nil] at hj
      omega
    refine ⟨flushedScene (front.getD j {}), ?_, ?_, ?_⟩
    · rw [show (c1Final P).scenes = c1SceneList (c1Scenes P) 0 from rfl]
      rw [hfl, c1SceneList_last front lastsc 0]
      rw [show j + 1 = 0 + j + 1 from by omega]
      exact lookupA_append_some _ (c1SceneListF_lookup front 0 j hjf)
    · rw [flushedScene_title]
      rw [hfl, getD_append_left _ front [lastsc] j hjf]
    · rw [flushedScene_content]
      rw [hfl, getD_append_left _ front [lastsc] j hjf]
  · refine ⟨parsedScene lastsc, ?_, ?_, rfl⟩
    · rw [show (c1Final P).scenes = c1SceneList (c1Scenes P) 0 from rfl]
      rw [hfl, c1SceneList_last front lastsc 0]
      rw [show (front ++ [lastsc] : List Scene).length = 0 + front.length + 1 from by
        rw [List.length_append, List.length_cons, List.length_nil]
        omega]
      rw [lookupA_append_none _ _ (c1SceneListF_lookup_gt front 0 _ (by omega))]
      simp [lookupA]
    · rw [hfl]
      rw [show (front ++ [lastsc] : List Scene).length - 1 = front.length from by
        rw [List.length_append, List.length_cons, List.length_nil]
        omega]
      rw [getD_concat_last]
      rfl

/-- A minimal well-formed project: one chapter holding one scene. -/
def c1ceScene : Scene :=
  { title := some (("S").data)
    sceneContent := some (("Hello world.").data)
    status := some (Sum.inr 2) }

def c1ceChap : Chapter :=
  { title := some (("Alpha").data)
    srtScenes := some [("1").data] }

def c1ce : Novel :=
  { title := some (("T").data)
    author := some (("Abc").data)
    chapters := [((("c").data), c1ceChap)]
    scenes := [((("1").data), c1ceScene)]
    srtChapters := [("c").data] }

theorem c1ceWF : C1WF c1ce := by
  refine ⟨⟨(("T").data), rfl, by decide, by decide⟩,
    ⟨(("Abc").data), rfl, by decide, by decide, by decide, by decide⟩,
    by decide, ?_, ?_, ?_, ?_⟩
  · intro cid hcid
    rcases List.mem_cons.mp hcid with hcid | hcid
    · subst hcid
      refine ⟨c1ceChap, rfl, ⟨(("Alpha").data), rfl, by decide⟩, Or.inl rfl,
        by decide, by decide, by decide, ⟨[("1").data], rfl, by decide, ?_⟩⟩
      intro sid hsid
      rcases List.mem_cons.mp hsid with hsid | hsid
      · subst hsid
        refine ⟨c1ceScene, rfl, ⟨(("S").data), rfl, by decide⟩,
          ⟨(("Hello world.").data), rfl, by decide, by decide⟩,
          ⟨2, rfl, by decide⟩, by decide, by decide, by decide, by decide,
          by decide, rfl, rfl, rfl, rfl⟩
      · exact absurd hsid (List.not_mem_nil sid)
    · exact absurd hcid (List.not_mem_nil cid)
  · intro id hid
    exact absurd hid (List.not_mem_nil id)
  · intro id hid
    exact absurd hid (List.not_mem_nil id)
  · intro id hid
    exact absurd hid (List.not_mem_nil id)

/-- C1 counterexample: on a well-formed one-chapter one-scene project the
round trip runs without error but hands back a scene whose content is
unset, not the original content up to newline normalization: the single
scene is still open when the lines run out and MdFile.read never flushes
it. -/
theorem c1_counterexample :
    mdGetText c1ce = .ok (exportRaw c1ce)
    ∧ mdRead false false (exportRaw c1ce) = .ok (c1Final c1ce)
    ∧ (lookupA c1ce.scenes (("1").data)).map Scene.sceneContent
        = some (some (("Hello world.").data))
    ∧ (lookupA (c1Final c1ce).scenes (natId 1)).map Scene.sceneContent = some none := by
  exact ⟨mdGetText_wf c1ce c1ceWF, mdRead_export c1ce c1ceWF, rfl, rfl⟩

/-- C1 witness: the amended round-trip theorem applied to the concrete
one-chapter one-scene project, its well-formedness discharged
explicitly. -/
theorem c1_amended_witness :
    C1WF c1ce ∧
    (mdGetText c1ce = .ok (exportRaw c1ce) ∧
     mdRead false false (exportRaw c1ce) = .ok (c1Final c1ce) ∧
     (c1Final c1ce).chCount = (c1Chapters c1ce).length ∧
     (c1Final c1ce).scCount = (c1Scenes c1ce).length ∧
     (∀ j, j < (c1Chapters c1ce).length → ∃ chR,
       lookupA (c1Final c1ce).chapters (natId (j + 1)) = some chR ∧
       chR.title = some (chTitleOf ((c1Chapters c1ce).getD j {}))) ∧
     (∀ j, j + 1 < (c1Scenes c1ce).length → ∃ scR,
       lookupA (c1Final c1ce).scenes (natId (j + 1)) = some scR ∧
       scR.title = some (scTitleOf ((c1Scenes c1ce).getD j {})) ∧
       scR.sceneContent = some (contentOf ((c1Scenes c1ce).getD j {}) ++ ['\n'])) ∧
     (∃ scR, lookupA (c1Final c1ce).scenes (natId (c1Scenes c1ce).length) = some scR ∧
       scR.title = some (scTitleOf ((c1Scenes c1ce).getD
         ((c1Scenes c1ce).length - 1) {})) ∧
       scR.sceneContent = none)) :=
  ⟨c1ceWF, c1_amended c1ce c1ceWF⟩

end Yw2md
